import Mathlib

/-!
# UnorderedMap: a bucket-indexed linked hash table

Shallow embedding of `src/unordered_map.h`.

* The inner class `List<T, Alloc>` is a circular doubly linked list around the
  sentinel `fakeNode_`.  A list is represented by the nodes met when walking
  `fakeNode_.next`, `->next`, ... until the sentinel comes back; every node
  carries the identity (`id`) of its heap cell, so that a `BaseNode*` can be
  compared and followed.  `size_` is incremented by `push_ptr` and
  decremented by `deleteNode` / `deleteShell` together with the links, so it
  is the length of the node list.
* `std::vector<BaseNodePtr> table_` is a list of optional pointers, `none`
  being `nullptr`.
* Every operation returns an `Option`: `some` is the state (and result) of a
  call that returns to its caller.  `none` stands for undefined behaviour of
  the C++ code (a null or dangling pointer is followed, a vector is indexed
  out of range, `% 0`) and for a call left by an exception: the only one
  modelled is thrown by the constructor of `std::vector` in `rehash` (line
  572), and `rehash_throws` gives the state that call leaves behind.  Where a
  loop or a recursion of the source has no structural bound
  (`erase(first, last)`, the `const` overloads) the definition takes a bound
  as its first argument and `none` also means that the bound was reached.
* The allocation of a node always succeeds; the allocation of a bucket array
  succeeds up to `vector_max_size` and up to `vec_limit`, what the environment
  of the object can deliver.
* The `double` members `load_factor_` and `max_load_factor_` are kept as
  fractions of naturals: `load_factor_` as the quotient the code divides,
  `max_load_factor_` as the number the member was set from (0.8 is 4/5).
  `reserve` computes with their IEEE-754 values (`to_double`).
* `size_t` is 64 bits wide: the products `table_size_ * 2` and `2 * count`
  are taken modulo `2 ^ 64`.  Counters that are bounded by the memory in use
  (`size_`, the identities of the heap cells) are plain naturals.
* `Equal` is `std::equal_to<Key>`, i.e. decidable equality of the keys;
  `Hash` is an arbitrary function to the naturals.
-/

namespace UMap

/-- A value of type `BaseNode*`. -/
inductive BaseNodePtr where
  /-- `&inner_list_.fakeNode_`, the sentinel of the map's own list -/
  | fake
  /-- the sentinel of another list object: `&temp.fakeNode_` of the local list
  built by `rehash`, or the `fakeNode_` of the source of a move -/
  | tempFake
  /-- the heap cell with this identity -/
  | node (id : Nat)
  deriving DecidableEq, Repr

/-- A `List::Node`: the heap cell `id` holding a `std::pair<const Key, Value>`. -/
structure Node (K V : Type) where
  id : Nat
  key : K
  value : V
  deriving DecidableEq, Repr

/-- The `std::pair<const Key, Value>` a node holds. -/
def Node.kv {K V : Type} (n : Node K V) : K × V := (n.key, n.value)

/-- A non-negative `double` kept exactly, as `num / den`. -/
structure Frac where
  num : Nat
  den : Nat
  deriving DecidableEq, Repr

/-- Comparison `a >= b` of two fractions, by cross multiplication. -/
def Frac.ge (a b : Frac) : Bool := decide (b.num * a.den ≤ a.num * b.den)

/-- Comparison `a <= b` of two fractions, by cross multiplication. -/
def Frac.le (a b : Frac) : Bool := decide (a.num * b.den ≤ b.num * a.den)

/-- Exact quotient of two fractions. -/
def Frac.div (a b : Frac) : Frac := ⟨a.num * b.den, a.den * b.num⟩

/-- Conversion of a non-negative `double` to `size_t`: the fraction is dropped. -/
def Frac.trunc (a : Frac) : Nat := a.num / a.den

/-- Number of binary digits of `n`; the first argument bounds the loop. -/
def bitsAux : Nat → Nat → Nat
  | 0, _ => 0
  | fuel + 1, n => if n = 0 then 0 else bitsAux fuel (n / 2) + 1

/-- Number of binary digits of `n` (0 for 0). -/
def bits (n : Nat) : Nat := bitsAux n n

/-- The `double` (IEEE-754 binary64, round to nearest, ties to even) nearest to
the positive fraction `x`: the result of a conversion or of a division whose
exact value is `x`.  `x` is scaled by a power of two into
`[2 ^ 52, 2 ^ 53)`, rounded to an integer `mant1`, and scaled back: the result
is `mant1 * 2 ^ dn / 2 ^ up`.  The exponent is not bounded: the result is the
`double` for the values `Frac.normal` admits.  Zero stays zero. -/
def to_double (x : Frac) : Frac :=
  if x.num = 0 ∨ x.den = 0 then x
  else
    let up := 53 + bits x.den - bits x.num
    let dn0 := bits x.num - (53 + bits x.den)
    let dn := if 2 ^ 53 * (x.den * 2 ^ dn0) ≤ x.num * 2 ^ up then dn0 + 1 else dn0
    let mant := x.num * 2 ^ up / (x.den * 2 ^ dn)
    let r := x.num * 2 ^ up % (x.den * 2 ^ dn)
    let mant1 := if 2 * r < x.den * 2 ^ dn then mant
      else if x.den * 2 ^ dn < 2 * r then mant + 1
      else if mant % 2 = 0 then mant else mant + 1
    ⟨mant1 * 2 ^ dn, 2 ^ up⟩

/-- The range in which `to_double` is the IEEE-754 `double`: `x` lies between
`2 ^ -1022`, the least normal `double`, and `2 ^ 1023`. -/
def Frac.normal (x : Frac) : Bool :=
  decide (0 < x.den ∧ x.den ≤ 2 ^ 1022 * x.num ∧ x.num < 2 ^ 1023 * x.den)

/-- Whether the `double` nearest to `x` is zero: `x` is at most `2 ^ -1075`, half
the least positive `double`. -/
def Frac.underflows (x : Frac) : Bool := decide (x.num * 2 ^ 1075 ≤ x.den)

/-- The rational number a fraction stands for. -/
def Frac.val (x : Frac) : ℚ := (x.num : ℚ) / (x.den : ℚ)

/-- Exponent of the power of two `to_double` multiplies `x` by. -/
def dbl_up (x : Frac) : Nat := 53 + bits x.den - bits x.num

/-- Exponent of the power of two `to_double` divides `x` by. -/
def dbl_dn (x : Frac) : Nat :=
  if 2 ^ 53 * (x.den * 2 ^ (bits x.num - (53 + bits x.den))) ≤ x.num * 2 ^ dbl_up x
  then bits x.num - (53 + bits x.den) + 1 else bits x.num - (53 + bits x.den)

/-- Integer `to_double` rounds the scaled `x` to. -/
def dbl_mant (x : Frac) : Nat :=
  if 2 * (x.num * 2 ^ dbl_up x % (x.den * 2 ^ dbl_dn x)) < x.den * 2 ^ dbl_dn x then
    x.num * 2 ^ dbl_up x / (x.den * 2 ^ dbl_dn x)
  else if x.den * 2 ^ dbl_dn x < 2 * (x.num * 2 ^ dbl_up x % (x.den * 2 ^ dbl_dn x)) then
    x.num * 2 ^ dbl_up x / (x.den * 2 ^ dbl_dn x) + 1
  else if x.num * 2 ^ dbl_up x / (x.den * 2 ^ dbl_dn x) % 2 = 0 then
    x.num * 2 ^ dbl_up x / (x.den * 2 ^ dbl_dn x)
  else x.num * 2 ^ dbl_up x / (x.den * 2 ^ dbl_dn x) + 1

/-! ## The linked list (`class List`) -/

namespace LinkedList

variable {K V : Type}

/-- Pointer to the first node of a chain, the sentinel `s` when the chain is
over. -/
def headPtr (s : BaseNodePtr) : List (Node K V) → BaseNodePtr
  | [] => s
  | n :: _ => .node n.id

/-- Nodes that follow the cell `i` in the chain; `none` when no linked cell has
that identity (the pointer dangles). -/
def afterId : List (Node K V) → Nat → Option (List (Node K V))
  | [], _ => none
  | n :: rest, i => if n.id = i then some rest else afterId rest i

/-- Nodes met from `p->next` on, up to the sentinel `s`. -/
def after (s : BaseNodePtr) (l : List (Node K V)) (p : BaseNodePtr) :
    Option (List (Node K V)) :=
  if p = s then some l
  else match p with
    | .node i => afterId l i
    | _ => none

/-- Field access `p->next`. -/
def next (s : BaseNodePtr) (l : List (Node K V)) (p : BaseNodePtr) :
    Option BaseNodePtr :=
  (after s l p).map (headPtr s)

/-- Field access `fakeNode_.prev`: the last node, the sentinel itself when the
list is empty. -/
def back (s : BaseNodePtr) : List (Node K V) → BaseNodePtr
  | [] => s
  | [n] => .node n.id
  | _ :: m :: rest => back s (m :: rest)

/-- Cast `static_cast<Node*>(p)` followed by a read of the element; `none` for
the sentinel and for a dangling pointer. -/
def getNode (l : List (Node K V)) : BaseNodePtr → Option (Node K V)
  | .node i => l.find? (fun n => decide (n.id = i))
  | _ => none

/-- Links `nd` right after the cell `i`. -/
def insertAfterId (nd : Node K V) : List (Node K V) → Nat → Option (List (Node K V))
  | [], _ => none
  | n :: rest, i =>
    if n.id = i then some (n :: nd :: rest)
    else (insertAfterId nd rest i).map (fun r => n :: r)

/-- Member `push_ptr(prev, next, newData)` (lines 174-185): a new node is
constructed between `prev` and `next`.  Every call in the map passes
`next = prev->next` (or `prev = fakeNode_.prev`, `next = &fakeNode_`), so the
node lands right after `prev`. -/
def push_ptr (s : BaseNodePtr) (l : List (Node K V)) (prev : BaseNodePtr)
    (nd : Node K V) : Option (List (Node K V)) :=
  if prev = s then some (nd :: l)
  else match prev with
    | .node i => insertAfterId nd l i
    | _ => none

/-- Unlinks the cell `i`. -/
def removeId : List (Node K V) → Nat → Option (List (Node K V))
  | [], _ => none
  | n :: rest, i =>
    if n.id = i then some rest else (removeId rest i).map (fun r => n :: r)

/-- Member `deleteNode(ptr)` (lines 125-137), also reached through
`erase(const_iterator)`: the node is unlinked and freed. -/
def deleteNode (l : List (Node K V)) : BaseNodePtr → Option (List (Node K V))
  | .node i => removeId l i
  | _ => none

end LinkedList

open LinkedList

/-! ## The hash table -/

/-- Data members of `UnorderedMap` (lines 423-430), and two facts about the
heap the object lives on: `next_id` is the identity the allocator hands to the
next node, `vec_limit` the largest number of pointers a `std::vector` can be
built with (beyond it the constructor throws `std::bad_alloc`). -/
structure UnorderedMap (K V : Type) where
  table_size_ : Nat
  inner_list_ : List (Node K V)
  table_ : List (Option BaseNodePtr)
  hash_ : K → Nat
  load_factor_ : Frac
  max_load_factor_ : Frac
  next_id : Nat
  vec_limit : Nat

namespace UnorderedMap

variable {K V : Type} [DecidableEq K]

/-- Value of `std::vector<BaseNodePtr>::max_size()`: `PTRDIFF_MAX` over the
size of a pointer (libstdc++, 64 bits). -/
def vector_max_size : Nat := 2 ^ 60 - 1

/-- Default constructor (lines 456-457) with the member initialisers of lines
423-430: 128 buckets, all slots null, `max_load_factor_ = 0.8`.  The object
lives where memory is plentiful: every vector up to `vector_max_size` can be
built. -/
def default_ctor (hash : K → Nat) : UnorderedMap K V :=
  { table_size_ := 128
    inner_list_ := []
    table_ := List.replicate 128 none
    hash_ := hash
    load_factor_ := ⟨0, 1⟩
    max_load_factor_ := ⟨4, 5⟩
    next_id := 1
    vec_limit := vector_max_size }

/-- Whether `std::vector<BaseNodePtr>(len, nullptr)` (line 572) is built: the
constructor throws `std::length_error` for `len` above `max_size()` and
`std::bad_alloc` when the environment cannot deliver `len` pointers. -/
def vector_fits (m : UnorderedMap K V) (len : Nat) : Bool :=
  decide (len ≤ vector_max_size ∧ len ≤ m.vec_limit)

/-- Expression `h % table_size_` on `size_t`. -/
def modIdx (h ts : Nat) : Option Nat :=
  if ts = 0 then none else some (h % ts)

/-- Bucket of a key: `hash_(key) % table_size_`. -/
def bucket (m : UnorderedMap K V) (k : K) : Nat := m.hash_ k % m.table_size_

/-- Member `size()`. -/
def size (m : UnorderedMap K V) : Nat := m.inner_list_.length

/-- Member `begin()`. -/
def begin_ (m : UnorderedMap K V) : BaseNodePtr := headPtr .fake m.inner_list_

/-- Member `end()`. -/
def end_ (_m : UnorderedMap K V) : BaseNodePtr := .fake

/-- Loop of `find` (lines 525-534) over the nodes from `start` to the
sentinel. -/
def findLoop (m : UnorderedMap K V) (key : K) (hash : Nat) :
    List (Node K V) → BaseNodePtr
  | [] => .fake
  | n :: rest =>
    if m.hash_ n.key % m.table_size_ ≠ hash then .fake
    else if n.key = key then .node n.id
    else findLoop m key hash rest

/-- Member `find(const Key&)` (lines 518-535). -/
def find (m : UnorderedMap K V) (key : K) : Option BaseNodePtr := do
  let hash ← modIdx (m.hash_ key) m.table_size_
  let slot ← m.table_[hash]?
  match slot with
  | none => some .fake
  | some a =>
    let start ← after .fake m.inner_list_ a
    some (findLoop m key hash start)

/-- Member `erase(iterator)` (lines 672-687). -/
def erase (m : UnorderedMap K V) (it : BaseNodePtr) : Option (UnorderedMap K V) := do
  let nd ← getNode m.inner_list_ it
  let next ← LinkedList.next .fake m.inner_list_ it
  let hs ← modIdx (m.hash_ nd.key) m.table_size_
  let prev ← m.table_[hs]?
  let anchor ← prev
  let first ← LinkedList.next .fake m.inner_list_ anchor
  let table1 := if it = first then m.table_.set hs none else m.table_
  let l ← deleteNode m.inner_list_ it
  match next with
  | .node j =>
    let nn ← getNode l (.node j)
    let hs2 ← modIdx (m.hash_ nn.key) m.table_size_
    if hs2 < table1.length then
      some { m with inner_list_ := l, table_ := table1.set hs2 prev }
    else none
  | _ => some { m with inner_list_ := l, table_ := table1 }

/-- Loop of `rehash` (lines 573-584): the nodes of `inner_list_` are taken from
the front one by one; each payload gets a new shell in `temp`, whose sentinel
is `tempFake`.  Returns `temp`, the table and the next free identity. -/
def rehashLoop (hash : K → Nat) (ts : Nat) :
    List (Node K V) → List (Node K V) → List (Option BaseNodePtr) → Nat →
    Option (List (Node K V) × List (Option BaseNodePtr) × Nat)
  | [], temp, table, fresh => some (temp, table, fresh)
  | n :: rest, temp, table, fresh => do
    let obj_hash ← modIdx (hash n.key) ts
    let slot ← table[obj_hash]?
    let nd : Node K V := ⟨fresh, n.key, n.value⟩
    match slot with
    | some a =>
      let temp1 ← push_ptr .tempFake temp a nd
      rehashLoop hash ts rest temp1 table (fresh + 1)
    | none =>
      let table1 := table.set obj_hash (some (back .tempFake temp))
      let temp1 ← push_ptr .tempFake temp (back .tempFake temp) nd
      rehashLoop hash ts rest temp1 table1 (fresh + 1)

/-- Member `rehash(sz)` (lines 569-592), a call that returns.  The length
`table_size_ * 2` of the new vector is a product of `size_t` values; when the
vector cannot be built the constructor throws and the call does not return
(see `rehash_throws`). -/
def rehash (m : UnorderedMap K V) (sz : Nat) : Option (UnorderedMap K V) :=
  if vector_fits m (sz * 2 % 2 ^ 64) = true then do
    let r ← rehashLoop m.hash_ sz m.inner_list_ [] (List.replicate (sz * 2 % 2 ^ 64) none)
      m.next_id
    let m1 : UnorderedMap K V :=
      { m with table_size_ := sz, inner_list_ := r.1, table_ := r.2.1, next_id := r.2.2 }
    match m1.inner_list_ with
    | [] => some m1
    | n :: _ =>
      let hs ← modIdx (m1.hash_ n.key) m1.table_size_
      if hs < m1.table_.length then
        some { m1 with table_ := m1.table_.set hs (some .fake) }
      else none
  else none

/-- Member `rehash(sz)` (lines 569-592), a call left by the exception of the
constructor of line 572: line 571 has stored `table_size_ = sz`, `table_` and
`inner_list_` are as before, the local list `temp` is destroyed empty.  `none`
when the vector is built. -/
def rehash_throws (m : UnorderedMap K V) (sz : Nat) : Option (UnorderedMap K V) :=
  if vector_fits m (sz * 2 % 2 ^ 64) = true then none
  else some { m with table_size_ := sz }

/-- Member `emplace(args...)` (lines 612-650), which `insert` forwards to.
Returns the iterator, the flag and the new state.  When the rehash of line 631
is left by the exception of line 572, the handler of lines 632-636 passes it
on and the call does not return. -/
def emplace (m : UnorderedMap K V) (key : K) (value : V) :
    Option (BaseNodePtr × Bool × UnorderedMap K V) := do
  let obj_hash ← modIdx (m.hash_ key) m.table_size_
  let it ← find m key
  let (m1, found) ← (if it ≠ end_ m then (erase m it).map (fun s => (s, false))
    else some (m, true))
  let m2 ← (if m1.load_factor_.ge m1.max_load_factor_ then
      rehash m1 (m1.table_size_ * 2 % 2 ^ 64)
    else some m1)
  let m3 : UnorderedMap K V :=
    { m2 with load_factor_ := ⟨m2.inner_list_.length, m2.table_.length⟩ }
  let nd : Node K V := ⟨m3.next_id, key, value⟩
  let slot ← m3.table_[obj_hash]?
  match slot with
  | none =>
    let tail := back .fake m3.inner_list_
    let l ← push_ptr .fake m3.inner_list_ tail nd
    some (.node nd.id, found,
      { m3 with table_ := m3.table_.set obj_hash (some tail), inner_list_ := l,
                next_id := m3.next_id + 1 })
  | some prev =>
    let l ← push_ptr .fake m3.inner_list_ prev nd
    let r ← LinkedList.next .fake l prev
    some (r, found, { m3 with inner_list_ := l, next_id := m3.next_id + 1 })

/-- Member `insert(const NodeType&)` (lines 656-658). -/
def insert (m : UnorderedMap K V) (kv : K × V) :
    Option (BaseNodePtr × Bool × UnorderedMap K V) :=
  emplace m kv.1 kv.2

/-- Member `insert(InputIterator, InputIterator)` (lines 665-670); the range
is given by the elements it yields. -/
def insert_range (m : UnorderedMap K V) : List (K × V) → Option (UnorderedMap K V)
  | [] => some m
  | kv :: rest => do
    let r ← insert m kv
    insert_range r.2.2 rest

/-- Member `erase(InputIterator, InputIterator)` (lines 689-697).  The first
argument bounds the number of loop iterations. -/
def erase_range : Nat → UnorderedMap K V → BaseNodePtr → BaseNodePtr →
    Option (UnorderedMap K V)
  | 0, _, _, _ => none
  | fuel + 1, m, it_start, it_end =>
    if it_start = it_end then some m
    else do
      let nxt ← LinkedList.next .fake m.inner_list_ it_start
      let m1 ← erase m it_start
      erase_range fuel m1 nxt it_end

/-- What a call of `at` yields: a reference to a value, or the exception
`std::range_error`. -/
inductive AtResult (V : Type) where
  | value (v : V)
  | range_error
  deriving DecidableEq, Repr

/-- Member `at(const Key&)` (lines 708-714); the state after the call is
returned with the result. -/
def at_ (m : UnorderedMap K V) (key : K) : Option (AtResult V × UnorderedMap K V) := do
  let res ← find m key
  if res = end_ m then some (.range_error, m)
  else do
    let nd ← getNode m.inner_list_ res
    some (.value nd.value, m)

/-- Member `find(Key&&)` (lines 537-555). -/
def find_rv (m : UnorderedMap K V) (key : K) : Option BaseNodePtr := do
  let hash ← modIdx (m.hash_ key) m.table_size_
  let slot ← m.table_[hash]?
  match slot with
  | none => some .fake
  | some a =>
    let start ← after .fake m.inner_list_ a
    some (findLoop m key hash start)

/-- Member `at(Key&&)` (lines 720-726). -/
def at_rv (m : UnorderedMap K V) (key : K) : Option (AtResult V × UnorderedMap K V) := do
  let res ← find_rv m key
  if res = end_ m then some (.range_error, m)
  else do
    let nd ← getNode m.inner_list_ res
    some (.value nd.value, m)

/-- Member `at(const Key&) const` (lines 716-718).  Its body `return at(key);`
is compiled with `this` of type `const UnorderedMap*`, so overload resolution
can only pick a `const` member taking an lvalue: this very function.  The
first argument bounds the depth of the recursion; `none` is "no result within
that depth". -/
def at_const : Nat → UnorderedMap K V → K → Option (AtResult V)
  | 0, _, _ => none
  | fuel + 1, m, key => at_const fuel m key

/-- Member `at(Key&&) const` (lines 728-730): `return at(std::move(key));`
selects the `const` overload taking an rvalue, the function itself. -/
def at_const_rv : Nat → UnorderedMap K V → K → Option (AtResult V)
  | 0, _, _ => none
  | fuel + 1, m, key => at_const_rv fuel m key

/-- Member `find(const Key&) const` (lines 557-559): the call `find(key)` in
its body resolves to the same `const` overload. -/
def find_const : Nat → UnorderedMap K V → K → Option BaseNodePtr
  | 0, _, _ => none
  | fuel + 1, m, key => find_const fuel m key

/-- Member `find(Key&&) const` (lines 561-563). -/
def find_const_rv : Nat → UnorderedMap K V → K → Option BaseNodePtr
  | 0, _, _ => none
  | fuel + 1, m, key => find_const_rv fuel m key

/-- Member `operator[](const Key&)` (lines 699-706); `Value()` is `default`.
Returns the node whose value the reference designates, that value, and the
state after the call. -/
def operator_index [Inhabited V] (m : UnorderedMap K V) (key : K) :
    Option (BaseNodePtr × V × UnorderedMap K V) := do
  let it ← find m key
  if it ≠ end_ m then do
    let nd ← getNode m.inner_list_ it
    some (it, nd.value, m)
  else do
    let pair ← insert m (key, default)
    let nd ← getNode pair.2.2.inner_list_ pair.1
    some (pair.1, nd.value, pair.2.2)

/-- Member `load_factor()` (lines 604-606). -/
def load_factor (m : UnorderedMap K V) : Frac := m.load_factor_

/-- Copy constructor (lines 458-463): the members keep their initialisers
(128 buckets, null slots, `load_factor_ = 0`, `max_load_factor_ = 0.8`,
`hash_ = Hash()`, the stateless functor the source uses too), then
`insert(copy.begin(), copy.end())` runs over the source's elements.  The new
nodes come from the same heap, after the cells handed out so far. -/
def copy_ctor (copy : UnorderedMap K V) : Option (UnorderedMap K V) :=
  insert_range { default_ctor copy.hash_ with next_id := copy.next_id,
                                                vec_limit := copy.vec_limit }
    (copy.inner_list_.map (fun n => (n.key, n.value)))

/-- Move constructor (lines 464-473).  `table_size_` and `load_factor_` keep
their member initialisers (128 and 0), `table_` and `hash_` are moved from
`other`, `max_load_factor_` is copied in the body.  `List(List&&)` (lines
247-252) swaps the two sentinels by value: the new list starts at the source's
first node, but a slot that held the source's sentinel still holds that
address, a sentinel of another list for the new object.  The last node's
`next` still is the source's sentinel as well; a walk that runs off the end of
the chain, or that starts at a slot holding the source's sentinel, is outside
this model (`find` gives `none` there). -/
def move_ctor (other : UnorderedMap K V) : UnorderedMap K V :=
  { table_size_ := 128
    inner_list_ := other.inner_list_
    table_ := other.table_.map (fun slot => if slot = some .fake then some .tempFake else slot)
    hash_ := other.hash_
    load_factor_ := ⟨0, 1⟩
    max_load_factor_ := other.max_load_factor_
    next_id := other.next_id
    vec_limit := other.vec_limit }

/-- Test of `reserve` (line 595),
`count / static_cast<double>(table_size_) >= max_load_factor_`: both numbers
are converted to `double`, the quotient is a `double` division.  For
`table_size_ = 0` the quotient is `inf`, or NaN when `count` is 0 as well,
and NaN compares false.  The quotient of two `size_t` is zero or at least
`2 ^ -64`; a member that holds zero is below every quotient. -/
def reserve_test (m : UnorderedMap K V) (count : Nat) : Bool :=
  if m.table_size_ = 0 then decide (0 < count)
  else if Frac.underflows m.max_load_factor_ = true then true
  else Frac.ge (to_double (Frac.div (to_double ⟨count, 1⟩) (to_double ⟨m.table_size_, 1⟩)))
    (to_double m.max_load_factor_)

/-- Argument of `rehash` in `reserve` (line 596), `2 * count / max_load_factor_`:
the product is a `size_t`, converted to `double` for the `double` division, and
the quotient is converted to `size_t`. -/
def reserve_size (m : UnorderedMap K V) (count : Nat) : Nat :=
  Frac.trunc (to_double (Frac.div (to_double ⟨2 * count % 2 ^ 64, 1⟩)
    (to_double m.max_load_factor_)))

/-- Member `reserve(count)` (lines 594-598).  The conversion of the quotient
to `size_t` is undefined when the quotient is no number a `size_t` can hold:
`inf` or NaN when `max_load_factor_` holds zero, or `2 ^ 64` and more. -/
def reserve (m : UnorderedMap K V) (count : Nat) : Option (UnorderedMap K V) :=
  if reserve_test m count = true then
    if Frac.underflows m.max_load_factor_ = true then none
    else if reserve_size m count < 2 ^ 64 then rehash m (reserve_size m count)
    else none
  else some m

/-! ## Invariants of the data model -/

/-- Keys in iteration order (`begin()` to `end()`). -/
def keys (m : UnorderedMap K V) : List K := m.inner_list_.map Node.key

/-- Bucket numbers of the elements in iteration order. -/
def buckets (m : UnorderedMap K V) : List Nat := m.inner_list_.map (fun n => m.bucket n.key)

/-- Every value occupies one unbroken run of the list: once a run of `b` is
over, `b` does not come back. -/
def runsContiguous : List Nat → Bool
  | [] => true
  | b :: rest => !((rest.dropWhile (fun c => c == b)).contains b) && runsContiguous rest

/-- I1: the elements of every bucket form one contiguous run. -/
def I1 (m : UnorderedMap K V) : Prop := runsContiguous m.buckets = true

/-- The node right before the first element of bucket `b`, walking the chain
with `prev` the node just left behind; `none` when the bucket has no element. -/
def anchorOf (m : UnorderedMap K V) (b : Nat) : BaseNodePtr → List (Node K V) → Option BaseNodePtr
  | _, [] => none
  | prev, n :: rest =>
    if m.bucket n.key = b then some prev else anchorOf m b (.node n.id) rest

/-- I2 and I3: the slot of a non-empty bucket holds the node preceding the
bucket's first element (the sentinel at the front), the slot of an empty
bucket is null. -/
def I2_I3 (m : UnorderedMap K V) : Prop :=
  ∀ b, b < m.table_size_ → m.table_[b]? = some (anchorOf m b .fake m.inner_list_)

/-- I4: one element per key. -/
def I4 (m : UnorderedMap K V) : Prop := m.keys.Nodup

/-- Shape of a table object: a positive bucket count covered by the slot
vector, linked nodes in distinct heap cells, all allocated before `next_id`. -/
def Shape (m : UnorderedMap K V) : Prop :=
  0 < m.table_size_ ∧ m.table_size_ ≤ m.table_.length ∧
  (m.inner_list_.map Node.id).Nodup ∧ ∀ n ∈ m.inner_list_, n.id < m.next_id

/-- A pointer that may be followed: the sentinel or a linked node. -/
def Live (l : List (Node K V)) (p : BaseNodePtr) : Prop :=
  (after .fake l p).isSome = true

/-- A slot that is null or may be followed. -/
def SlotLive (l : List (Node K V)) : Option BaseNodePtr → Prop
  | none => True
  | some p => Live l p

/-- A valid table object: well shaped, and every non-null slot may be
followed. -/
def Valid (m : UnorderedMap K V) : Prop :=
  Shape m ∧ ∀ s ∈ m.table_, SlotLive m.inner_list_ s

/-- Invariants I1-I3 on a well-shaped table. -/
def Inv123 (m : UnorderedMap K V) : Prop := Shape m ∧ I1 m ∧ I2_I3 m

/-- Invariants I1-I4 on a well-shaped table. -/
def Inv1234 (m : UnorderedMap K V) : Prop := Shape m ∧ I1 m ∧ I2_I3 m ∧ I4 m

instance (m : UnorderedMap K V) : Decidable (I1 m) := by unfold I1; infer_instance
instance (m : UnorderedMap K V) : Decidable (I2_I3 m) := by unfold I2_I3; infer_instance
instance (m : UnorderedMap K V) : Decidable (I4 m) := by unfold I4; infer_instance
instance (m : UnorderedMap K V) : Decidable (Shape m) := by unfold Shape; infer_instance
instance (l : List (Node K V)) (p : BaseNodePtr) : Decidable (Live l p) := by
  unfold Live; infer_instance
instance (l : List (Node K V)) (s : Option BaseNodePtr) : Decidable (SlotLive l s) := by
  cases s <;> unfold SlotLive <;> infer_instance
instance (m : UnorderedMap K V) : Decidable (Valid m) := by unfold Valid; infer_instance
instance (m : UnorderedMap K V) : Decidable (Inv123 m) := by unfold Inv123; infer_instance
instance (m : UnorderedMap K V) : Decidable (Inv1234 m) := by unfold Inv1234; infer_instance

/-- Tables reachable from the default-constructed table (with hash functor
`hash`) by `insert` / `emplace`, `erase`, `rehash(n)` with `n > 0`, `reserve`
and `operator[]`, each call being one that returns, or a `rehash` that is left
by the exception of line 572. -/
inductive Reachable [Inhabited V] (hash : K → Nat) : UnorderedMap K V → Prop where
  | default_ctor : Reachable hash (default_ctor hash)
  | insert {m : UnorderedMap K V} (kv : K × V) (r : BaseNodePtr × Bool × UnorderedMap K V) :
      Reachable hash m → insert m kv = some r → Reachable hash r.2.2
  | erase {m m1 : UnorderedMap K V} (it : BaseNodePtr) :
      Reachable hash m → erase m it = some m1 → Reachable hash m1
  | rehash {m m1 : UnorderedMap K V} (n : Nat) :
      Reachable hash m → 0 < n → rehash m n = some m1 → Reachable hash m1
  | rehash_throws {m m1 : UnorderedMap K V} (n : Nat) :
      Reachable hash m → 0 < n → rehash_throws m n = some m1 → Reachable hash m1
  | reserve {m m1 : UnorderedMap K V} (n : Nat) :
      Reachable hash m → reserve m n = some m1 → Reachable hash m1
  | operator_index {m : UnorderedMap K V} (key : K) (r : BaseNodePtr × V × UnorderedMap K V) :
      Reachable hash m → operator_index m key = some r → Reachable hash r.2.2

/-- The tables reached from a default-constructed table, whatever its
environment can deliver, by calls that return, `rehash` being called - by the
caller or by `reserve` - with a positive bucket count below `2 ^ 63`, whose
double is a `size_t`. -/
inductive ReachableNoWrap [Inhabited V] (hash : K → Nat) : UnorderedMap K V → Prop where
  | default_ctor (c : Nat) : ReachableNoWrap hash { default_ctor hash with vec_limit := c }
  | insert {m : UnorderedMap K V} (kv : K × V) (r : BaseNodePtr × Bool × UnorderedMap K V) :
      ReachableNoWrap hash m → insert m kv = some r → ReachableNoWrap hash r.2.2
  | erase {m m1 : UnorderedMap K V} (it : BaseNodePtr) :
      ReachableNoWrap hash m → erase m it = some m1 → ReachableNoWrap hash m1
  | rehash {m m1 : UnorderedMap K V} (n : Nat) :
      ReachableNoWrap hash m → 0 < n → n < 2 ^ 63 → rehash m n = some m1 →
      ReachableNoWrap hash m1
  | reserve {m m1 : UnorderedMap K V} (n : Nat) :
      ReachableNoWrap hash m →
      (reserve_test m n = true → 0 < reserve_size m n ∧ reserve_size m n < 2 ^ 63) →
      reserve m n = some m1 → ReachableNoWrap hash m1
  | operator_index {m : UnorderedMap K V} (key : K) (r : BaseNodePtr × V × UnorderedMap K V) :
      ReachableNoWrap hash m → operator_index m key = some r → ReachableNoWrap hash r.2.2

/-- Member `max_load_factor(double)`, the setter (lines 600-602). -/
def set_max_load_factor (m : UnorderedMap K V) (max_load : Frac) : UnorderedMap K V :=
  { m with max_load_factor_ := max_load }

/-! ## Auxiliary definitions used by the proofs -/

/-- The slot vector `erase` leaves behind for a node `n` whose bucket slot holds
`a`, when `first` is the node after that anchor and `B` the nodes after `n`:
the slot of `n` is nulled when `n` is `first`, then the slot of the bucket of
the element following `n` receives `a`. -/
def slotsAfterErase (m : UnorderedMap K V) (n : Node K V) (a first : BaseNodePtr) :
    List (Node K V) → List (Option BaseNodePtr)
  | [] => if BaseNodePtr.node n.id = first then m.table_.set (m.bucket n.key) none else m.table_
  | b :: _ => (if BaseNodePtr.node n.id = first then m.table_.set (m.bucket n.key) none
      else m.table_).set (m.bucket b.key) (some a)

/-- Loop invariant of the range erase from `begin()`: the slot of the first
element's bucket holds the sentinel. -/
def FrontAnchored (m : UnorderedMap K V) : Prop :=
  0 < m.table_size_ ∧ m.table_size_ ≤ m.table_.length ∧
  (m.inner_list_.map Node.id).Nodup ∧
  ∀ n rest, m.inner_list_ = n :: rest → m.table_[m.bucket n.key]? = some (some .fake)

/-- Loop invariant of `rehash`: every non-null slot can be followed in `temp`,
a slot holding `temp`'s sentinel belongs to the bucket of `temp`'s first
element, and the shells of `temp` were allocated before `fresh`. -/
def RehashInv (hash : K → Nat) (ts : Nat) (temp : List (Node K V))
    (table : List (Option BaseNodePtr)) (fresh : Nat) : Prop :=
  (∀ (i : Nat) (p : BaseNodePtr), table[i]? = some (some p) →
    (after .tempFake temp p).isSome = true) ∧
  (∀ i : Nat, table[i]? = some (some .tempFake) →
    ∃ n rest, temp = n :: rest ∧ hash n.key % ts = i) ∧
  (∀ n ∈ temp, n.id < fresh)

/-- I2 and I3 for a chain `l` with sentinel `s` and a slot vector `T`, with the
bucket numbers of `m`. -/
def Anchored (m : UnorderedMap K V) (s : BaseNodePtr) (l : List (Node K V))
    (T : List (Option BaseNodePtr)) : Prop :=
  ∀ b, b < m.table_size_ → T[b]? = some (anchorOf m b s l)

/-- Loop invariant of `rehash` for I1-I3: the shells of `temp` sit in distinct
cells allocated before `fresh`, the buckets of `temp` are contiguous runs and
the slots are the anchors of `temp` around its sentinel. -/
def RehashWF (m : UnorderedMap K V) (temp : List (Node K V))
    (table : List (Option BaseNodePtr)) (fresh : Nat) : Prop :=
  (temp.map Node.id).Nodup ∧ (∀ n ∈ temp, n.id < fresh) ∧
  runsContiguous (temp.map (fun n => m.bucket n.key)) = true ∧
  Anchored m .tempFake temp table

/-- Lines 629-650 of `emplace`: the part that follows the removal of an
element with an equal key, with `found` and `obj_hash` as computed before. -/
def emplace_place (m1 : UnorderedMap K V) (found : Bool) (obj_hash : Nat) (key : K)
    (value : V) : Option (BaseNodePtr × Bool × UnorderedMap K V) := do
  let m2 ← (if m1.load_factor_.ge m1.max_load_factor_ then
      rehash m1 (m1.table_size_ * 2 % 2 ^ 64)
    else some m1)
  let m3 : UnorderedMap K V :=
    { m2 with load_factor_ := ⟨m2.inner_list_.length, m2.table_.length⟩ }
  let nd : Node K V := ⟨m3.next_id, key, value⟩
  let slot ← m3.table_[obj_hash]?
  match slot with
  | none =>
    let tail := back .fake m3.inner_list_
    let l ← push_ptr .fake m3.inner_list_ tail nd
    some (.node nd.id, found,
      { m3 with table_ := m3.table_.set obj_hash (some tail), inner_list_ := l,
                next_id := m3.next_id + 1 })
  | some prev =>
    let l ← push_ptr .fake m3.inner_list_ prev nd
    let r ← LinkedList.next .fake l prev
    some (r, found, { m3 with inner_list_ := l, next_id := m3.next_id + 1 })

/-! ## Sample tables -/

/-- The default-constructed table with the identity hash after
`insert({128, 1280})`, `insert({0, 0})`, `insert({1, 10})`: keys 0 and 128 share
bucket 0, key 1 sits in bucket 1 behind them. -/
def sample3 : UnorderedMap Nat Nat :=
  (insert_range (default_ctor id) [(128, 1280), (0, 0), (1, 10)]).getD (default_ctor id)

/-- The default-constructed table with the identity hash after the inserts of
the keys 0, 1, ..., 103 (key `i` with value `i`). -/
def sample104 : UnorderedMap Nat Nat :=
  (insert_range (default_ctor id) ((List.range 104).map (fun i => (i, i)))).getD
    (default_ctor id)

/-- The default-constructed table with the identity hash after `rehash(8)`. -/
def sample8 : UnorderedMap Nat Nat :=
  (rehash (default_ctor id) 8).getD (default_ctor id)

/-- The table `sample8` after `insert({1, 10})`. -/
def sample9 : UnorderedMap Nat Nat :=
  (insert sample8 (1, 10)).elim sample8 (fun r => r.2.2)

/-- The default-constructed table over string keys (hash: the length of the
string) after `insert({"x", 1})`. -/
def sampleX : UnorderedMap String Nat :=
  (insert (default_ctor String.length) ("x", 1)).elim (default_ctor String.length)
    (fun r => r.2.2)

/-- The default-constructed table with the identity hash after `rehash(256)`
and the inserts of the keys 71, 72, 73 and 200. -/
def sample256 : UnorderedMap Nat Nat :=
  ((rehash (default_ctor id) 256).bind
    (fun m => insert_range m [(71, 1), (72, 2), (73, 3), (200, 4)])).getD (default_ctor id)

/-- The default-constructed table with the identity hash after `rehash(500)`
and `max_load_factor(0.67)`. -/
def sample500 : UnorderedMap Nat Nat :=
  set_max_load_factor ((rehash (default_ctor id) 500).getD (default_ctor id)) ⟨67, 100⟩

/-- The state the default-constructed table (identity hash) is in after
`rehash(256)` and the inserts of the keys 0, 1, ..., 103 (key `i` with value
`i`) and of `(200, 7)`, written out: 105 elements in insertion order, every
key alone in its bucket and anchored at the node inserted before it. -/
def sample105 : UnorderedMap Nat Nat :=
  { table_size_ := 256
    inner_list_ := (List.range 104).map (fun i => ⟨i + 1, i, i⟩) ++ [⟨105, 200, 7⟩]
    table_ := (List.range 512).map (fun b =>
      if b = 0 then some .fake else if b < 104 then some (.node b)
      else if b = 200 then some (.node 104) else none)
    hash_ := id
    load_factor_ := ⟨104, 512⟩
    max_load_factor_ := ⟨4, 5⟩
    next_id := 106
    vec_limit := vector_max_size }

/-! ## Basic facts about the linked list -/

section ListFacts

variable {K V : Type}

theorem after_fake (l : List (Node K V)) : after .fake l .fake = some l := by
  simp [after]

theorem after_node (l : List (Node K V)) (i : Nat) :
    after .fake l (.node i) = afterId l i := by
  simp [after]

theorem after_tempFake (l : List (Node K V)) : after .fake l .tempFake = none := by
  simp [after]

theorem afterId_isSome_iff (l : List (Node K V)) (i : Nat) :
    (afterId l i).isSome = true ↔ ∃ n ∈ l, n.id = i := by
  induction l with
  | nil => simp [afterId]
  | cons x rest ih =>
    by_cases hx : x.id = i
    · simp [afterId, hx]
    · simp [afterId, hx, ih]

theorem afterId_suffix {l : List (Node K V)} {i : Nat} {r : List (Node K V)}
    (h : afterId l i = some r) : ∃ pre x, l = pre ++ x :: r ∧ x.id = i := by
  induction l with
  | nil => simp [afterId] at h
  | cons y rest ih =>
    by_cases hy : y.id = i
    · simp [afterId, hy] at h
      exact ⟨[], y, by simp [h], hy⟩
    · simp [afterId, hy] at h
      obtain ⟨pre, x, hl, hx⟩ := ih h
      exact ⟨y :: pre, x, by simp [hl], hx⟩

theorem after_subset {l : List (Node K V)} {p : BaseNodePtr} {r : List (Node K V)}
    (h : after .fake l p = some r) : ∀ x ∈ r, x ∈ l := by
  cases p with
  | fake => simp [after] at h; subst h; exact fun _ hx => hx
  | tempFake => simp [after] at h
  | node i =>
    rw [after_node] at h
    obtain ⟨pre, y, hl, _⟩ := afterId_suffix h
    intro x hx
    rw [hl]
    simp [hx]

theorem getNode_isSome_of_mem {l : List (Node K V)} {n : Node K V} (h : n ∈ l) :
    ∃ nd, getNode l (.node n.id) = some nd := by
  induction l with
  | nil => simp at h
  | cons y rest ih =>
    by_cases hy : y.id = n.id
    · exact ⟨y, by simp [getNode, List.find?, hy]⟩
    · have hmem : n ∈ rest := by
        rcases List.mem_cons.mp h with h1 | h1
        · subst h1; exact absurd rfl hy
        · exact h1
      obtain ⟨nd, hnd⟩ := ih hmem
      exact ⟨nd, by simpa [getNode, List.find?, hy] using hnd⟩

end ListFacts

section FindFacts

variable {K V : Type} [DecidableEq K]

theorem findLoop_node {m : UnorderedMap K V} {key : K} {hash i : Nat}
    {start : List (Node K V)} (h : findLoop m key hash start = .node i) :
    ∃ n ∈ start, n.id = i ∧ n.key = key ∧ m.hash_ n.key % m.table_size_ = hash := by
  induction start with
  | nil => simp [findLoop] at h
  | cons x rest ih =>
    unfold findLoop at h
    by_cases h1 : m.hash_ x.key % m.table_size_ = hash
    · rw [if_neg (not_not.mpr h1)] at h
      by_cases h2 : x.key = key
      · rw [if_pos h2] at h
        exact ⟨x, by simp, by simpa using h, h2, h1⟩
      · rw [if_neg h2] at h
        obtain ⟨n, hn, hr⟩ := ih h
        exact ⟨n, by simp [hn], hr⟩
    · rw [if_pos h1] at h
      simp at h

theorem findLoop_ne_tempFake (m : UnorderedMap K V) (key : K) (hash : Nat)
    (start : List (Node K V)) : findLoop m key hash start ≠ .tempFake := by
  induction start with
  | nil => simp [findLoop]
  | cons x rest ih =>
    unfold findLoop
    split
    · simp
    · split
      · simp
      · exact ih

theorem findLoop_fake_of_absent (m : UnorderedMap K V) (key : K) (hash : Nat)
    (start : List (Node K V)) (h : ∀ x ∈ start, x.key ≠ key) :
    findLoop m key hash start = .fake := by
  induction start with
  | nil => simp [findLoop]
  | cons x rest ih =>
    unfold findLoop
    have hx : x.key ≠ key := h x (by simp)
    have hr : findLoop m key hash rest = .fake := ih (fun y hy => h y (by simp [hy]))
    simp [hx, hr]

theorem find_rv_eq_find (m : UnorderedMap K V) (key : K) : find_rv m key = find m key := rfl

theorem modIdx_eq_some {h ts r : Nat} (hm : modIdx h ts = some r) : 0 < ts ∧ r = h % ts := by
  unfold modIdx at hm
  by_cases h0 : ts = 0
  · simp [h0] at hm
  · rw [if_neg h0] at hm
    exact ⟨Nat.pos_of_ne_zero h0, by simpa using hm.symm⟩

theorem modIdx_pos {ts : Nat} (h : Nat) (hts : 0 < ts) : modIdx h ts = some (h % ts) := by
  unfold modIdx
  rw [if_neg (Nat.pos_iff_ne_zero.mp hts)]

/-- What a returning `find` went through: the slot of the key's bucket was
null, or its anchor could be followed and the loop ran over the nodes after
it. -/
theorem find_eq_some {m : UnorderedMap K V} {key : K} {it : BaseNodePtr}
    (hf : find m key = some it) :
    0 < m.table_size_ ∧
    ((m.table_[m.bucket key]? = some none ∧ it = .fake) ∨
     ∃ a start, m.table_[m.bucket key]? = some (some a) ∧
       after .fake m.inner_list_ a = some start ∧
       it = findLoop m key (m.bucket key) start) := by
  unfold find at hf
  cases h1 : modIdx (m.hash_ key) m.table_size_ with
  | none => simp [h1] at hf
  | some hash =>
    obtain ⟨hts, hh⟩ := modIdx_eq_some h1
    have hb : hash = m.bucket key := hh
    subst hb
    refine ⟨hts, ?_⟩
    simp only [h1, Option.bind_eq_bind, Option.some_bind] at hf
    cases h2 : m.table_[m.bucket key]? with
    | none => simp [h2] at hf
    | some slot =>
      simp only [h2, Option.some_bind] at hf
      cases slot with
      | none =>
        simp at hf
        exact Or.inl ⟨rfl, hf.symm⟩
      | some a =>
        simp only at hf
        cases h3 : after .fake m.inner_list_ a with
        | none => simp [h3] at hf
        | some start =>
          simp [h3] at hf
          exact Or.inr ⟨a, start, rfl, h3, hf.symm⟩

/-- A returning `find` yields `end()` or a linked node whose key is the one
looked for. -/
theorem find_result {m : UnorderedMap K V} {key : K} {it : BaseNodePtr}
    (hf : find m key = some it) :
    it = .fake ∨ ∃ n ∈ m.inner_list_, it = .node n.id ∧ n.key = key := by
  obtain ⟨_, h | ⟨a, start, _, ha, hit⟩⟩ := find_eq_some hf
  · exact Or.inl h.2
  · cases hl : findLoop m key (m.bucket key) start with
    | fake => exact Or.inl (by rw [hit, hl])
    | tempFake => exact absurd hl (findLoop_ne_tempFake m key _ start)
    | node i =>
      obtain ⟨n, hn, hid, hk, _⟩ := findLoop_node hl
      exact Or.inr ⟨n, after_subset ha n hn, by rw [hit, hl, hid], hk⟩

end FindFacts

section EraseFacts

variable {K V : Type}

theorem getNode_split (A B : List (Node K V)) (n : Node K V)
    (hA : ∀ x ∈ A, x.id ≠ n.id) : getNode (A ++ n :: B) (.node n.id) = some n := by
  induction A with
  | nil => simp [getNode]
  | cons y rest ih =>
    have hy : y.id ≠ n.id := hA y (by simp)
    have := ih (fun x hx => hA x (by simp [hx]))
    simpa [getNode, List.find?, hy] using this

theorem afterId_split (A B : List (Node K V)) (n : Node K V)
    (hA : ∀ x ∈ A, x.id ≠ n.id) : afterId (A ++ n :: B) n.id = some B := by
  induction A with
  | nil => simp [afterId]
  | cons y rest ih =>
    have hy : y.id ≠ n.id := hA y (by simp)
    have := ih (fun x hx => hA x (by simp [hx]))
    simpa [afterId, hy] using this

theorem removeId_split (A B : List (Node K V)) (n : Node K V)
    (hA : ∀ x ∈ A, x.id ≠ n.id) : removeId (A ++ n :: B) n.id = some (A ++ B) := by
  induction A with
  | nil => simp [removeId]
  | cons y rest ih =>
    have hy : y.id ≠ n.id := hA y (by simp)
    have := ih (fun x hx => hA x (by simp [hx]))
    simp [removeId, hy, this]

theorem split_of_mem {l : List (Node K V)} {n : Node K V} (hn : n ∈ l)
    (hnd : (l.map Node.id).Nodup) :
    ∃ A B, l = A ++ n :: B ∧ (∀ x ∈ A, x.id ≠ n.id) ∧ (∀ x ∈ B, x.id ≠ n.id) := by
  obtain ⟨A, B, hl⟩ := List.append_of_mem hn
  subst hl
  refine ⟨A, B, rfl, ?_, ?_⟩
  · intro x hx hid
    simp only [List.map_append, List.map_cons] at hnd
    have := (List.nodup_append.mp hnd).2.2
    exact this (List.mem_map_of_mem Node.id hx) (by simp [hid])
  · intro x hx hid
    simp only [List.map_append, List.map_cons] at hnd
    have h2 := (List.nodup_append.mp hnd).2.1
    have h3 := (List.nodup_cons.mp h2).1
    exact h3 (by rw [← hid]; exact List.mem_map_of_mem Node.id hx)

theorem bucket_lt (m : UnorderedMap K V) (k : K) (hts : 0 < m.table_size_) :
    m.bucket k < m.table_size_ := Nat.mod_lt _ hts

end EraseFacts

section EraseFacts2

variable {K V : Type}

theorem slotsAfterErase_length (m : UnorderedMap K V) (n : Node K V) (a first : BaseNodePtr)
    (B : List (Node K V)) : (slotsAfterErase m n a first B).length = m.table_.length := by
  cases B with
  | nil => simp only [slotsAfterErase]; split <;> simp
  | cons b r => simp only [slotsAfterErase, List.length_set]; split <;> simp

/-- What `erase` does to a linked node `n` whose bucket slot holds the anchor
`a`: the node is unlinked and the slots are repaired as in `slotsAfterErase`. -/
theorem erase_split (m : UnorderedMap K V) (A B : List (Node K V)) (n : Node K V)
    (a : BaseNodePtr) (start : List (Node K V))
    (hts : 0 < m.table_size_) (hlen : m.table_size_ ≤ m.table_.length)
    (hl : m.inner_list_ = A ++ n :: B) (hnd : (m.inner_list_.map Node.id).Nodup)
    (hslot : m.table_[m.bucket n.key]? = some (some a))
    (ha : after .fake m.inner_list_ a = some start) :
    erase m (.node n.id) = some { m with
      inner_list_ := A ++ B,
      table_ := slotsAfterErase m n a (headPtr .fake start) B } := by
  have hA : ∀ x ∈ A, x.id ≠ n.id := by
    intro x hx hid
    rw [hl] at hnd
    simp only [List.map_append, List.map_cons] at hnd
    exact (List.nodup_append.mp hnd).2.2 (List.mem_map_of_mem Node.id hx) (by simp [hid])
  have h1 : getNode m.inner_list_ (.node n.id) = some n := by
    rw [hl]; exact getNode_split A B n hA
  have h2 : LinkedList.next .fake m.inner_list_ (.node n.id) = some (headPtr .fake B) := by
    simp [LinkedList.next, after_node, hl, afterId_split A B n hA]
  have h3 : modIdx (m.hash_ n.key) m.table_size_ = some (m.bucket n.key) := modIdx_pos _ hts
  have h4 : LinkedList.next .fake m.inner_list_ a = some (headPtr .fake start) := by
    simp [LinkedList.next, ha]
  have h5 : deleteNode m.inner_list_ (.node n.id) = some (A ++ B) := by
    simp [deleteNode, hl, removeId_split A B n hA]
  unfold erase
  simp only [h1, h2, h3, hslot, h4, h5, Option.bind_eq_bind, Option.some_bind]
  cases B with
  | nil => simp [headPtr, slotsAfterErase]
  | cons b B' =>
    have hb : ∀ x ∈ A, x.id ≠ b.id := by
      intro x hx hid
      rw [hl] at hnd
      simp only [List.map_append, List.map_cons] at hnd
      exact (List.nodup_append.mp hnd).2.2 (List.mem_map_of_mem Node.id hx) (by simp [hid])
    have h6 : getNode (A ++ b :: B') (.node b.id) = some b := getNode_split A B' b hb
    have h7 : modIdx (m.hash_ b.key) m.table_size_ = some (m.bucket b.key) := modIdx_pos _ hts
    have h8 : m.bucket b.key < m.table_.length := lt_of_lt_of_le (bucket_lt m b.key hts) hlen
    simp only [headPtr, h6, h7, Option.some_bind, slotsAfterErase]
    split <;> simp [h8]

theorem frontAnchored_of_inv {m : UnorderedMap K V} (h : Inv123 m) : FrontAnchored m := by
  obtain ⟨⟨hts, hlen, hnd, _⟩, _, h23⟩ := h
  refine ⟨hts, hlen, hnd, ?_⟩
  intro n rest hl
  have := h23 (m.bucket n.key) (bucket_lt m n.key hts)
  rw [this, hl]
  simp [anchorOf]

/-- After `erase`, the slot of the erased node's bucket is null or still holds
the old anchor. -/
theorem slotsAfterErase_own (m : UnorderedMap K V) (n : Node K V) (a first : BaseNodePtr)
    (B : List (Node K V)) (hts : 0 < m.table_size_) (hlen : m.table_size_ ≤ m.table_.length)
    (hslot : m.table_[m.bucket n.key]? = some (some a)) :
    (slotsAfterErase m n a first B)[m.bucket n.key]? = some none ∨
    (slotsAfterErase m n a first B)[m.bucket n.key]? = some (some a) := by
  have hlt : m.bucket n.key < m.table_.length := lt_of_lt_of_le (bucket_lt m n.key hts) hlen
  have h1 : (if BaseNodePtr.node n.id = first then m.table_.set (m.bucket n.key) none
      else m.table_)[m.bucket n.key]? = some none ∨
      (if BaseNodePtr.node n.id = first then m.table_.set (m.bucket n.key) none
      else m.table_)[m.bucket n.key]? = some (some a) := by
    split
    · left; rw [List.getElem?_set_self hlt]
    · right; exact hslot
  cases B with
  | nil => simpa only [slotsAfterErase] using h1
  | cons b r =>
    simp only [slotsAfterErase]
    by_cases hb : m.bucket b.key = m.bucket n.key
    · right
      rw [hb, List.getElem?_set_self]
      split <;> simp [hlt]
    · rw [List.getElem?_set_ne hb]
      exact h1

/-- The anchor of a bucket stays linked when a node found behind it is
unlinked. -/
theorem anchor_live_after_unlink {A B start : List (Node K V)} {n : Node K V}
    {a : BaseNodePtr} (hnd : ((A ++ n :: B).map Node.id).Nodup)
    (ha : after .fake (A ++ n :: B) a = some start) (hn : n ∈ start) :
    ∃ start1, after .fake (A ++ B) a = some start1 := by
  cases a with
  | fake => exact ⟨_, after_fake _⟩
  | tempFake => simp [after] at ha
  | node j =>
    rw [after_node] at ha ⊢
    obtain ⟨pre, x, hl, hx⟩ := afterId_suffix ha
    have hxn : x.id ≠ n.id := by
      intro hid
      rw [hl] at hnd
      simp only [List.map_append, List.map_cons] at hnd
      have h2 := (List.nodup_cons.mp (List.nodup_append.mp hnd).2.1).1
      exact h2 (by rw [hid]; exact List.mem_map_of_mem Node.id hn)
    have hxl : x ∈ A ++ n :: B := by rw [hl]; simp
    have hxab : x ∈ A ++ B := by
      rcases List.mem_append.mp hxl with h | h
      · exact List.mem_append.mpr (Or.inl h)
      · rcases List.mem_cons.mp h with h | h
        · exact absurd (by rw [h]) hxn
        · exact List.mem_append.mpr (Or.inr h)
    have := (afterId_isSome_iff (A ++ B) j).mpr ⟨x, hxab, hx⟩
    exact Option.isSome_iff_exists.mp this

theorem key_absent_after_unlink {A B : List (Node K V)} {n : Node K V}
    (hk : ((A ++ n :: B).map Node.key).Nodup) : ∀ x ∈ A ++ B, x.key ≠ n.key := by
  intro x hx hxk
  simp only [List.map_append, List.map_cons] at hk
  have h1 := List.nodup_append.mp hk
  rcases List.mem_append.mp hx with h | h
  · exact h1.2.2 (List.mem_map_of_mem Node.key h) (by simp [hxk])
  · exact (List.nodup_cons.mp h1.2.1).1 (by rw [← hxk]; exact List.mem_map_of_mem Node.key h)

/-- Erasing the first element keeps the loop invariant and leaves the rest of
the list. -/
theorem erase_front {m : UnorderedMap K V} (h : FrontAnchored m) (n : Node K V)
    (rest : List (Node K V)) (hl : m.inner_list_ = n :: rest) :
    ∃ m1, erase m (.node n.id) = some m1 ∧ m1.inner_list_ = rest ∧ FrontAnchored m1 := by
  obtain ⟨hts, hlen, hnd, hfront⟩ := h
  have hslot := hfront n rest hl
  have he := erase_split m [] rest n .fake m.inner_list_ hts hlen (by simpa using hl) hnd hslot
    (after_fake _)
  refine ⟨_, he, by simp, hts, ?_, ?_, ?_⟩
  · show m.table_size_ ≤ (slotsAfterErase _ _ _ _ _).length
    rw [slotsAfterErase_length]
    exact hlen
  · show (List.map Node.id ([] ++ rest)).Nodup
    rw [hl] at hnd
    simp only [List.map_cons, List.nil_append] at hnd ⊢
    exact (List.nodup_cons.mp hnd).2
  · intro b r hb
    have hb2 : rest = b :: r := by simpa using hb
    subst hb2
    have hlt : m.bucket b.key < m.table_.length := lt_of_lt_of_le (bucket_lt m b.key hts) hlen
    simp only [bucket, slotsAfterErase] at hlt ⊢
    rw [List.getElem?_set_self]
    split <;> simp [hlt]

end EraseFacts2

section EraseRange

variable {K V : Type}

theorem erase_range_front (fuel : Nat) : ∀ (m : UnorderedMap K V), FrontAnchored m →
    m.size < fuel →
    ∃ m1, erase_range fuel m (begin_ m) (end_ m) = some m1 ∧ m1.inner_list_ = [] := by
  induction fuel with
  | zero => intro m _ h; exact absurd h (Nat.not_lt_zero _)
  | succ f ih =>
    intro m hJ hsz
    cases hl : m.inner_list_ with
    | nil =>
      refine ⟨m, ?_, hl⟩
      simp [erase_range, begin_, end_, hl, headPtr]
    | cons n rest =>
      obtain ⟨m1, he, hl1, hJ1⟩ := erase_front hJ n rest hl
      have hsz1 : m1.size < f := by
        simp only [size, hl, hl1, List.length_cons] at hsz ⊢
        omega
      obtain ⟨m2, hr, hl2⟩ := ih m1 hJ1 hsz1
      refine ⟨m2, ?_, hl2⟩
      have hnext : LinkedList.next .fake m.inner_list_ (.node n.id) = some (begin_ m1) := by
        simp [LinkedList.next, after_node, hl, afterId, begin_, hl1]
      have hbe : begin_ m = .node n.id := by simp [begin_, hl, headPtr]
      rw [hbe]
      unfold erase_range
      simp only [end_, reduceCtorEq, if_false, hnext, he, Option.bind_eq_bind, Option.some_bind]
      exact hr

end EraseRange

section EraseFound

variable {K V : Type} [DecidableEq K]

theorem find_of_null_slot {m : UnorderedMap K V} {key : K} (hts : 0 < m.table_size_)
    (hslot : m.table_[m.bucket key]? = some none) : find m key = some .fake := by
  unfold find
  rw [modIdx_pos _ hts]
  simp only [Option.bind_eq_bind, Option.some_bind]
  have : m.table_[m.hash_ key % m.table_size_]? = some none := hslot
  rw [this]
  rfl

theorem find_of_anchor {m : UnorderedMap K V} {key : K} {a : BaseNodePtr}
    {start : List (Node K V)} (hts : 0 < m.table_size_)
    (hslot : m.table_[m.bucket key]? = some (some a))
    (ha : after .fake m.inner_list_ a = some start) :
    find m key = some (findLoop m key (m.bucket key) start) := by
  unfold find
  rw [modIdx_pos _ hts]
  simp only [Option.bind_eq_bind, Option.some_bind]
  have : m.table_[m.hash_ key % m.table_size_]? = some (some a) := hslot
  rw [this]
  simp only [Option.some_bind, ha]
  rfl

/-- Erasing the node `find` returned: the call is defined, the node is
unlinked, and the slot of the key's bucket is null or holds a linked
anchor. -/
theorem erase_found {m : UnorderedMap K V} {k : K} {i : Nat}
    (hts : 0 < m.table_size_) (hlen : m.table_size_ ≤ m.table_.length)
    (hnd : (m.inner_list_.map Node.id).Nodup) (hf : find m k = some (.node i)) :
    ∃ (A B : List (Node K V)) (n : Node K V) (T : List (Option BaseNodePtr)),
      m.inner_list_ = A ++ n :: B ∧ n.id = i ∧ n.key = k ∧
      erase m (.node i) = some { m with inner_list_ := A ++ B, table_ := T } ∧
      T.length = m.table_.length ∧
      (T[m.bucket k]? = some none ∨
        ∃ a start1, T[m.bucket k]? = some (some a) ∧ after .fake (A ++ B) a = some start1) := by
  obtain ⟨_, h | ⟨a, start, hslot, ha, hit⟩⟩ := find_eq_some hf
  · exact absurd h.2 (by simp)
  · obtain ⟨n, hn, hid, hk, _⟩ := findLoop_node hit.symm
    obtain ⟨A, B, hl, _, _⟩ := split_of_mem (after_subset ha n hn) hnd
    have hslot' : m.table_[m.bucket n.key]? = some (some a) := by rw [hk]; exact hslot
    have he := erase_split m A B n a start hts hlen hl hnd hslot' ha
    rw [hid] at he
    refine ⟨A, B, n, _, hl, hid, hk, he, slotsAfterErase_length _ _ _ _ _, ?_⟩
    rcases slotsAfterErase_own m n a (headPtr .fake start) B hts hlen hslot' with h | h
    · left; rw [← hk]; exact h
    · right
      rw [hl] at hnd ha
      obtain ⟨start1, hs1⟩ := anchor_live_after_unlink hnd ha hn
      exact ⟨a, start1, by rw [← hk]; exact h, hs1⟩

end EraseFound

section PushFacts

variable {K V : Type}

theorem after_isSome_iff (s : BaseNodePtr) (l : List (Node K V))
    (p : BaseNodePtr) :
    (after s l p).isSome = true ↔ p = s ∨ ∃ n ∈ l, p = .node n.id := by
  by_cases hp : p = s
  · simp [after, hp]
  · cases p with
    | fake => simp [after, hp]
    | tempFake => simp [after, hp]
    | node i =>
      simp only [after, hp, if_false, afterId_isSome_iff, false_or, BaseNodePtr.node.injEq]
      constructor
      · rintro ⟨n, hn, hi⟩; exact ⟨n, hn, hi.symm⟩
      · rintro ⟨n, hn, hi⟩; exact ⟨n, hn, hi.symm⟩

theorem back_cases (s : BaseNodePtr) (l : List (Node K V)) :
    (l = [] ∧ back s l = s) ∨ ∃ n ∈ l, back s l = .node n.id := by
  induction l with
  | nil => exact Or.inl ⟨rfl, rfl⟩
  | cons x rest ih =>
    right
    cases rest with
    | nil => exact ⟨x, by simp, rfl⟩
    | cons y r =>
      rcases ih with ⟨h, _⟩ | ⟨n, hn, hb⟩
      · simp at h
      · exact ⟨n, by simp [hn], by simpa [back] using hb⟩

theorem insertAfterId_of_mem (nd : Node K V) {l : List (Node K V)} {i : Nat}
    (h : ∃ n ∈ l, n.id = i) :
    ∃ x r r1, l = x :: r ∧ insertAfterId nd l i = some (x :: r1) ∧
      (∀ y, y ∈ x :: r1 ↔ y = nd ∨ y ∈ l) ∧ r1.length = r.length + 1 ∧
      ∃ r2, afterId (x :: r1) i = some (nd :: r2) := by
  induction l with
  | nil => simp at h
  | cons x rest ih =>
    by_cases hx : x.id = i
    · refine ⟨x, rest, nd :: rest, rfl, by simp [insertAfterId, hx], ?_, by simp, rest, ?_⟩
      · intro y; simp only [List.mem_cons]; tauto
      · simp [afterId, hx]
    · have h' : ∃ n ∈ rest, n.id = i := by
        obtain ⟨n, hn, hi⟩ := h
        rcases List.mem_cons.mp hn with h1 | h1
        · subst h1; exact absurd hi hx
        · exact ⟨n, h1, hi⟩
      obtain ⟨x', r, r1, hl, hins, hmem, hlen, r2, haft⟩ := ih h'
      refine ⟨x, rest, x' :: r1, rfl, by simp [insertAfterId, hx, hins], ?_, ?_, r2, ?_⟩
      · intro y
        rw [List.mem_cons, hmem y, List.mem_cons]
        constructor
        · rintro (h1 | h1 | h1)
          · exact Or.inr (Or.inl h1)
          · exact Or.inl h1
          · exact Or.inr (Or.inr h1)
        · rintro (h1 | h1 | h1)
          · exact Or.inr (Or.inl h1)
          · exact Or.inl h1
          · exact Or.inr (Or.inr h1)
      · rw [hl]; simp [hlen]
      · simpa [afterId, hx] using haft

/-- Linking a node after a pointer that may be followed: the call is defined,
the list gains exactly the new node, and the new node is `prev->next`. -/
theorem push_ptr_ok (s : BaseNodePtr) (l : List (Node K V))
    (prev : BaseNodePtr) (nd : Node K V) (hlive : (after s l prev).isSome = true) :
    ∃ l1, push_ptr s l prev nd = some l1 ∧ (∀ y, y ∈ l1 ↔ y = nd ∨ y ∈ l) ∧
      l1.length = l.length + 1 ∧ LinkedList.next s l1 prev = some (.node nd.id) ∧
      ((prev = s ∧ l1 = nd :: l) ∨ (prev ≠ s ∧ ∃ x r r1, l = x :: r ∧ l1 = x :: r1)) := by
  by_cases hp : prev = s
  · refine ⟨nd :: l, by simp [push_ptr, hp], by simp, by simp, ?_, Or.inl ⟨hp, rfl⟩⟩
    simp [LinkedList.next, after, hp, headPtr]
  · rcases (after_isSome_iff s l prev).mp hlive with h | ⟨n, hn, hi⟩
    · exact absurd h hp
    · subst hi
      obtain ⟨x, r, r1, hl, hins, hmem, hlen, r2, haft⟩ :=
        insertAfterId_of_mem nd ⟨n, hn, rfl⟩
      refine ⟨x :: r1, by simp [push_ptr, hp, hins], hmem, by rw [hl]; simp [hlen], ?_,
        Or.inr ⟨hp, x, r, r1, hl, rfl⟩⟩
      simp [LinkedList.next, after, hp, haft, headPtr]

theorem getNode_of_unique {l : List (Node K V)} {n : Node K V} (hn : n ∈ l)
    (hu : ∀ x ∈ l, x.id = n.id → x = n) : getNode l (.node n.id) = some n := by
  induction l with
  | nil => simp at hn
  | cons y rest ih =>
    by_cases hy : y.id = n.id
    · have := hu y (by simp) hy
      subst this
      simp [getNode, List.find?]
    · have hmem : n ∈ rest := by
        rcases List.mem_cons.mp hn with h1 | h1
        · subst h1; exact absurd rfl hy
        · exact h1
      have := ih hmem (fun x hx => hu x (by simp [hx]))
      simpa [getNode, List.find?, hy] using this

theorem live_mono {s : BaseNodePtr} {l l1 : List (Node K V)}
    (hsub : ∀ y, y ∈ l → y ∈ l1) {p : BaseNodePtr} (h : (after s l p).isSome = true) :
    (after s l1 p).isSome = true := by
  rw [after_isSome_iff s] at h ⊢
  rcases h with h | ⟨n, hn, hp⟩
  · exact Or.inl h
  · exact Or.inr ⟨n, hsub n hn, hp⟩

end PushFacts

section RehashFacts

variable {K V : Type}

theorem rehashLoop_ok (hash : K → Nat) (ts : Nat) (hts : 0 < ts) :
    ∀ (src temp : List (Node K V)) (table : List (Option BaseNodePtr)) (fresh : Nat),
      ts ≤ table.length → RehashInv hash ts temp table fresh →
      ∃ temp1 table1 fresh1, rehashLoop hash ts src temp table fresh
          = some (temp1, table1, fresh1) ∧
        RehashInv hash ts temp1 table1 fresh1 ∧ table1.length = table.length ∧
        temp1.length = temp.length + src.length := by
  intro src
  induction src with
  | nil =>
    intro temp table fresh _ hinv
    exact ⟨temp, table, fresh, by simp [rehashLoop], hinv, rfl, by simp⟩
  | cons n rest ih =>
    intro temp table fresh hlen hinv
    obtain ⟨hlive, hq, hfresh⟩ := hinv
    have hlt : hash n.key % ts < table.length := lt_of_lt_of_le (Nat.mod_lt _ hts) hlen
    have hget : table[hash n.key % ts]? = some (table[hash n.key % ts]) :=
      List.getElem?_eq_getElem hlt
    unfold rehashLoop
    simp only [modIdx_pos _ hts, hget, Option.bind_eq_bind, Option.some_bind]
    cases hslot : table[hash n.key % ts] with
    | some a =>
      have hslot' : table[hash n.key % ts]? = some (some a) := by rw [hget, hslot]
      obtain ⟨temp1, hpush, hmem, hlen1, _, hhead⟩ :=
        push_ptr_ok .tempFake temp a ⟨fresh, n.key, n.value⟩
          (hlive _ _ hslot')
      have hinv1 : RehashInv hash ts temp1 table (fresh + 1) := by
        refine ⟨fun i p hp => live_mono (fun y hy => (hmem y).mpr (Or.inr hy))
          (hlive i p hp), ?_, ?_⟩
        · intro i hi
          rcases hhead with ⟨ha, ht⟩ | ⟨_, x, r, r1, hl, hl1⟩
          · subst ha
            obtain ⟨n2, rest2, h2, hb2⟩ := hq i hi
            obtain ⟨n3, rest3, h3, hb3⟩ := hq _ hslot'
            rw [h2] at h3
            simp only [List.cons.injEq] at h3
            exact ⟨_, temp, ht, by rw [← hb2, ← hb3, h3.1]⟩
          · obtain ⟨n0, rest0, h0, hb⟩ := hq i hi
            rw [hl] at h0
            simp only [List.cons.injEq] at h0
            exact ⟨x, r1, hl1, by rw [h0.1]; exact hb⟩
        · intro y hy
          rcases (hmem y).mp hy with h | h
          · subst h; exact Nat.lt_succ_self _
          · exact Nat.lt_succ_of_lt (hfresh y h)
      obtain ⟨t2, tb2, f2, hr, hinv2, hl2, hlen2⟩ := ih temp1 table (fresh + 1) hlen hinv1
      refine ⟨t2, tb2, f2, ?_, hinv2, hl2, ?_⟩
      · simp only [hpush, Option.some_bind]
        exact hr
      · rw [hlen2, hlen1]; simp only [List.length_cons]; omega
    | none =>
      have hback : (after .tempFake temp (back .tempFake temp)).isSome = true := by
        rw [after_isSome_iff]
        rcases back_cases .tempFake temp with ⟨_, h⟩ | ⟨x, hx, h⟩
        · exact Or.inl h
        · exact Or.inr ⟨x, hx, h⟩
      obtain ⟨temp1, hpush, hmem, hlen1, _, hhead⟩ :=
        push_ptr_ok .tempFake temp (back .tempFake temp)
          ⟨fresh, n.key, n.value⟩ hback
      have hinv1 : RehashInv hash ts temp1
          (table.set (hash n.key % ts) (some (back .tempFake temp))) (fresh + 1) := by
        refine ⟨?_, ?_, ?_⟩
        · intro i p hp
          rw [List.getElem?_set] at hp
          by_cases hi : hash n.key % ts = i
          · simp only [hi, if_true] at hp
            split at hp
            · simp only [Option.some.injEq] at hp
              subst hp
              exact live_mono (fun y hy => (hmem y).mpr (Or.inr hy)) hback
            · simp at hp
          · simp only [hi, if_false] at hp
            exact live_mono (fun y hy => (hmem y).mpr (Or.inr hy))
              (hlive i p hp)
        · intro i hi
          rw [List.getElem?_set] at hi
          by_cases hi2 : hash n.key % ts = i
          · simp only [hi2, if_true] at hi
            split at hi
            · simp only [Option.some.injEq] at hi
              rcases hhead with ⟨_, ht⟩ | ⟨hne, _⟩
              · exact ⟨_, temp, ht, hi2⟩
              · exact absurd hi hne
            · simp at hi
          · simp only [hi2, if_false] at hi
            obtain ⟨n0, rest0, h0, hb⟩ := hq i hi
            rcases hhead with ⟨hbk, _⟩ | ⟨_, x, r, r1, hl, hl1⟩
            · rcases back_cases .tempFake temp with ⟨he, _⟩ | ⟨x, _, hx⟩
              · rw [he] at h0; simp at h0
              · rw [hx] at hbk; simp at hbk
            · rw [hl] at h0
              simp only [List.cons.injEq] at h0
              exact ⟨x, r1, hl1, by rw [h0.1]; exact hb⟩
        · intro y hy
          rcases (hmem y).mp hy with h | h
          · subst h; exact Nat.lt_succ_self _
          · exact Nat.lt_succ_of_lt (hfresh y h)
      obtain ⟨t2, tb2, f2, hr, hinv2, hl2, hlen2⟩ :=
        ih temp1 _ (fresh + 1) (by simpa using hlen) hinv1
      refine ⟨t2, tb2, f2, ?_, hinv2, by simpa using hl2, ?_⟩
      · simp only [hpush, Option.some_bind]
        exact hr
      · rw [hlen2, hlen1]; simp only [List.length_cons]; omega

end RehashFacts

section RehashFacts2

variable {K V : Type}

/-- A vector that can be built has at most `vector_max_size` elements, so
that its length is a `size_t`, and at most `vec_limit`. -/
theorem vector_fits_iff (m : UnorderedMap K V) (len : Nat) :
    vector_fits m len = true ↔ len ≤ 2 ^ 60 - 1 ∧ len ≤ m.vec_limit := by
  simp [vector_fits, vector_max_size]

/-- The bucket array of the rehash of `emplace` (4 times the bucket count):
when it can be built, no product on the way wraps around. -/
theorem vector_fits_doubled {m : UnorderedMap K V}
    (h : vector_fits m (m.table_size_ * 4) = true) :
    m.table_size_ * 2 % 2 ^ 64 = m.table_size_ * 2 ∧
    vector_fits m (m.table_size_ * 2 * 2) = true := by
  have h1 := (vector_fits_iff m _).mp h
  refine ⟨Nat.mod_eq_of_lt (by omega), (vector_fits_iff m _).mpr ⟨by omega, by omega⟩⟩

/-- `rehash(sz)` with `sz > 0` whose array of `2 * sz` slots can be built is
defined; it keeps the elements' number and the configuration, sets
`table_size_ = sz` with `2 * sz` slots, and leaves every non-null slot
pointing at the sentinel or at a linked node. -/
theorem rehash_ok (m : UnorderedMap K V) (sz : Nat) (hsz : 0 < sz)
    (hfit : vector_fits m (sz * 2) = true) :
    ∃ m1, rehash m sz = some m1 ∧ m1.table_size_ = sz ∧ m1.table_.length = sz * 2 ∧
      m1.hash_ = m.hash_ ∧ m1.load_factor_ = m.load_factor_ ∧
      m1.max_load_factor_ = m.max_load_factor_ ∧ m1.size = m.size ∧
      (∀ n ∈ m1.inner_list_, n.id < m1.next_id) ∧
      (∀ s ∈ m1.table_, SlotLive m1.inner_list_ s) := by
  have hinit : RehashInv m.hash_ sz ([] : List (Node K V)) (List.replicate (sz * 2) none)
      m.next_id := by
    refine ⟨?_, ?_, ?_⟩
    · intro i p hp
      rw [List.getElem?_replicate] at hp
      split at hp <;> simp at hp
    · intro i hp
      rw [List.getElem?_replicate] at hp
      split at hp <;> simp at hp
    · intro n hn; simp at hn
  obtain ⟨temp1, table1, fresh1, hr, ⟨hlive, hq, hfresh⟩, hlen, hlen1⟩ :=
    rehashLoop_ok m.hash_ sz hsz m.inner_list_ [] (List.replicate (sz * 2) none) m.next_id
      (by simp; omega) hinit
  have hlen' : table1.length = sz * 2 := by simpa using hlen
  have hsz2 : sz * 2 < 2 ^ 64 := by
    have := (vector_fits_iff m _).mp hfit
    omega
  unfold rehash
  rw [Nat.mod_eq_of_lt hsz2, if_pos hfit]
  simp only [hr, Option.bind_eq_bind, Option.some_bind]
  cases temp1 with
  | nil =>
    refine ⟨_, rfl, rfl, hlen', rfl, rfl, rfl, by simpa [size] using hlen1, by simp, ?_⟩
    intro s hs
    cases s with
    | none => trivial
    | some p =>
      obtain ⟨i, hi⟩ := List.getElem?_of_mem hs
      have h1 := hlive i p hi
      rw [after_isSome_iff] at h1
      rcases h1 with h1 | ⟨n, hn, _⟩
      · subst h1
        obtain ⟨n, rest, h2, _⟩ := hq i hi
        simp at h2
      · simp at hn
  | cons n rest =>
    have hlt : m.hash_ n.key % sz < table1.length := by
      rw [hlen']
      exact lt_of_lt_of_le (Nat.mod_lt _ hsz) (by omega)
    simp only [modIdx_pos _ hsz, Option.some_bind, hlt, if_true]
    refine ⟨_, rfl, rfl, by simpa using hlen', rfl, rfl, rfl, by simpa [size] using hlen1,
      hfresh, ?_⟩
    intro s hs
    obtain ⟨i, hi⟩ := List.getElem?_of_mem hs
    simp only at hi
    rw [List.getElem?_set] at hi
    by_cases hi2 : m.hash_ n.key % sz = i
    · simp only [hi2, if_true] at hi
      split at hi
      · simp only [Option.some.injEq] at hi
        subst hi
        show Live _ _
        unfold Live
        rw [after_fake]; rfl
      · simp at hi
    · simp only [hi2, if_false] at hi
      cases s with
      | none => trivial
      | some p =>
        have h1 := hlive i p hi
        rw [after_isSome_iff] at h1
        rcases h1 with h1 | ⟨x, hx, hp⟩
        · subst h1
          obtain ⟨n0, rest0, h2, hb⟩ := hq i hi
          simp only [List.cons.injEq] at h2
          rw [← h2.1] at hb
          exact absurd hb hi2
        · show Live _ _
          unfold Live
          rw [after_isSome_iff]
          exact Or.inr ⟨x, hx, hp⟩

/-- The placement part of `emplace` on a state whose slot `obj_hash` is null or
can be followed, and whose new bucket array can be built when the load factor
test fires: it is defined, hands back `found`, adds exactly one element, and
the iterator returned designates a node holding the key and the value. -/
theorem emplace_place_ok (m1 : UnorderedMap K V) (found : Bool) (obj_hash : Nat) (key : K)
    (value : V) (hts : 0 < m1.table_size_)
    (hfit : m1.load_factor_.ge m1.max_load_factor_ = true →
      vector_fits m1 (m1.table_size_ * 4) = true)
    (hoh : obj_hash < m1.table_size_) (hohl : obj_hash < m1.table_.length)
    (hfresh : ∀ n ∈ m1.inner_list_, n.id < m1.next_id)
    (hslot : ∀ s, m1.table_[obj_hash]? = some s → SlotLive m1.inner_list_ s) :
    ∃ it m4, emplace_place m1 found obj_hash key value = some (it, found, m4) ∧
      m4.size = m1.size + 1 ∧
      ∃ nd, getNode m4.inner_list_ it = some nd ∧ nd.key = key ∧ nd.value = value := by
  have h2 : ∃ m2, (if m1.load_factor_.ge m1.max_load_factor_
        then rehash m1 (m1.table_size_ * 2 % 2 ^ 64) else some m1) = some m2 ∧
      obj_hash < m2.table_.length ∧ m2.size = m1.size ∧
      (∀ n ∈ m2.inner_list_, n.id < m2.next_id) ∧
      (∀ s, m2.table_[obj_hash]? = some s → SlotLive m2.inner_list_ s) := by
    by_cases hc : m1.load_factor_.ge m1.max_load_factor_ = true
    · obtain ⟨hmod, hfit2⟩ := vector_fits_doubled (hfit hc)
      rw [if_pos hc, hmod]
      obtain ⟨m2, hr, hts2, hlen2, _, _, _, hsz, hfr, hlv⟩ :=
        rehash_ok m1 (m1.table_size_ * 2) (by omega) hfit2
      refine ⟨m2, hr, by rw [hlen2]; omega, hsz, hfr, ?_⟩
      intro s hs
      exact hlv s (List.getElem?_mem hs)
    · rw [if_neg hc]
      exact ⟨m1, rfl, hohl, rfl, hfresh, hslot⟩
  obtain ⟨m2, hm2, hlt, hsz, hfr, hlv⟩ := h2
  have hget : m2.table_[obj_hash]? = some (m2.table_[obj_hash]) := List.getElem?_eq_getElem hlt
  unfold emplace_place
  simp only [hm2, Option.bind_eq_bind, Option.some_bind, hget]
  have hnew : ∀ (l : List (Node K V)),
      (∀ y, y ∈ l ↔ y = (⟨m2.next_id, key, value⟩ : Node K V) ∨ y ∈ m2.inner_list_) →
      getNode l (.node m2.next_id) = some ⟨m2.next_id, key, value⟩ := by
    intro l hmem
    apply getNode_of_unique (n := (⟨m2.next_id, key, value⟩ : Node K V)) ((hmem _).mpr (Or.inl rfl))
    intro x hx hid
    rcases (hmem x).mp hx with h | h
    · exact h
    · have := hfr x h
      simp only at hid
      omega
  cases hs : m2.table_[obj_hash] with
  | none =>
    have hback : (after .fake m2.inner_list_ (back .fake m2.inner_list_)).isSome = true := by
      rw [after_isSome_iff]
      rcases back_cases .fake m2.inner_list_ with ⟨_, h⟩ | ⟨x, hx, h⟩
      · exact Or.inl h
      · exact Or.inr ⟨x, hx, h⟩
    obtain ⟨l, hpush, hmem, hlen1, _, _⟩ :=
      push_ptr_ok .fake m2.inner_list_ (back .fake m2.inner_list_)
        ⟨m2.next_id, key, value⟩ hback
    simp only [hpush, Option.some_bind]
    refine ⟨_, _, rfl, ?_, _, hnew l hmem, rfl, rfl⟩
    simp only [size] at hsz ⊢
    rw [hlen1, hsz]
  | some prev =>
    have hprev : (after .fake m2.inner_list_ prev).isSome = true :=
      hlv (some prev) (by rw [hget, hs])
    obtain ⟨l, hpush, hmem, hlen1, hnext, _⟩ :=
      push_ptr_ok .fake m2.inner_list_ prev ⟨m2.next_id, key, value⟩ hprev
    simp only [hpush, Option.some_bind, hnext]
    refine ⟨_, _, rfl, ?_, _, hnew l hmem, rfl, rfl⟩
    simp only [size] at hsz ⊢
    rw [hlen1, hsz]

end RehashFacts2

section EmplaceFacts

variable {K V : Type} [DecidableEq K]

theorem emplace_eq (m : UnorderedMap K V) (key : K) (value : V) :
    emplace m key value =
      (modIdx (m.hash_ key) m.table_size_).bind (fun obj_hash =>
        (find m key).bind (fun it =>
          (if it ≠ end_ m then (erase m it).map (fun s => (s, false)) else some (m, true)).bind
            (fun p => emplace_place p.1 p.2 obj_hash key value))) := by
  rfl

end EmplaceFacts

section FindDefined

variable {K V : Type} [DecidableEq K]

/-- On a valid table `find` is defined for every key. -/
theorem find_defined {m : UnorderedMap K V} (h : Valid m) (key : K) :
    ∃ it, find m key = some it := by
  obtain ⟨⟨hts, hlen, _, _⟩, hlive⟩ := h
  have hlt : m.bucket key < m.table_.length := lt_of_lt_of_le (bucket_lt m key hts) hlen
  have hget : m.table_[m.bucket key]? = some (m.table_[m.bucket key]) :=
    List.getElem?_eq_getElem hlt
  cases hs : m.table_[m.bucket key] with
  | none => exact ⟨_, find_of_null_slot hts (by rw [hget, hs])⟩
  | some a =>
    have h1 : SlotLive m.inner_list_ (some a) := hlive _ (List.getElem?_mem (by rw [hget, hs]))
    obtain ⟨start, hst⟩ := Option.isSome_iff_exists.mp h1
    exact ⟨_, find_of_anchor hts (by rw [hget, hs]) hst⟩

end FindDefined

section RunFacts

theorem mem_dropWhile_dup (c b : Nat) (p rest : List Nat)
    (h : c ∈ (p ++ b :: b :: rest).dropWhile (fun x => x == c)) :
    c ∈ (p ++ b :: rest).dropWhile (fun x => x == c) := by
  induction p with
  | nil =>
    simp only [List.nil_append] at h ⊢
    by_cases hb : b = c
    · subst hb
      simpa [List.dropWhile] using h
    · have hb' : (b == c) = false := by simpa using hb
      simp only [List.dropWhile, hb'] at h ⊢
      rcases List.mem_cons.mp h with h1 | h1
      · exact absurd h1.symm hb
      · exact h1
  | cons d q ih =>
    by_cases hd : d = c
    · subst hd
      simp only [List.cons_append, List.dropWhile, beq_self_eq_true] at h ⊢
      exact ih h
    · have hd' : (d == c) = false := by simpa using hd
      simp only [List.cons_append, List.dropWhile, hd'] at h ⊢
      rcases List.mem_cons.mp h with h1 | h1
      · exact absurd h1.symm hd
      · refine List.mem_cons_of_mem _ ?_
        rcases List.mem_append.mp h1 with h2 | h2
        · exact List.mem_append.mpr (Or.inl h2)
        · refine List.mem_append.mpr (Or.inr ?_)
          rcases List.mem_cons.mp h2 with h3 | h3
          · rw [h3]; simp
          · exact h3

/-- Doubling an element in place keeps the runs contiguous. -/
theorem runsContiguous_dup (b : Nat) (rest : List Nat) :
    ∀ pre : List Nat, runsContiguous (pre ++ b :: rest) = true →
      runsContiguous (pre ++ b :: b :: rest) = true := by
  intro pre
  induction pre with
  | nil =>
    intro h
    simp only [List.nil_append, runsContiguous, Bool.and_eq_true, Bool.not_eq_true',
      List.dropWhile, beq_self_eq_true] at h ⊢
    exact ⟨h.1, h.1, h.2⟩
  | cons c p ih =>
    intro h
    simp only [List.cons_append, runsContiguous, Bool.and_eq_true, Bool.not_eq_true'] at h ⊢
    refine ⟨?_, ih h.2⟩
    have h1 : c ∉ (p ++ b :: rest).dropWhile (fun x => x == c) := by
      simpa using h.1
    have h2 : c ∉ (p ++ b :: b :: rest).dropWhile (fun x => x == c) :=
      fun hc => h1 (mem_dropWhile_dup c b p rest hc)
    simpa using h2

theorem mem_of_mem_dropWhile {c : Nat} {xs : List Nat}
    (h : c ∈ xs.dropWhile (fun x => x == c)) : c ∈ xs :=
  (List.dropWhile_sublist _).subset h

/-- A value that does not occur yet may be appended. -/
theorem runsContiguous_append_new (b : Nat) :
    ∀ xs : List Nat, runsContiguous xs = true → b ∉ xs → runsContiguous (xs ++ [b]) = true := by
  intro xs
  induction xs with
  | nil => intro _ _; simp [runsContiguous]
  | cons c r ih =>
    intro h hb
    simp only [List.cons_append, runsContiguous, Bool.and_eq_true, Bool.not_eq_true'] at h ⊢
    have hcb : c ≠ b := fun e => hb (by simp [e])
    have hbr : b ∉ r := fun e => hb (by simp [e])
    refine ⟨?_, ih h.2 hbr⟩
    have h1 : c ∉ r.dropWhile (fun x => x == c) := by simpa using h.1
    have h2 : c ∉ (r ++ [b]).dropWhile (fun x => x == c) := by
      intro hc
      rw [List.dropWhile_append] at hc
      split at hc
      · have hcb' : (b == c) = false := by simpa using (Ne.symm hcb)
        simp [List.dropWhile, hcb'] at hc
        exact hcb hc
      · rcases List.mem_append.mp hc with h3 | h3
        · exact h1 h3
        · simp at h3; exact hcb h3
    simpa using h2

/-- Behind the first occurrence of `b`, the run of `b` is the only place
where `b` occurs. -/
theorem runsContiguous_first (b : Nat) (rs : List Nat) :
    ∀ ps : List Nat, runsContiguous (ps ++ b :: rs) = true → b ∉ ps →
      b ∉ rs.dropWhile (fun x => x == b) := by
  intro ps
  induction ps with
  | nil =>
    intro h _
    simp only [List.nil_append, runsContiguous, Bool.and_eq_true, Bool.not_eq_true'] at h
    simpa using h.1
  | cons c p ih =>
    intro h hb
    simp only [List.cons_append, runsContiguous, Bool.and_eq_true] at h
    exact ih h.2 (fun e => hb (by simp [e]))

end RunFacts

section AnchorFacts

variable {K V : Type}

theorem back_cons (s : BaseNodePtr) (x : Node K V) (r : List (Node K V)) :
    back s (x :: r) = back (.node x.id) r := by
  induction r generalizing s x with
  | nil => simp [back]
  | cons y r ih =>
    show back s (y :: r) = back (.node x.id) (y :: r)
    rw [ih s y, ih (.node x.id) y]

theorem back_append_cons (s : BaseNodePtr) (z : Node K V) :
    ∀ (P r : List (Node K V)), back s (P ++ z :: r) = back (.node z.id) r := by
  intro P
  induction P generalizing s with
  | nil => intro r; simp [back_cons]
  | cons x P ih => intro r; rw [List.cons_append, back_cons, ih]

theorem back_concat (s : BaseNodePtr) (P : List (Node K V)) (z : Node K V) :
    back s (P ++ [z]) = .node z.id := by
  rw [back_append_cons]; rfl

theorem anchorOf_none_iff (m : UnorderedMap K V) (b : Nat) (p : BaseNodePtr)
    (l : List (Node K V)) :
    anchorOf m b p l = none ↔ ∀ y ∈ l, m.bucket y.key ≠ b := by
  induction l generalizing p with
  | nil => simp [anchorOf]
  | cons x r ih =>
    by_cases hx : m.bucket x.key = b
    · simp [anchorOf, hx]
    · simp [anchorOf, hx, ih]

/-- A bucket's anchor is the last node before its first element. -/
theorem anchorOf_eq_some {m : UnorderedMap K V} {b : Nat} {p a : BaseNodePtr}
    {l : List (Node K V)} (h : anchorOf m b p l = some a) :
    ∃ pre x rest, l = pre ++ x :: rest ∧ (∀ y ∈ pre, m.bucket y.key ≠ b) ∧
      m.bucket x.key = b ∧ a = back p pre := by
  induction l generalizing p with
  | nil => simp [anchorOf] at h
  | cons x r ih =>
    by_cases hx : m.bucket x.key = b
    · simp only [anchorOf, hx, if_true, Option.some.injEq] at h
      exact ⟨[], x, r, rfl, by simp, hx, by rw [← h]; rfl⟩
    · simp only [anchorOf, hx, if_false] at h
      obtain ⟨pre, y, rest, hl, hpre, hy, ha⟩ := ih h
      refine ⟨x :: pre, y, rest, by rw [hl]; rfl, ?_, hy, by rw [ha, back_cons]⟩
      intro z hz
      rcases List.mem_cons.mp hz with h1 | h1
      · rw [h1]; exact hx
      · exact hpre z h1

theorem anchorOf_skip (m : UnorderedMap K V) (b : Nat) (p : BaseNodePtr)
    (l1 l2 : List (Node K V)) (h : ∀ y ∈ l1, m.bucket y.key ≠ b) :
    anchorOf m b p (l1 ++ l2) = anchorOf m b (back p l1) l2 := by
  induction l1 generalizing p with
  | nil => rfl
  | cons x r ih =>
    have hx : m.bucket x.key ≠ b := h x (by simp)
    have e : anchorOf m b p (x :: (r ++ l2)) = anchorOf m b (.node x.id) (r ++ l2) := by
      simp [anchorOf, hx]
    rw [List.cons_append, e, ih _ (fun y hy => h y (by simp [hy])), back_cons]

theorem anchorOf_append_some (m : UnorderedMap K V) (b : Nat) (p a : BaseNodePtr)
    (l1 l2 : List (Node K V)) (h : anchorOf m b p l1 = some a) :
    anchorOf m b p (l1 ++ l2) = some a := by
  induction l1 generalizing p with
  | nil => simp [anchorOf] at h
  | cons x r ih =>
    by_cases hx : m.bucket x.key = b
    · simpa [anchorOf, hx] using h
    · simp only [anchorOf, hx, if_false, List.cons_append] at h ⊢
      exact ih _ h

theorem anchorOf_congr (m m1 : UnorderedMap K V) (hb : ∀ k, m1.bucket k = m.bucket k)
    (b : Nat) (p : BaseNodePtr) (l : List (Node K V)) :
    anchorOf m1 b p l = anchorOf m b p l := by
  induction l generalizing p with
  | nil => rfl
  | cons x r ih => simp only [anchorOf, hb, ih]

theorem insertAfterId_split (nd : Node K V) (A B : List (Node K V)) (n : Node K V)
    (hA : ∀ x ∈ A, x.id ≠ n.id) :
    insertAfterId nd (A ++ n :: B) n.id = some (A ++ n :: nd :: B) := by
  induction A with
  | nil => simp [insertAfterId]
  | cons y rest ih =>
    have hy : y.id ≠ n.id := hA y (by simp)
    have := ih (fun x hx => hA x (by simp [hx]))
    simp [insertAfterId, hy, this]

theorem ids_ne_last {P rest : List (Node K V)} {z : Node K V}
    (hnd : (((P ++ [z]) ++ rest).map Node.id).Nodup) : ∀ x ∈ P, x.id ≠ z.id := by
  intro x hx hid
  simp only [List.append_assoc, List.map_append, List.map_cons] at hnd
  exact (List.nodup_append.mp hnd).2.2 (List.mem_map_of_mem Node.id hx) (by simp [hid])

/-- The nodes after the last node of a prefix are the rest of the chain. -/
theorem after_back (s : BaseNodePtr) (hs : ∀ i, s ≠ .node i) (pre rest : List (Node K V))
    (hnd : ((pre ++ rest).map Node.id).Nodup) :
    after s (pre ++ rest) (back s pre) = some rest := by
  rcases List.eq_nil_or_concat pre with h | ⟨P, z, h⟩
  · subst h; simp [back, after]
  · subst h
    rw [List.concat_eq_append] at hnd ⊢
    have hP := ids_ne_last hnd
    rw [back_concat]
    have hne : BaseNodePtr.node z.id ≠ s := fun e => hs z.id e.symm
    simp only [after, hne, if_false, List.append_assoc, List.singleton_append]
    exact afterId_split P rest z hP

/-- Linking a node after the last node of a prefix puts it between the prefix
and the rest. -/
theorem push_ptr_back (s : BaseNodePtr) (hs : ∀ i, s ≠ .node i) (pre rest : List (Node K V))
    (nd : Node K V) (hnd : ((pre ++ rest).map Node.id).Nodup) :
    push_ptr s (pre ++ rest) (back s pre) nd = some (pre ++ nd :: rest) := by
  rcases List.eq_nil_or_concat pre with h | ⟨P, z, h⟩
  · subst h; simp [back, push_ptr]
  · subst h
    rw [List.concat_eq_append] at hnd ⊢
    have hP := ids_ne_last hnd
    rw [back_concat]
    have hne : BaseNodePtr.node z.id ≠ s := fun e => hs z.id e.symm
    simp only [push_ptr, hne, if_false, List.append_assoc, List.singleton_append]
    exact insertAfterId_split nd P rest z hP

end AnchorFacts

section PlaceFacts

variable {K V : Type}

theorem bucket_not_mem_of_anchor_none {m : UnorderedMap K V} {b : Nat} {s : BaseNodePtr}
    {l : List (Node K V)} (h : anchorOf m b s l = none) :
    b ∉ l.map (fun n => m.bucket n.key) := by
  intro hb
  obtain ⟨y, hy, hyb⟩ := List.mem_map.mp hb
  exact (anchorOf_none_iff m b s l).mp h y hy hyb

/-- Appending an element of an empty bucket and anchoring the bucket at the
old tail keeps I1-I3. -/
theorem place_tail (m : UnorderedMap K V) (s : BaseNodePtr) (l : List (Node K V))
    (T : List (Option BaseNodePtr)) (nd : Node K V)
    (hts : 0 < m.table_size_) (hlen : m.table_size_ ≤ T.length)
    (hc : runsContiguous (l.map (fun n => m.bucket n.key)) = true)
    (ha : Anchored m s l T) (hslot : T[m.bucket nd.key]? = some none) :
    runsContiguous ((l ++ [nd]).map (fun n => m.bucket n.key)) = true ∧
    Anchored m s (l ++ [nd]) (T.set (m.bucket nd.key) (some (back s l))) := by
  have hb0 : m.bucket nd.key < m.table_size_ := bucket_lt m nd.key hts
  have hnone : anchorOf m (m.bucket nd.key) s l = none := by
    have := ha _ hb0
    rw [hslot] at this
    exact (Option.some.inj this).symm
  refine ⟨?_, ?_⟩
  · rw [List.map_append]
    exact runsContiguous_append_new _ _ hc (bucket_not_mem_of_anchor_none hnone)
  · intro b hb
    by_cases hbb : m.bucket nd.key = b
    · subst hbb
      rw [List.getElem?_set_self (lt_of_lt_of_le hb0 hlen),
        anchorOf_skip m _ s l [nd] ((anchorOf_none_iff m _ s l).mp hnone)]
      simp [anchorOf]
    · rw [List.getElem?_set_ne hbb, ha b hb]
      cases h1 : anchorOf m b s l with
      | some a => rw [anchorOf_append_some m b s a l [nd] h1]
      | none =>
        rw [anchorOf_skip m b s l [nd] ((anchorOf_none_iff m b s l).mp h1)]
        simp [anchorOf, hbb]

/-- Linking an element right after the anchor of its non-empty bucket keeps
I1-I3 with the same slots. -/
theorem place_front (m : UnorderedMap K V) (s : BaseNodePtr) (l : List (Node K V))
    (T : List (Option BaseNodePtr)) (nd : Node K V) (a : BaseNodePtr)
    (hts : 0 < m.table_size_)
    (hc : runsContiguous (l.map (fun n => m.bucket n.key)) = true)
    (ha : Anchored m s l T) (hslot : T[m.bucket nd.key]? = some (some a)) :
    ∃ pre x rest, l = pre ++ x :: rest ∧ a = back s pre ∧
      (∀ y ∈ pre, m.bucket y.key ≠ m.bucket nd.key) ∧ m.bucket x.key = m.bucket nd.key ∧
      runsContiguous ((pre ++ nd :: x :: rest).map (fun n => m.bucket n.key)) = true ∧
      Anchored m s (pre ++ nd :: x :: rest) T := by
  have hb0 : m.bucket nd.key < m.table_size_ := bucket_lt m nd.key hts
  have hsome : anchorOf m (m.bucket nd.key) s l = some a := by
    have := ha _ hb0
    rw [hslot] at this
    exact (Option.some.inj this).symm
  obtain ⟨pre, x, rest, hl, hpre, hx, hback⟩ := anchorOf_eq_some hsome
  refine ⟨pre, x, rest, hl, hback, hpre, hx, ?_, ?_⟩
  · rw [hl] at hc
    simp only [List.map_append, List.map_cons, hx] at hc ⊢
    exact runsContiguous_dup _ _ _ hc
  · intro b hb
    rw [ha b hb, hl]
    cases h1 : anchorOf m b s pre with
    | some q =>
      rw [anchorOf_append_some m b s q pre _ h1, anchorOf_append_some m b s q pre _ h1]
    | none =>
      have hp := (anchorOf_none_iff m b s pre).mp h1
      rw [anchorOf_skip m b s pre _ hp, anchorOf_skip m b s pre _ hp]
      by_cases hbb : m.bucket nd.key = b
      · simp [anchorOf, hbb, hx ▸ hbb]
      · have hxb : m.bucket x.key ≠ b := by rw [hx]; exact hbb
        simp [anchorOf, hbb, hxb]

end PlaceFacts

section LookupFacts

variable {K V : Type} [DecidableEq K]

theorem findLoop_found (m : UnorderedMap K V) (k : K) :
    ∀ L : List (Node K V), (∃ y ∈ L, y.key = k) →
      m.bucket k ∉ (L.map (fun n => m.bucket n.key)).dropWhile (fun x => x == m.bucket k) →
      ∃ z ∈ L, z.key = k ∧ findLoop m k (m.bucket k) L = .node z.id := by
  intro L
  induction L with
  | nil => intro h _; simp at h
  | cons x r ih =>
    intro hy hc
    by_cases hxb : m.bucket x.key = m.bucket k
    · by_cases hxk : x.key = k
      · refine ⟨x, by simp, hxk, ?_⟩
        have : m.hash_ x.key % m.table_size_ = m.bucket k := hxb
        unfold findLoop
        rw [if_neg (not_not.mpr this), if_pos hxk]
      · have hy' : ∃ y ∈ r, y.key = k := by
          obtain ⟨y, hy1, hy2⟩ := hy
          rcases List.mem_cons.mp hy1 with h1 | h1
          · rw [h1] at hy2; exact absurd hy2 hxk
          · exact ⟨y, h1, hy2⟩
        have hc' : m.bucket k ∉ (r.map (fun n => m.bucket n.key)).dropWhile
            (fun x => x == m.bucket k) := by
          simpa [List.dropWhile, hxb] using hc
        obtain ⟨z, hz, hzk, hf⟩ := ih hy' hc'
        refine ⟨z, by simp [hz], hzk, ?_⟩
        have : m.hash_ x.key % m.table_size_ = m.bucket k := hxb
        unfold findLoop
        rw [if_neg (not_not.mpr this), if_neg hxk]
        exact hf
    · exfalso
      have hxb' : (m.bucket x.key == m.bucket k) = false := by simpa using hxb
      simp only [List.map_cons, List.dropWhile, hxb'] at hc
      obtain ⟨y, hy1, hy2⟩ := hy
      apply hc
      rw [← hy2]
      exact List.mem_map_of_mem (fun n => m.bucket n.key) hy1 |> fun h => by simpa using h

/-- On a table satisfying I1-I3 `find` is defined and decides membership of
the key in the chain. -/
theorem find_spec {m : UnorderedMap K V} (h : Inv123 m) (k : K) :
    ((∀ n ∈ m.inner_list_, n.key ≠ k) → find m k = some .fake) ∧
    ((∃ n ∈ m.inner_list_, n.key = k) →
      ∃ n ∈ m.inner_list_, n.key = k ∧ find m k = some (.node n.id)) := by
  obtain ⟨⟨hts, hlen, hnd, _⟩, h1, h23⟩ := h
  have hb := bucket_lt m k hts
  have hslot := h23 _ hb
  cases ha : anchorOf m (m.bucket k) .fake m.inner_list_ with
  | none =>
    rw [ha] at hslot
    refine ⟨fun _ => find_of_null_slot hts hslot, ?_⟩
    rintro ⟨n, hn, hk⟩
    exact absurd (by rw [hk]) ((anchorOf_none_iff m _ _ _).mp ha n hn)
  | some a =>
    rw [ha] at hslot
    obtain ⟨pre, x, rest, hl, hpre, hx, hback⟩ := anchorOf_eq_some ha
    have haft : after .fake m.inner_list_ a = some (x :: rest) := by
      rw [hl, hback]
      exact after_back .fake (by simp) pre (x :: rest) (by rw [← hl]; exact hnd)
    rw [find_of_anchor hts hslot haft]
    refine ⟨fun habs => ?_, ?_⟩
    · rw [findLoop_fake_of_absent]
      intro y hy
      exact habs y (by rw [hl]; simp [hy])
    · rintro ⟨n, hn, hk⟩
      have hn' : n ∈ x :: rest := by
        rw [hl] at hn
        rcases List.mem_append.mp hn with h2 | h2
        · exact absurd (by rw [hk]) (hpre n h2)
        · exact h2
      have hc : m.bucket k ∉ ((x :: rest).map (fun n => m.bucket n.key)).dropWhile
          (fun y => y == m.bucket k) := by
        have h1' : runsContiguous (m.inner_list_.map (fun n => m.bucket n.key)) = true := h1
        rw [hl] at h1'
        simp only [List.map_append, List.map_cons, hx] at h1'
        have := runsContiguous_first _ _ _ h1' (by
          intro hm
          obtain ⟨y, hy, hyb⟩ := List.mem_map.mp hm
          exact hpre y hy hyb)
        simpa [List.dropWhile, hx] using this
      obtain ⟨z, hz, hzk, hf⟩ := findLoop_found m k (x :: rest) ⟨n, hn', hk⟩ hc
      exact ⟨z, by rw [hl]; exact List.mem_append.mpr (Or.inr hz), hzk, by rw [hf]⟩

end LookupFacts

section RehashWF

variable {K V : Type}

theorem nodup_ids_of_perm_cons {l l1 : List (Node K V)} {nd : Node K V}
    (hp : l1.Perm (nd :: l)) (hnd : (l.map Node.id).Nodup) (hfresh : ∀ n ∈ l, n.id < nd.id) :
    (l1.map Node.id).Nodup := by
  rw [(hp.map Node.id).nodup_iff, List.map_cons, List.nodup_cons]
  refine ⟨?_, hnd⟩
  intro hmem
  obtain ⟨y, hy, hid⟩ := List.mem_map.mp hmem
  have := hfresh y hy
  omega

theorem rehashLoop_wf (m : UnorderedMap K V) (hts : 0 < m.table_size_) :
    ∀ (src temp : List (Node K V)) (table : List (Option BaseNodePtr)) (fresh : Nat),
      m.table_size_ ≤ table.length → RehashWF m temp table fresh →
      ∃ temp1 table1 fresh1, rehashLoop m.hash_ m.table_size_ src temp table fresh
          = some (temp1, table1, fresh1) ∧
        RehashWF m temp1 table1 fresh1 ∧ table1.length = table.length ∧
        (temp1.map Node.kv).Perm (temp.map Node.kv ++ src.map Node.kv) := by
  intro src
  induction src with
  | nil =>
    intro temp table fresh _ hinv
    exact ⟨temp, table, fresh, by simp [rehashLoop], hinv, rfl, by simp⟩
  | cons n rest ih =>
    intro temp table fresh hlen hinv
    obtain ⟨hnd, hfresh, hc, ha⟩ := hinv
    have hlt : m.hash_ n.key % m.table_size_ < table.length :=
      lt_of_lt_of_le (Nat.mod_lt _ hts) hlen
    have hget : table[m.hash_ n.key % m.table_size_]? = some (table[m.hash_ n.key % m.table_size_]) :=
      List.getElem?_eq_getElem hlt
    have hfr1 : ∀ l1 : List (Node K V), l1.Perm ((⟨fresh, n.key, n.value⟩ : Node K V) :: temp) →
        ∀ y ∈ l1, y.id < fresh + 1 := by
      intro l1 hp y hy
      rcases List.mem_cons.mp (hp.subset hy) with h | h
      · subst h; exact Nat.lt_succ_self _
      · exact Nat.lt_succ_of_lt (hfresh y h)
    have hkv : ∀ (l1 t2 : List (Node K V)),
        l1.Perm ((⟨fresh, n.key, n.value⟩ : Node K V) :: temp) →
        (t2.map Node.kv).Perm (l1.map Node.kv ++ rest.map Node.kv) →
        (t2.map Node.kv).Perm (temp.map Node.kv ++ (n :: rest).map Node.kv) := by
      intro l1 t2 hp h2
      refine h2.trans ?_
      have h3 := (hp.map Node.kv).append_right (rest.map Node.kv)
      refine h3.trans ?_
      simp only [List.map_cons, List.cons_append]
      exact List.perm_middle.symm
    unfold rehashLoop
    simp only [modIdx_pos _ hts, hget, Option.bind_eq_bind, Option.some_bind]
    cases hslot : table[m.hash_ n.key % m.table_size_] with
    | some a =>
      have hslot' : table[m.bucket (⟨fresh, n.key, n.value⟩ : Node K V).key]? = some (some a) := by
        show table[m.hash_ n.key % m.table_size_]? = _
        rw [hget, hslot]
      obtain ⟨pre, x, rest1, hl, hback, _, _, hc1, ha1⟩ :=
        place_front m .tempFake temp table ⟨fresh, n.key, n.value⟩ a hts hc ha hslot'
      have hpush : push_ptr .tempFake temp a ⟨fresh, n.key, n.value⟩
          = some (pre ++ (⟨fresh, n.key, n.value⟩ : Node K V) :: x :: rest1) := by
        rw [hl, hback]
        exact push_ptr_back .tempFake (by simp) pre (x :: rest1) _ (by rw [← hl]; exact hnd)
      have hperm : (pre ++ (⟨fresh, n.key, n.value⟩ : Node K V) :: x :: rest1).Perm
          ((⟨fresh, n.key, n.value⟩ : Node K V) :: temp) := by
        rw [hl]; exact List.perm_middle
      obtain ⟨t2, tb2, f2, hr, hinv2, hl2, hp2⟩ := ih _ table (fresh + 1) hlen
        ⟨nodup_ids_of_perm_cons hperm hnd hfresh, hfr1 _ hperm, hc1, ha1⟩
      refine ⟨t2, tb2, f2, ?_, hinv2, hl2, hkv _ _ hperm hp2⟩
      simp only [hpush, Option.some_bind]
      exact hr
    | none =>
      have hslot' : table[m.bucket (⟨fresh, n.key, n.value⟩ : Node K V).key]? = some none := by
        show table[m.hash_ n.key % m.table_size_]? = _
        rw [hget, hslot]
      obtain ⟨hc1, ha1⟩ :=
        place_tail m .tempFake temp table ⟨fresh, n.key, n.value⟩ hts hlen hc ha hslot'
      have hpush : push_ptr .tempFake temp (back .tempFake temp) ⟨fresh, n.key, n.value⟩
          = some (temp ++ [(⟨fresh, n.key, n.value⟩ : Node K V)]) := by
        have := push_ptr_back .tempFake (by simp) temp [] (⟨fresh, n.key, n.value⟩ : Node K V)
          (by simpa using hnd)
        simpa using this
      have hperm : (temp ++ [(⟨fresh, n.key, n.value⟩ : Node K V)]).Perm
          ((⟨fresh, n.key, n.value⟩ : Node K V) :: temp) := by
        simp
      obtain ⟨t2, tb2, f2, hr, hinv2, hl2, hp2⟩ := ih _ _ (fresh + 1) (by simpa using hlen)
        ⟨nodup_ids_of_perm_cons hperm hnd hfresh, hfr1 _ hperm, hc1, ha1⟩
      refine ⟨t2, tb2, f2, ?_, hinv2, by simpa using hl2, hkv _ _ hperm hp2⟩
      simp only [hpush, Option.some_bind]
      exact hr

end RehashWF

section RehashWF2

variable {K V : Type}

theorem anchorOf_head_sentinel (m m1 : UnorderedMap K V)
    (hb : ∀ k, m1.bucket k = m.bucket k) (b : Nat) (s s1 : BaseNodePtr) (n : Node K V)
    (rest : List (Node K V)) (hne : m.bucket n.key ≠ b) :
    anchorOf m b s (n :: rest) = anchorOf m1 b s1 (n :: rest) := by
  have hne1 : m1.bucket n.key ≠ b := by rw [hb]; exact hne
  simp only [anchorOf, hne, hne1, if_false]
  exact (anchorOf_congr m m1 hb b _ rest).symm

/-- `rehash(sz)` with `sz > 0` whose array of `2 * sz` slots can be built,
whatever the slots were: it is defined, sets `table_size_ = sz`, keeps the
key/value pairs as a multiset and leaves a table satisfying I1-I3. -/
theorem rehash_wf (m : UnorderedMap K V) (sz : Nat) (hsz : 0 < sz)
    (hfit : vector_fits m (sz * 2) = true) :
    ∃ m1, rehash m sz = some m1 ∧ m1.table_size_ = sz ∧ m1.hash_ = m.hash_ ∧
      m1.load_factor_ = m.load_factor_ ∧ m1.max_load_factor_ = m.max_load_factor_ ∧
      m1.table_.length = sz * 2 ∧
      (m1.inner_list_.map Node.kv).Perm (m.inner_list_.map Node.kv) ∧ Inv123 m1 := by
  have hinit : RehashWF ({ m with table_size_ := sz } : UnorderedMap K V) []
      (List.replicate (sz * 2) none) m.next_id := by
    refine ⟨by simp, by simp, by simp [runsContiguous], ?_⟩
    intro b hb
    have hb' : b < sz := hb
    rw [List.getElem?_replicate]
    simp only [anchorOf]
    rw [if_pos (by omega)]
  obtain ⟨temp1, table1, fresh1, hr, ⟨hnd, hfresh, hc, ha⟩, hlen, hperm⟩ :=
    rehashLoop_wf ({ m with table_size_ := sz } : UnorderedMap K V) hsz m.inner_list_ []
      (List.replicate (sz * 2) none) m.next_id (by simp; omega) hinit
  have hr' : rehashLoop m.hash_ sz m.inner_list_ [] (List.replicate (sz * 2) none) m.next_id
      = some (temp1, table1, fresh1) := hr
  have hlen' : table1.length = sz * 2 := by simpa using hlen
  have hperm' : (temp1.map Node.kv).Perm (m.inner_list_.map Node.kv) := by simpa using hperm
  have hsz2 : sz * 2 < 2 ^ 64 := by
    have := (vector_fits_iff m _).mp hfit
    omega
  unfold rehash
  rw [Nat.mod_eq_of_lt hsz2, if_pos hfit]
  simp only [hr', Option.bind_eq_bind, Option.some_bind]
  cases temp1 with
  | nil =>
    refine ⟨_, rfl, rfl, rfl, rfl, rfl, hlen', hperm', ⟨hsz, ?_, hnd, hfresh⟩, hc, ?_⟩
    · show sz ≤ table1.length
      omega
    · intro b hb
      have := ha b hb
      simpa [anchorOf] using this
  | cons n rest =>
    have hlt : m.hash_ n.key % sz < table1.length := by
      rw [hlen']
      exact lt_of_lt_of_le (Nat.mod_lt _ hsz) (by omega)
    simp only [modIdx_pos _ hsz, Option.some_bind, hlt, if_true]
    refine ⟨_, rfl, rfl, rfl, rfl, rfl, by simpa using hlen', hperm', ⟨hsz, ?_, hnd, hfresh⟩,
      hc, ?_⟩
    · show sz ≤ (table1.set _ _).length
      rw [List.length_set]; omega
    · intro b hb
      have hb' : b < sz := hb
      show (table1.set (m.hash_ n.key % sz) (some .fake))[b]? = _
      by_cases hbb : m.hash_ n.key % sz = b
      · subst hbb
        rw [List.getElem?_set_self hlt]
        simp [anchorOf, bucket]
      · rw [List.getElem?_set_ne hbb, ha b hb']
        congr 1
        exact anchorOf_head_sentinel ({ m with table_size_ := sz } : UnorderedMap K V)
          ({ m with table_size_ := sz, inner_list_ := n :: rest,
                    table_ := table1.set (m.hash_ n.key % sz) (some .fake),
                    next_id := fresh1 } : UnorderedMap K V)
          (fun _ => rfl) b .tempFake .fake n rest hbb

end RehashWF2

section InsertFacts

variable {K V : Type}

theorem getNode_of_nodup {l : List (Node K V)} {n : Node K V} (hn : n ∈ l)
    (hnd : (l.map Node.id).Nodup) : getNode l (.node n.id) = some n :=
  getNode_of_unique hn (fun _ hx hid => List.inj_on_of_nodup_map hnd hx hn hid)

theorem insertAfterId_perm (nd : Node K V) :
    ∀ (l l1 : List (Node K V)) (i : Nat), insertAfterId nd l i = some l1 → l1.Perm (nd :: l) := by
  intro l
  induction l with
  | nil => intro l1 i h; simp [insertAfterId] at h
  | cons x r ih =>
    intro l1 i h
    by_cases hx : x.id = i
    · simp only [insertAfterId, hx, if_true, Option.some.injEq] at h
      subst h
      exact List.Perm.swap nd x r
    · simp only [insertAfterId, hx, if_false, Option.map_eq_some'] at h
      obtain ⟨r1, hr1, hl1⟩ := h
      subst hl1
      exact ((ih r1 i hr1).cons x).trans (List.Perm.swap nd x r)

theorem push_ptr_perm {s : BaseNodePtr} {l l1 : List (Node K V)} {prev : BaseNodePtr}
    {nd : Node K V} (h : push_ptr s l prev nd = some l1) : l1.Perm (nd :: l) := by
  unfold push_ptr at h
  by_cases hp : prev = s
  · simp only [hp, if_true, Option.some.injEq] at h
    subst h
    exact List.Perm.refl _
  · rw [if_neg hp] at h
    cases prev with
    | fake => simp at h
    | tempFake => simp at h
    | node i => exact insertAfterId_perm nd l l1 i h

/-- The placement part of `emplace`, when the bucket array of its rehash can
be built, adds the pair `(key, value)` to the multiset of stored pairs and
nothing else. -/
theorem emplace_place_perm {m1 m4 : UnorderedMap K V} {found flag : Bool} {obj_hash : Nat}
    {key : K} {value : V} {it : BaseNodePtr} (hts : 0 < m1.table_size_)
    (hfit : m1.load_factor_.ge m1.max_load_factor_ = true →
      vector_fits m1 (m1.table_size_ * 4) = true)
    (h : emplace_place m1 found obj_hash key value = some (it, flag, m4)) :
    (m4.inner_list_.map Node.kv).Perm ((key, value) :: m1.inner_list_.map Node.kv) := by
  have h2 : ∃ m2, (if m1.load_factor_.ge m1.max_load_factor_
        then rehash m1 (m1.table_size_ * 2 % 2 ^ 64) else some m1) = some m2 ∧
      (m2.inner_list_.map Node.kv).Perm (m1.inner_list_.map Node.kv) := by
    by_cases hc : m1.load_factor_.ge m1.max_load_factor_ = true
    · obtain ⟨hmod, hfit2⟩ := vector_fits_doubled (hfit hc)
      rw [if_pos hc, hmod]
      obtain ⟨m2, hr, _, _, _, _, _, hperm, _⟩ :=
        rehash_wf m1 (m1.table_size_ * 2) (by omega) hfit2
      exact ⟨m2, hr, hperm⟩
    · rw [if_neg hc]
      exact ⟨m1, rfl, List.Perm.refl _⟩
  obtain ⟨m2, hm2, hperm2⟩ := h2
  unfold emplace_place at h
  simp only [hm2, Option.bind_eq_bind, Option.some_bind] at h
  have key_step : ∀ l : List (Node K V),
      l.Perm ((⟨m2.next_id, key, value⟩ : Node K V) :: m2.inner_list_) →
      (l.map Node.kv).Perm ((key, value) :: m1.inner_list_.map Node.kv) := by
    intro l hl
    have := hl.map Node.kv
    simp only [List.map_cons] at this
    exact this.trans (List.Perm.cons _ hperm2)
  cases hs : m2.table_[obj_hash]? with
  | none => simp [hs] at h
  | some slot =>
    simp only [hs, Option.some_bind] at h
    cases slot with
    | none =>
      simp only at h
      cases hp : push_ptr .fake m2.inner_list_ (back .fake m2.inner_list_)
          ⟨m2.next_id, key, value⟩ with
      | none => simp [hp] at h
      | some l =>
        simp only [hp, Option.some_bind, Option.some.injEq, Prod.mk.injEq] at h
        rw [← h.2.2]
        exact key_step l (push_ptr_perm hp)
    | some prev =>
      simp only at h
      cases hp : push_ptr .fake m2.inner_list_ prev ⟨m2.next_id, key, value⟩ with
      | none => simp [hp] at h
      | some l =>
        simp only [hp, Option.some_bind] at h
        cases hn : LinkedList.next .fake l prev with
        | none => simp [hn] at h
        | some r =>
          simp only [hn, Option.some_bind, Option.some.injEq, Prod.mk.injEq] at h
          rw [← h.2.2]
          exact key_step l (push_ptr_perm hp)

end InsertFacts

section InsertFacts2

variable {K V : Type}

theorem I2_I3_of_anchored (m m1 : UnorderedMap K V) (hb : ∀ k, m1.bucket k = m.bucket k)
    (hts : m1.table_size_ = m.table_size_)
    (h : Anchored m .fake m1.inner_list_ m1.table_) : I2_I3 m1 := by
  intro b hlt
  rw [anchorOf_congr m m1 hb]
  exact h b (by rw [← hts]; exact hlt)

/-- The placement part of `emplace` on a table satisfying I1-I3 when the load
factor test does not fire: the new node gets the next cell, is linked as the
slot of the key's bucket says, and I1-I3 hold again. -/
theorem emplace_place_no_rehash (m : UnorderedMap K V) (found : Bool) (key : K) (value : V)
    (h : Inv123 m) (hnr : m.load_factor_.ge m.max_load_factor_ = false) :
    ∃ m1, emplace_place m found (m.bucket key) key value
        = some (.node m.next_id, found, m1) ∧
      Inv123 m1 ∧ m1.table_size_ = m.table_size_ ∧ m1.hash_ = m.hash_ ∧
      m1.max_load_factor_ = m.max_load_factor_ ∧
      m1.inner_list_.Perm ((⟨m.next_id, key, value⟩ : Node K V) :: m.inner_list_) := by
  obtain ⟨⟨hts, hlen, hnd, hfresh⟩, hc, ha⟩ := h
  have hb0 : m.bucket key < m.table_.length := lt_of_lt_of_le (bucket_lt m key hts) hlen
  have hget : m.table_[m.bucket key]? = some (m.table_[m.bucket key]) :=
    List.getElem?_eq_getElem hb0
  have hfr1 : ∀ l1 : List (Node K V), l1.Perm ((⟨m.next_id, key, value⟩ : Node K V) :: m.inner_list_) →
      ∀ y ∈ l1, y.id < m.next_id + 1 := by
    intro l1 hp y hy
    rcases List.mem_cons.mp (hp.subset hy) with h1 | h1
    · subst h1; exact Nat.lt_succ_self _
    · exact Nat.lt_succ_of_lt (hfresh y h1)
  unfold emplace_place
  simp only [hnr, Bool.false_eq_true, if_false, Option.bind_eq_bind, Option.some_bind, hget]
  cases hslot : m.table_[m.bucket key] with
  | none =>
    have hslot' : m.table_[m.bucket (⟨m.next_id, key, value⟩ : Node K V).key]? = some none := by
      show m.table_[m.bucket key]? = _
      rw [hget, hslot]
    obtain ⟨hc1, ha1⟩ := place_tail m .fake m.inner_list_ m.table_ ⟨m.next_id, key, value⟩
      hts hlen hc ha hslot'
    have hpush : push_ptr .fake m.inner_list_ (back .fake m.inner_list_)
        ⟨m.next_id, key, value⟩ = some (m.inner_list_ ++ [(⟨m.next_id, key, value⟩ : Node K V)]) := by
      have := push_ptr_back .fake (by simp) m.inner_list_ []
        (⟨m.next_id, key, value⟩ : Node K V) (by simpa using hnd)
      simpa using this
    have hperm : (m.inner_list_ ++ [(⟨m.next_id, key, value⟩ : Node K V)]).Perm
        ((⟨m.next_id, key, value⟩ : Node K V) :: m.inner_list_) := by
      simp
    simp only [hpush, Option.some_bind]
    refine ⟨_, rfl, ⟨⟨hts, ?_, nodup_ids_of_perm_cons hperm hnd hfresh, hfr1 _ hperm⟩, hc1,
      I2_I3_of_anchored m _ (fun _ => rfl) rfl ha1⟩, rfl, rfl, rfl, hperm⟩
    show m.table_size_ ≤ (m.table_.set _ _).length
    rw [List.length_set]; exact hlen
  | some a =>
    have hslot' : m.table_[m.bucket (⟨m.next_id, key, value⟩ : Node K V).key]?
        = some (some a) := by
      show m.table_[m.bucket key]? = _
      rw [hget, hslot]
    obtain ⟨pre, x, rest, hl, hback, _, _, hc1, ha1⟩ :=
      place_front m .fake m.inner_list_ m.table_ ⟨m.next_id, key, value⟩ a hts hc ha hslot'
    have hpush : push_ptr .fake m.inner_list_ a ⟨m.next_id, key, value⟩
        = some (pre ++ (⟨m.next_id, key, value⟩ : Node K V) :: x :: rest) := by
      rw [hl, hback]
      exact push_ptr_back .fake (by simp) pre (x :: rest) _ (by rw [← hl]; exact hnd)
    have hperm : (pre ++ (⟨m.next_id, key, value⟩ : Node K V) :: x :: rest).Perm
        ((⟨m.next_id, key, value⟩ : Node K V) :: m.inner_list_) := by
      rw [hl]; exact List.perm_middle
    have hnd1 := nodup_ids_of_perm_cons hperm hnd hfresh
    have hnext : LinkedList.next .fake
        (pre ++ (⟨m.next_id, key, value⟩ : Node K V) :: x :: rest) a
        = some (.node m.next_id) := by
      rw [hback]
      simp [LinkedList.next, after_back .fake (by simp) pre _ hnd1, headPtr]
    simp only [hpush, Option.some_bind, hnext]
    exact ⟨_, rfl, ⟨⟨hts, hlen, hnd1, hfr1 _ hperm⟩, hc1,
      I2_I3_of_anchored m _ (fun _ => rfl) rfl ha1⟩, rfl, rfl, rfl, hperm⟩

end InsertFacts2

section FrameFacts

variable {K V : Type}

/-- `erase` leaves every slot alone but the one of the erased node's bucket
and the one of the bucket of the node that followed it. -/
theorem slotsAfterErase_frame (m : UnorderedMap K V) (n : Node K V) (a first : BaseNodePtr)
    (B : List (Node K V)) (b : Nat) (hb : b ≠ m.bucket n.key)
    (hnext : ∀ x r, B = x :: r → b ≠ m.bucket x.key) :
    (slotsAfterErase m n a first B)[b]? = m.table_[b]? := by
  have h1 : (if BaseNodePtr.node n.id = first then m.table_.set (m.bucket n.key) none
      else m.table_)[b]? = m.table_[b]? := by
    split
    · exact List.getElem?_set_ne (Ne.symm hb)
    · rfl
  cases B with
  | nil => simpa only [slotsAfterErase] using h1
  | cons x r =>
    simp only [slotsAfterErase]
    rw [List.getElem?_set_ne (Ne.symm (hnext x r rfl))]
    exact h1

/-- When the load factor test does not fire, the placement part of `emplace`
keeps `table_size_` and `max_load_factor_` and writes no slot but
`obj_hash`. -/
theorem emplace_place_frame {m1 m4 : UnorderedMap K V} {found flag : Bool} {obj_hash : Nat}
    {key : K} {value : V} {it : BaseNodePtr}
    (hnr : m1.load_factor_.ge m1.max_load_factor_ = false)
    (h : emplace_place m1 found obj_hash key value = some (it, flag, m4)) :
    m4.table_size_ = m1.table_size_ ∧ m4.max_load_factor_ = m1.max_load_factor_ ∧
    m4.table_.length = m1.table_.length ∧
    ∀ b, b ≠ obj_hash → m4.table_[b]? = m1.table_[b]? := by
  unfold emplace_place at h
  simp only [hnr, Bool.false_eq_true, if_false, Option.bind_eq_bind, Option.some_bind] at h
  cases hs : m1.table_[obj_hash]? with
  | none => simp [hs] at h
  | some slot =>
    simp only [hs, Option.some_bind] at h
    cases slot with
    | none =>
      simp only at h
      cases hp : push_ptr .fake m1.inner_list_ (back .fake m1.inner_list_)
          ⟨m1.next_id, key, value⟩ with
      | none => simp [hp] at h
      | some l =>
        simp only [hp, Option.some_bind, Option.some.injEq, Prod.mk.injEq] at h
        rw [← h.2.2]
        refine ⟨rfl, rfl, by simp, ?_⟩
        intro b hb
        exact List.getElem?_set_ne (Ne.symm hb)
    | some prev =>
      simp only at h
      cases hp : push_ptr .fake m1.inner_list_ prev ⟨m1.next_id, key, value⟩ with
      | none => simp [hp] at h
      | some l =>
        simp only [hp, Option.some_bind] at h
        cases hn : LinkedList.next .fake l prev with
        | none => simp [hn] at h
        | some r =>
          simp only [hn, Option.some_bind, Option.some.injEq, Prod.mk.injEq] at h
          rw [← h.2.2]
          exact ⟨rfl, rfl, rfl, fun _ _ => rfl⟩

end FrameFacts

section FrameFacts2

variable {K V : Type} [DecidableEq K]

/-- Erasing the node `find` returned, with the slots the call leaves. -/
theorem erase_found_slots {m : UnorderedMap K V} {k : K} {i : Nat}
    (hts : 0 < m.table_size_) (hlen : m.table_size_ ≤ m.table_.length)
    (hnd : (m.inner_list_.map Node.id).Nodup) (hf : find m k = some (.node i)) :
    ∃ (A B : List (Node K V)) (n : Node K V) (a first : BaseNodePtr),
      m.inner_list_ = A ++ n :: B ∧ n.id = i ∧ n.key = k ∧
      erase m (.node i) = some { m with inner_list_ := A ++ B,
                                         table_ := slotsAfterErase m n a first B } ∧
      ((slotsAfterErase m n a first B)[m.bucket k]? = some none ∨
        ∃ a1 start1, (slotsAfterErase m n a first B)[m.bucket k]? = some (some a1) ∧
          after .fake (A ++ B) a1 = some start1) := by
  obtain ⟨_, h | ⟨a, start, hslot, ha, hit⟩⟩ := find_eq_some hf
  · exact absurd h.2 (by simp)
  · obtain ⟨n, hn, hid, hk, _⟩ := findLoop_node hit.symm
    obtain ⟨A, B, hl, _, _⟩ := split_of_mem (after_subset ha n hn) hnd
    have hslot' : m.table_[m.bucket n.key]? = some (some a) := by rw [hk]; exact hslot
    have he := erase_split m A B n a start hts hlen hl hnd hslot' ha
    rw [hid] at he
    refine ⟨A, B, n, a, headPtr .fake start, hl, hid, hk, he, ?_⟩
    rcases slotsAfterErase_own m n a (headPtr .fake start) B hts hlen hslot' with h | h
    · left; rw [← hk]; exact h
    · right
      rw [hl] at hnd ha
      obtain ⟨start1, hs1⟩ := anchor_live_after_unlink hnd ha hn
      exact ⟨a, start1, by rw [← hk]; exact h, hs1⟩

end FrameFacts2

/-! ## Facts about the model of `double` -/

section DoubleFacts

theorem to_double_eq (x : Frac) (hn : x.num ≠ 0) (hd : x.den ≠ 0) :
    to_double x = ⟨dbl_mant x * 2 ^ dbl_dn x, 2 ^ dbl_up x⟩ := by
  unfold to_double
  rw [if_neg (by simp [hn, hd])]
  rfl

theorem bitsAux_spec : ∀ (fuel n : Nat), n ≤ fuel → 0 < n →
    0 < bitsAux fuel n ∧ 2 ^ (bitsAux fuel n - 1) ≤ n ∧ n < 2 ^ bitsAux fuel n := by
  intro fuel
  induction fuel with
  | zero => intro n h1 h2; omega
  | succ f ih =>
    intro n h1 h2
    have hne : n ≠ 0 := by omega
    simp only [bitsAux, if_neg hne]
    by_cases h0 : n / 2 = 0
    · have hn1 : n = 1 := by omega
      subst hn1
      cases f with
      | zero => simp [bitsAux]
      | succ g => simp [bitsAux]
    · obtain ⟨hb, hl, hu⟩ := ih (n / 2) (by omega) (by omega)
      refine ⟨by omega, ?_, ?_⟩
      · have e : bitsAux f (n / 2) + 1 - 1 = (bitsAux f (n / 2) - 1) + 1 := by omega
        rw [e, pow_succ]
        omega
      · rw [pow_succ]
        omega

theorem bits_spec {n : Nat} (h : 0 < n) :
    0 < bits n ∧ 2 ^ (bits n - 1) ≤ n ∧ n < 2 ^ bits n :=
  bitsAux_spec n n le_rfl h

end DoubleFacts

section DoubleFacts2

/-- Before the last adjustment the scaled value lies between `2 ^ 52` and
`2 ^ 54`. -/
theorem dbl_prenorm (p q : Nat) (hp : 0 < p) (hq : 0 < q) :
    2 ^ 52 * (q * 2 ^ (bits p - (53 + bits q))) < p * 2 ^ (53 + bits q - bits p) ∧
    p * 2 ^ (53 + bits q - bits p) < 2 ^ 54 * (q * 2 ^ (bits p - (53 + bits q))) := by
  obtain ⟨hbp, hp1, hp2⟩ := bits_spec hp
  obtain ⟨hbq, hq1, hq2⟩ := bits_spec hq
  have eA : 2 ^ bits p = 2 * 2 ^ (bits p - 1) := by
    rw [← pow_succ']; congr 1; omega
  have eB : 2 ^ bits q = 2 * 2 ^ (bits q - 1) := by
    rw [← pow_succ']; congr 1; omega
  generalize hA : 2 ^ (bits p - 1) = A at *
  generalize hB : 2 ^ (bits q - 1) = B at *
  by_cases hc : bits p ≤ 53 + bits q
  · have e0 : bits p - (53 + bits q) = 0 := by omega
    rw [e0, pow_zero, mul_one]
    have hU : 2 ^ (53 + bits q - bits p) * 2 ^ bits p = 2 ^ 53 * 2 ^ bits q := by
      rw [← pow_add, ← pow_add]; congr 1; omega
    generalize 2 ^ (53 + bits q - bits p) = U at *
    rw [eA, eB] at hU
    have hUA : U * A = 2 ^ 53 * B := by
      have : 2 * (U * A) = 2 * (2 ^ 53 * B) := by nlinarith
      omega
    have h1 : A * U ≤ p * U := Nat.mul_le_mul_right U hp1
    have hUpos : 0 < U := by
      rcases Nat.eq_zero_or_pos U with h | h
      · rw [h] at hUA; simp at hUA; omega
      · exact h
    have h2 : p * U < 2 * A * U := by
      have : p < 2 * A := by omega
      exact Nat.mul_lt_mul_of_pos_right this hUpos
    constructor
    · linarith
    · linarith
  · have e0 : 53 + bits q - bits p = 0 := by omega
    rw [e0, pow_zero, mul_one]
    have hD : 2 ^ (bits p - (53 + bits q)) * (2 ^ 53 * 2 ^ bits q) = 2 ^ bits p := by
      rw [← pow_add, ← pow_add]; congr 1; omega
    generalize 2 ^ (bits p - (53 + bits q)) = D at *
    rw [eA, eB] at hD
    have hDB : D * (2 ^ 53 * B) = A := by
      have : 2 * (D * (2 ^ 53 * B)) = 2 * A := by nlinarith
      omega
    have hDpos : 0 < D := by
      rcases Nat.eq_zero_or_pos D with h | h
      · rw [h] at hDB; simp at hDB; omega
      · exact h
    have h1 : q * D < 2 * B * D := by
      have : q < 2 * B := by omega
      exact Nat.mul_lt_mul_of_pos_right this hDpos
    have h2 : B * D ≤ q * D := Nat.mul_le_mul_right D hq1
    constructor
    · linarith
    · linarith

/-- The value `to_double` rounds lies in `[2 ^ 52, 2 ^ 53)`. -/
theorem dbl_norm (x : Frac) (hn : 0 < x.num) (hd : 0 < x.den) :
    2 ^ 52 * (x.den * 2 ^ dbl_dn x) ≤ x.num * 2 ^ dbl_up x ∧
    x.num * 2 ^ dbl_up x < 2 ^ 53 * (x.den * 2 ^ dbl_dn x) := by
  obtain ⟨h1, h2⟩ := dbl_prenorm x.num x.den hn hd
  unfold dbl_dn dbl_up
  by_cases hc : 2 ^ 53 * (x.den * 2 ^ (bits x.num - (53 + bits x.den)))
      ≤ x.num * 2 ^ (53 + bits x.den - bits x.num)
  · rw [if_pos hc]
    have e : (2 : Nat) ^ (bits x.num - (53 + bits x.den) + 1)
        = 2 ^ (bits x.num - (53 + bits x.den)) * 2 := pow_succ _ _
    rw [e]
    generalize 2 ^ (bits x.num - (53 + bits x.den)) = D at *
    generalize x.num * 2 ^ (53 + bits x.den - bits x.num) = P at *
    constructor
    · linarith
    · linarith
  · rw [if_neg hc]
    constructor
    · omega
    · omega

end DoubleFacts2

section DoubleFacts3

/-- The rounded integer is the quotient, or the quotient plus one when the
division leaves a remainder. -/
theorem dbl_mant_cases (x : Frac) :
    dbl_mant x = x.num * 2 ^ dbl_up x / (x.den * 2 ^ dbl_dn x) ∨
    (dbl_mant x = x.num * 2 ^ dbl_up x / (x.den * 2 ^ dbl_dn x) + 1 ∧
      0 < x.num * 2 ^ dbl_up x % (x.den * 2 ^ dbl_dn x)) := by
  unfold dbl_mant
  generalize x.num * 2 ^ dbl_up x = P
  generalize x.den * 2 ^ dbl_dn x = Q
  by_cases h1 : 2 * (P % Q) < Q
  · rw [if_pos h1]; exact Or.inl rfl
  · rw [if_neg h1]
    by_cases h2 : Q < 2 * (P % Q)
    · rw [if_pos h2]; exact Or.inr ⟨rfl, by omega⟩
    · rw [if_neg h2]
      by_cases h3 : P / Q % 2 = 0
      · rw [if_pos h3]; exact Or.inl rfl
      · rw [if_neg h3]
        refine Or.inr ⟨rfl, ?_⟩
        rcases Nat.eq_zero_or_pos (P % Q) with h | h
        · have hQ : Q = 0 := by omega
          subst hQ
          simp at h3
        · exact h

/-- An integer below the scaled value is below the rounded integer. -/
theorem dbl_mant_lower (x : Frac) (hd : 0 < x.den) (A : Nat)
    (h : A * (x.den * 2 ^ dbl_dn x) ≤ x.num * 2 ^ dbl_up x) : A ≤ dbl_mant x := by
  have hQ : 0 < x.den * 2 ^ dbl_dn x := Nat.mul_pos hd (by positivity)
  have h1 : A ≤ x.num * 2 ^ dbl_up x / (x.den * 2 ^ dbl_dn x) :=
    (Nat.le_div_iff_mul_le hQ).mpr h
  rcases dbl_mant_cases x with h2 | ⟨h2, _⟩ <;> omega

/-- An integer above the scaled value is above the rounded integer. -/
theorem dbl_mant_upper (x : Frac) (hd : 0 < x.den) (A : Nat)
    (h : x.num * 2 ^ dbl_up x ≤ A * (x.den * 2 ^ dbl_dn x)) : dbl_mant x ≤ A := by
  have hQ : 0 < x.den * 2 ^ dbl_dn x := Nat.mul_pos hd (by positivity)
  generalize hP : x.num * 2 ^ dbl_up x = P at *
  generalize hQ' : x.den * 2 ^ dbl_dn x = Q at *
  have hdm := Nat.div_add_mod P Q
  have hml := Nat.mod_lt P hQ
  rcases dbl_mant_cases x with h2 | ⟨h2, h3⟩
  · rw [h2, hP, hQ']
    have : P / Q * Q ≤ A * Q := by
      have : Q * (P / Q) ≤ P := by omega
      nlinarith
    exact Nat.le_of_mul_le_mul_right this hQ
  · rw [h2, hP, hQ']
    rw [hP, hQ'] at h3
    have : P / Q * Q < A * Q := by
      have : Q * (P / Q) < P := by omega
      nlinarith
    have := Nat.lt_of_mul_lt_mul_right this
    omega

/-- The rounded integer lies in `[2 ^ 52, 2 ^ 53]`. -/
theorem dbl_mant_range (x : Frac) (hn : 0 < x.num) (hd : 0 < x.den) :
    2 ^ 52 ≤ dbl_mant x ∧ dbl_mant x ≤ 2 ^ 53 := by
  obtain ⟨h1, h2⟩ := dbl_norm x hn hd
  exact ⟨dbl_mant_lower x hd _ h1, dbl_mant_upper x hd _ (le_of_lt h2)⟩

/-- A number `a * 2 ^ u / 2 ^ v` with `a ≤ 2 ^ 53` that is at most `x` is at
most the double nearest to `x` (fractions compared by cross-multiplication). -/
theorem to_double_lower_nat (x : Frac) (hn : 0 < x.num) (hd : 0 < x.den) (a u v : Nat)
    (ha : a ≤ 2 ^ 53) (h : a * 2 ^ u * x.den ≤ x.num * 2 ^ v) :
    a * 2 ^ u * 2 ^ dbl_up x ≤ dbl_mant x * 2 ^ dbl_dn x * 2 ^ v := by
  obtain ⟨hm1, _⟩ := dbl_mant_range x hn hd
  have hk : a * 2 ^ (u + dbl_up x) * (x.den * 2 ^ dbl_dn x)
      ≤ x.num * 2 ^ dbl_up x * 2 ^ (v + dbl_dn x) := by
    have := Nat.mul_le_mul_right (2 ^ dbl_up x * 2 ^ dbl_dn x) h
    rw [pow_add, pow_add]
    calc a * (2 ^ u * 2 ^ dbl_up x) * (x.den * 2 ^ dbl_dn x)
        = a * 2 ^ u * x.den * (2 ^ dbl_up x * 2 ^ dbl_dn x) := by ring
      _ ≤ x.num * 2 ^ v * (2 ^ dbl_up x * 2 ^ dbl_dn x) := this
      _ = x.num * 2 ^ dbl_up x * (2 ^ v * 2 ^ dbl_dn x) := by ring
  have goal' : a * 2 ^ (u + dbl_up x) ≤ dbl_mant x * 2 ^ (v + dbl_dn x) := by
    by_cases hc : v + dbl_dn x ≤ u + dbl_up x
    · obtain ⟨e, he⟩ := Nat.exists_eq_add_of_le hc
      rw [he] at hk ⊢
      rw [pow_add 2 (v + dbl_dn x) e] at hk ⊢
      have h3 : a * 2 ^ e * (x.den * 2 ^ dbl_dn x) ≤ x.num * 2 ^ dbl_up x := by
        have h4 : a * 2 ^ e * (x.den * 2 ^ dbl_dn x) * 2 ^ (v + dbl_dn x)
            ≤ x.num * 2 ^ dbl_up x * 2 ^ (v + dbl_dn x) := by
          calc a * 2 ^ e * (x.den * 2 ^ dbl_dn x) * 2 ^ (v + dbl_dn x)
              = a * (2 ^ (v + dbl_dn x) * 2 ^ e) * (x.den * 2 ^ dbl_dn x) := by ring
            _ ≤ _ := hk
        exact Nat.le_of_mul_le_mul_right h4 (by positivity)
      have h5 := dbl_mant_lower x hd _ h3
      calc a * (2 ^ (v + dbl_dn x) * 2 ^ e) = a * 2 ^ e * 2 ^ (v + dbl_dn x) := by ring
        _ ≤ dbl_mant x * 2 ^ (v + dbl_dn x) := Nat.mul_le_mul_right _ h5
    · have hlt : u + dbl_up x + 1 ≤ v + dbl_dn x := by omega
      have h6 : (2 : Nat) ^ (u + dbl_up x + 1) ≤ 2 ^ (v + dbl_dn x) :=
        Nat.pow_le_pow_right (by decide) hlt
      rw [pow_succ] at h6
      calc a * 2 ^ (u + dbl_up x) ≤ 2 ^ 53 * 2 ^ (u + dbl_up x) := Nat.mul_le_mul_right _ ha
        _ = 2 ^ 52 * (2 ^ (u + dbl_up x) * 2) := by ring
        _ ≤ 2 ^ 52 * 2 ^ (v + dbl_dn x) := Nat.mul_le_mul_left _ h6
        _ ≤ dbl_mant x * 2 ^ (v + dbl_dn x) := Nat.mul_le_mul_right _ hm1
  calc a * 2 ^ u * 2 ^ dbl_up x = a * 2 ^ (u + dbl_up x) := by rw [pow_add]; ring
    _ ≤ dbl_mant x * 2 ^ (v + dbl_dn x) := goal'
    _ = dbl_mant x * 2 ^ dbl_dn x * 2 ^ v := by rw [pow_add]; ring

/-- A number `a * 2 ^ u / 2 ^ v` with `a ≤ 2 ^ 53` that is at least `x` is at
least the double nearest to `x`. -/
theorem to_double_upper_nat (x : Frac) (hn : 0 < x.num) (hd : 0 < x.den) (a u v : Nat)
    (ha : a ≤ 2 ^ 53) (h : x.num * 2 ^ v ≤ a * 2 ^ u * x.den) :
    dbl_mant x * 2 ^ dbl_dn x * 2 ^ v ≤ a * 2 ^ u * 2 ^ dbl_up x := by
  obtain ⟨hN1, hN2⟩ := dbl_norm x hn hd
  have hQ : 0 < x.den * 2 ^ dbl_dn x := Nat.mul_pos hd (by positivity)
  have hk : x.num * 2 ^ dbl_up x * 2 ^ (v + dbl_dn x)
      ≤ a * 2 ^ (u + dbl_up x) * (x.den * 2 ^ dbl_dn x) := by
    have := Nat.mul_le_mul_right (2 ^ dbl_up x * 2 ^ dbl_dn x) h
    rw [pow_add, pow_add]
    calc x.num * 2 ^ dbl_up x * (2 ^ v * 2 ^ dbl_dn x)
        = x.num * 2 ^ v * (2 ^ dbl_up x * 2 ^ dbl_dn x) := by ring
      _ ≤ a * 2 ^ u * x.den * (2 ^ dbl_up x * 2 ^ dbl_dn x) := this
      _ = a * (2 ^ u * 2 ^ dbl_up x) * (x.den * 2 ^ dbl_dn x) := by ring
  have goal' : dbl_mant x * 2 ^ (v + dbl_dn x) ≤ a * 2 ^ (u + dbl_up x) := by
    by_cases hc : v + dbl_dn x ≤ u + dbl_up x
    · obtain ⟨e, he⟩ := Nat.exists_eq_add_of_le hc
      rw [he] at hk ⊢
      rw [pow_add 2 (v + dbl_dn x) e] at hk ⊢
      have h3 : x.num * 2 ^ dbl_up x ≤ a * 2 ^ e * (x.den * 2 ^ dbl_dn x) := by
        have h4 : x.num * 2 ^ dbl_up x * 2 ^ (v + dbl_dn x)
            ≤ a * 2 ^ e * (x.den * 2 ^ dbl_dn x) * 2 ^ (v + dbl_dn x) := by
          calc x.num * 2 ^ dbl_up x * 2 ^ (v + dbl_dn x)
              ≤ a * (2 ^ (v + dbl_dn x) * 2 ^ e) * (x.den * 2 ^ dbl_dn x) := hk
            _ = _ := by ring
        exact Nat.le_of_mul_le_mul_right h4 (by positivity)
      have h5 := dbl_mant_upper x hd _ h3
      calc dbl_mant x * 2 ^ (v + dbl_dn x) ≤ a * 2 ^ e * 2 ^ (v + dbl_dn x) :=
            Nat.mul_le_mul_right _ h5
        _ = a * (2 ^ (v + dbl_dn x) * 2 ^ e) := by ring
    · have hlt : u + dbl_up x + 1 ≤ v + dbl_dn x := by omega
      have h6 : (2 : Nat) ^ (u + dbl_up x + 1) ≤ 2 ^ (v + dbl_dn x) :=
        Nat.pow_le_pow_right (by decide) hlt
      rw [pow_succ] at h6
      -- the scaled value is exactly `2 ^ 52`
      have h7 : x.num * 2 ^ dbl_up x * 2 ^ (v + dbl_dn x)
          ≤ 2 ^ 52 * (x.den * 2 ^ dbl_dn x) * 2 ^ (v + dbl_dn x) := by
        calc x.num * 2 ^ dbl_up x * 2 ^ (v + dbl_dn x)
            ≤ a * 2 ^ (u + dbl_up x) * (x.den * 2 ^ dbl_dn x) := hk
          _ ≤ 2 ^ 53 * 2 ^ (u + dbl_up x) * (x.den * 2 ^ dbl_dn x) :=
            Nat.mul_le_mul_right _ (Nat.mul_le_mul_right _ ha)
          _ = 2 ^ 52 * (2 ^ (u + dbl_up x) * 2) * (x.den * 2 ^ dbl_dn x) := by ring
          _ ≤ 2 ^ 52 * 2 ^ (v + dbl_dn x) * (x.den * 2 ^ dbl_dn x) :=
            Nat.mul_le_mul_right _ (Nat.mul_le_mul_left _ h6)
          _ = _ := by ring
      have h8 : x.num * 2 ^ dbl_up x ≤ 2 ^ 52 * (x.den * 2 ^ dbl_dn x) :=
        Nat.le_of_mul_le_mul_right h7 (by positivity)
      have h9 := dbl_mant_upper x hd _ h8
      have h10 : 2 ^ 52 * (x.den * 2 ^ dbl_dn x) * 2 ^ (v + dbl_dn x)
          ≤ a * 2 ^ (u + dbl_up x) * (x.den * 2 ^ dbl_dn x) := by
        calc 2 ^ 52 * (x.den * 2 ^ dbl_dn x) * 2 ^ (v + dbl_dn x)
            ≤ x.num * 2 ^ dbl_up x * 2 ^ (v + dbl_dn x) := Nat.mul_le_mul_right _ hN1
          _ ≤ _ := hk
      have h11 : 2 ^ 52 * 2 ^ (v + dbl_dn x) ≤ a * 2 ^ (u + dbl_up x) := by
        have : 2 ^ 52 * 2 ^ (v + dbl_dn x) * (x.den * 2 ^ dbl_dn x)
            ≤ a * 2 ^ (u + dbl_up x) * (x.den * 2 ^ dbl_dn x) := by
          calc 2 ^ 52 * 2 ^ (v + dbl_dn x) * (x.den * 2 ^ dbl_dn x)
              = 2 ^ 52 * (x.den * 2 ^ dbl_dn x) * 2 ^ (v + dbl_dn x) := by ring
            _ ≤ _ := h10
        exact Nat.le_of_mul_le_mul_right this hQ
      calc dbl_mant x * 2 ^ (v + dbl_dn x) ≤ 2 ^ 52 * 2 ^ (v + dbl_dn x) :=
            Nat.mul_le_mul_right _ h9
        _ ≤ _ := h11
  calc dbl_mant x * 2 ^ dbl_dn x * 2 ^ v = dbl_mant x * 2 ^ (v + dbl_dn x) := by
        rw [pow_add]; ring
    _ ≤ a * 2 ^ (u + dbl_up x) := goal'
    _ = a * 2 ^ u * 2 ^ dbl_up x := by rw [pow_add]; ring

end DoubleFacts3

section DoubleFacts4

theorem to_double_pos (x : Frac) (hn : 0 < x.num) (hd : 0 < x.den) :
    0 < (to_double x).num ∧ 0 < (to_double x).den := by
  rw [to_double_eq x (Nat.pos_iff_ne_zero.mp hn) (Nat.pos_iff_ne_zero.mp hd)]
  obtain ⟨h1, _⟩ := dbl_mant_range x hn hd
  refine ⟨Nat.mul_pos (lt_of_lt_of_le (by positivity) h1) (by positivity), by positivity⟩

theorem val_to_double (x : Frac) (hn : 0 < x.num) (hd : 0 < x.den) :
    (to_double x).val = (dbl_mant x : ℚ) * 2 ^ dbl_dn x / 2 ^ dbl_up x := by
  rw [to_double_eq x (Nat.pos_iff_ne_zero.mp hn) (Nat.pos_iff_ne_zero.mp hd)]
  simp [Frac.val]

theorem val_pos (x : Frac) (hn : 0 < x.num) (hd : 0 < x.den) : 0 < x.val := by
  unfold Frac.val
  have h1 : (0 : ℚ) < x.num := by exact_mod_cast hn
  have h2 : (0 : ℚ) < x.den := by exact_mod_cast hd
  positivity

/-- The double nearest to a positive number has the form `a * 2 ^ u / 2 ^ v`
with `2 ^ 52 ≤ a ≤ 2 ^ 53`. -/
theorem to_double_form (x : Frac) (hn : 0 < x.num) (hd : 0 < x.den) :
    ∃ a u v : Nat, 2 ^ 52 ≤ a ∧ a ≤ 2 ^ 53 ∧
      (to_double x).val = (a : ℚ) * 2 ^ u / 2 ^ v :=
  ⟨dbl_mant x, dbl_dn x, dbl_up x, (dbl_mant_range x hn hd).1, (dbl_mant_range x hn hd).2,
    val_to_double x hn hd⟩

/-- Rounding does not cross a double below: `d ≤ x` gives `d ≤ to_double x`. -/
theorem to_double_ge (x : Frac) (hn : 0 < x.num) (hd : 0 < x.den) (a u v : Nat)
    (ha : a ≤ 2 ^ 53) (h : (a : ℚ) * 2 ^ u / 2 ^ v ≤ x.val) :
    (a : ℚ) * 2 ^ u / 2 ^ v ≤ (to_double x).val := by
  have hdq : (0 : ℚ) < x.den := by exact_mod_cast hd
  have hnat : a * 2 ^ u * x.den ≤ x.num * 2 ^ v := by
    unfold Frac.val at h
    rw [div_le_div_iff₀ (by positivity) hdq] at h
    exact_mod_cast h
  have h2 := to_double_lower_nat x hn hd a u v ha hnat
  rw [val_to_double x hn hd, div_le_div_iff₀ (by positivity) (by positivity)]
  exact_mod_cast h2

/-- Rounding does not cross a double above: `x ≤ d` gives `to_double x ≤ d`. -/
theorem to_double_le (x : Frac) (hn : 0 < x.num) (hd : 0 < x.den) (a u v : Nat)
    (ha : a ≤ 2 ^ 53) (h : x.val ≤ (a : ℚ) * 2 ^ u / 2 ^ v) :
    (to_double x).val ≤ (a : ℚ) * 2 ^ u / 2 ^ v := by
  have hdq : (0 : ℚ) < x.den := by exact_mod_cast hd
  have hnat : x.num * 2 ^ v ≤ a * 2 ^ u * x.den := by
    unfold Frac.val at h
    rw [div_le_div_iff₀ hdq (by positivity)] at h
    exact_mod_cast h
  have h2 := to_double_upper_nat x hn hd a u v ha hnat
  rw [val_to_double x hn hd, div_le_div_iff₀ (by positivity) (by positivity)]
  exact_mod_cast h2

theorem to_double_ge_nat (x : Frac) (hn : 0 < x.num) (hd : 0 < x.den) (k : Nat)
    (hk : k ≤ 2 ^ 53) (h : (k : ℚ) ≤ x.val) : (k : ℚ) ≤ (to_double x).val := by
  have := to_double_ge x hn hd k 0 0 hk (by simpa using h)
  simpa using this

theorem to_double_le_nat (x : Frac) (hn : 0 < x.num) (hd : 0 < x.den) (k : Nat)
    (hk : k ≤ 2 ^ 53) (h : x.val ≤ (k : ℚ)) : (to_double x).val ≤ (k : ℚ) := by
  have := to_double_le x hn hd k 0 0 hk (by simpa using h)
  simpa using this

/-- Integers up to `2 ^ 53` are doubles. -/
theorem to_double_nat (n : Nat) (hn : 0 < n) (h : n ≤ 2 ^ 53) :
    (to_double ⟨n, 1⟩).val = (n : ℚ) := by
  have hv : (⟨n, 1⟩ : Frac).val = (n : ℚ) := by simp [Frac.val]
  exact le_antisymm (to_double_le_nat ⟨n, 1⟩ hn Nat.one_pos n h (le_of_eq hv))
    (to_double_ge_nat ⟨n, 1⟩ hn Nat.one_pos n h (le_of_eq hv.symm))

/-- Even integers up to `2 ^ 54` are doubles. -/
theorem to_double_two_mul (n : Nat) (hn : 0 < n) (h : n ≤ 2 ^ 53) :
    (to_double ⟨2 * n, 1⟩).val = 2 * (n : ℚ) := by
  have hv : (⟨2 * n, 1⟩ : Frac).val = (n : ℚ) * 2 ^ 1 / 2 ^ 0 := by
    simp [Frac.val]; ring
  have e : 2 * (n : ℚ) = (n : ℚ) * 2 ^ 1 / 2 ^ 0 := by simp; ring
  rw [e]
  exact le_antisymm (to_double_le ⟨2 * n, 1⟩ (by simpa using hn) Nat.one_pos n 1 0 h (le_of_eq hv))
    (to_double_ge ⟨2 * n, 1⟩ (by simpa using hn) Nat.one_pos n 1 0 h (le_of_eq hv.symm))

/-- Rounding is monotone against a number that is already a double. -/
theorem to_double_mono_left (x y : Frac) (hxn : 0 < x.num) (hxd : 0 < x.den)
    (hyn : 0 < y.num) (hyd : 0 < y.den) (h : (to_double y).val ≤ x.val) :
    (to_double y).val ≤ (to_double x).val := by
  obtain ⟨a, u, v, _, ha, e⟩ := to_double_form y hyn hyd
  rw [e] at h ⊢
  exact to_double_ge x hxn hxd a u v ha h

theorem frac_ge_iff (a b : Frac) (ha : 0 < a.den) (hb : 0 < b.den) :
    Frac.ge a b = true ↔ b.val ≤ a.val := by
  have h1 : (0 : ℚ) < a.den := by exact_mod_cast ha
  have h2 : (0 : ℚ) < b.den := by exact_mod_cast hb
  unfold Frac.ge Frac.val
  rw [decide_eq_true_iff, div_le_div_iff₀ h2 h1]
  exact_mod_cast Iff.rfl

theorem val_div (a b : Frac) : (Frac.div a b).val = a.val / b.val := by
  unfold Frac.div Frac.val
  push_cast
  rw [div_div_div_eq]

theorem trunc_eq_floor (y : Frac) : Frac.trunc y = ⌊y.val⌋₊ := by
  unfold Frac.trunc Frac.val
  exact (Nat.floor_div_eq_div y.num y.den).symm

/-- A fraction in the range of the normal doubles is positive and its double
is not zero. -/
theorem normal_pos (x : Frac) (h : x.normal = true) :
    0 < x.num ∧ 0 < x.den ∧ x.underflows = false := by
  unfold Frac.normal at h
  rw [decide_eq_true_iff] at h
  obtain ⟨h1, h2, _⟩ := h
  have hn : 0 < x.num := by
    rcases Nat.eq_zero_or_pos x.num with h0 | h0
    · rw [h0] at h2; omega
    · exact h0
  refine ⟨hn, h1, ?_⟩
  unfold Frac.underflows
  rw [decide_eq_false_iff_not, not_le]
  have e : (2 : Nat) ^ 1075 = 2 ^ 1022 * 2 ^ 53 := by rw [← pow_add]
  rw [e]
  have h3 : 2 ^ 1022 * x.num < 2 ^ 1022 * x.num * 2 ^ 53 := by
    have : 0 < 2 ^ 1022 * x.num := Nat.mul_pos (by positivity) hn
    have h4 : (1 : Nat) < 2 ^ 53 := by decide
    calc 2 ^ 1022 * x.num = 2 ^ 1022 * x.num * 1 := by ring
      _ < 2 ^ 1022 * x.num * 2 ^ 53 := Nat.mul_lt_mul_of_pos_left h4 this
  calc x.den ≤ 2 ^ 1022 * x.num := h2
    _ < 2 ^ 1022 * x.num * 2 ^ 53 := h3
    _ = x.num * (2 ^ 1022 * 2 ^ 53) := by ring

end DoubleFacts4

section ReserveArith

/-- The quotient of two integers up to `2 ^ 53`, computed in doubles, is the
double nearest to the exact quotient. -/
theorem val_div_nat (n t : Nat) (hn : 0 < n) (hn2 : n ≤ 2 ^ 53) (ht : 0 < t) (ht2 : t ≤ 2 ^ 53) :
    (Frac.div (to_double ⟨n, 1⟩) (to_double ⟨t, 1⟩)).val = (n : ℚ) / (t : ℚ) ∧
    0 < (Frac.div (to_double ⟨n, 1⟩) (to_double ⟨t, 1⟩)).num ∧
    0 < (Frac.div (to_double ⟨n, 1⟩) (to_double ⟨t, 1⟩)).den := by
  obtain ⟨a1, a2⟩ := to_double_pos ⟨n, 1⟩ hn Nat.one_pos
  obtain ⟨b1, b2⟩ := to_double_pos ⟨t, 1⟩ ht Nat.one_pos
  refine ⟨?_, Nat.mul_pos a1 b2, Nat.mul_pos a2 b1⟩
  rw [val_div, to_double_nat n hn hn2, to_double_nat t ht ht2]

/-- When the test of `reserve` fails, the exact quotient lies below the stored
maximum load factor. -/
theorem reserve_test_false (n t : Nat) (M : Frac) (hM : 0 < M.num) (hMd : 0 < M.den)
    (hn2 : n ≤ 2 ^ 53) (ht : 0 < t) (ht2 : t ≤ 2 ^ 53)
    (h : Frac.ge (to_double (Frac.div (to_double ⟨n, 1⟩) (to_double ⟨t, 1⟩))) (to_double M)
      = false) :
    n * (to_double M).den < (to_double M).num * t := by
  obtain ⟨m1, m2⟩ := to_double_pos M hM hMd
  rcases Nat.eq_zero_or_pos n with h0 | hn
  · subst h0
    simpa using Nat.mul_pos m1 ht
  · obtain ⟨e, x1, x2⟩ := val_div_nat n t hn hn2 ht ht2
    by_contra hc
    have hc2 : (to_double M).num * t ≤ n * (to_double M).den := by omega
    have hv : (to_double M).val ≤ (n : ℚ) / (t : ℚ) := by
      unfold Frac.val
      rw [div_le_div_iff₀ (by exact_mod_cast m2) (by exact_mod_cast ht)]
      exact_mod_cast hc2
    rw [← e] at hv
    have := to_double_mono_left _ M x1 x2 hM hMd hv
    have h3 := (frac_ge_iff _ _ (to_double_pos _ x1 x2).2 m2).mpr this
    rw [h] at h3
    exact Bool.noConfusion h3

/-- When the test of `reserve` succeeds, the count is positive, the stored
maximum load factor is at most the count, and the exact quotient `2n / max` is
at least `2t - 1`. -/
theorem reserve_test_true (n t : Nat) (M : Frac) (hM : 0 < M.num) (hMd : 0 < M.den)
    (hn2 : n ≤ 2 ^ 53) (ht : 0 < t) (ht2 : t ≤ 2 ^ 51)
    (h : Frac.ge (to_double (Frac.div (to_double ⟨n, 1⟩) (to_double ⟨t, 1⟩))) (to_double M)
      = true) :
    0 < n ∧ (to_double M).num ≤ n * (to_double M).den ∧
    (2 * t - 1) * (to_double M).num ≤ 2 * n * (to_double M).den := by
  obtain ⟨m1, m2⟩ := to_double_pos M hM hMd
  have ht3 : t ≤ 2 ^ 53 := le_trans ht2 (by decide)
  have hn : 0 < n := by
    rcases Nat.eq_zero_or_pos n with h0 | hn
    · subst h0
      have : to_double (Frac.div (to_double ⟨0, 1⟩) (to_double ⟨t, 1⟩))
          = Frac.div (to_double ⟨0, 1⟩) (to_double ⟨t, 1⟩) := by
        simp [to_double, Frac.div]
      rw [this] at h
      simp [Frac.ge, to_double, Frac.div] at h
      have := Nat.mul_pos m1 (to_double_pos ⟨t, 1⟩ ht Nat.one_pos).1
      simp [to_double] at this
      omega
    · exact hn
  obtain ⟨e, x1, x2⟩ := val_div_nat n t hn hn2 ht ht3
  have hge := (frac_ge_iff _ _ (to_double_pos _ x1 x2).2 m2).mp h
  have hNq : (0 : ℚ) < (to_double M).num := by exact_mod_cast m1
  have hDq : (0 : ℚ) < (to_double M).den := by exact_mod_cast m2
  have htq : (1 : ℚ) ≤ (t : ℚ) := by exact_mod_cast ht
  have hnq : (0 : ℚ) < (n : ℚ) := by exact_mod_cast hn
  refine ⟨hn, ?_, ?_⟩
  · have h1 : (Frac.div (to_double ⟨n, 1⟩) (to_double ⟨t, 1⟩)).val ≤ (n : ℚ) := by
      rw [e]
      exact div_le_self (le_of_lt hnq) htq
    have h2 := to_double_le_nat _ x1 x2 n hn2 h1
    have h3 := le_trans hge h2
    unfold Frac.val at h3
    rw [div_le_iff₀ hDq] at h3
    exact_mod_cast h3
  · by_contra hc
    have hc2 : 2 * n * (to_double M).den < (2 * t - 1) * (to_double M).num := by omega
    obtain ⟨a, u, v, ha1, ha2, ea⟩ := to_double_form M hM hMd
    have hc3 : (2 * (n : ℚ)) * (to_double M).den < (2 * (t : ℚ) - 1) * (to_double M).num := by
      have : ((2 * n * (to_double M).den : Nat) : ℚ) < ((2 * t - 1) * (to_double M).num : Nat) := by
        exact_mod_cast hc2
      rw [Nat.cast_mul, Nat.cast_mul, Nat.cast_mul, Nat.cast_sub (by omega)] at this
      simpa using this
    -- the double just below the stored value
    have hlow : (n : ℚ) / (t : ℚ) ≤ ((a - 1 : Nat) : ℚ) * 2 ^ u / 2 ^ v := by
      have hMv : (to_double M).val = (a : ℚ) * 2 ^ u / 2 ^ v := ea
      have hval : (n : ℚ) / t < (1 - 1 / (2 * t)) * (to_double M).val := by
        unfold Frac.val
        rw [div_lt_iff₀ (by linarith)]
        have : (1 - 1 / (2 * (t : ℚ))) * ((to_double M).num / (to_double M).den) * t
            = (2 * t - 1) * (to_double M).num / (2 * (to_double M).den) := by
          field_simp
          ring
        rw [this, lt_div_iff₀ (by linarith)]
        linarith
      have haq : (2 : ℚ) * t ≤ a := by
        have : 2 * t ≤ a := le_trans (by omega) ha1
        exact_mod_cast this
      have hapos : (0 : ℚ) < a := by linarith
      have h5 : (1 - 1 / (2 * (t : ℚ))) ≤ 1 - 1 / (a : ℚ) := by
        have : 1 / (a : ℚ) ≤ 1 / (2 * (t : ℚ)) :=
          one_div_le_one_div_of_le (by linarith) haq
        linarith
      have h6 : (1 - 1 / (a : ℚ)) * (to_double M).val = ((a - 1 : Nat) : ℚ) * 2 ^ u / 2 ^ v := by
        rw [hMv, Nat.cast_sub (le_trans (by decide) ha1)]
        field_simp
        ring
      have hMpos : 0 < (to_double M).val := val_pos _ m1 m2
      calc (n : ℚ) / t ≤ (1 - 1 / (2 * t)) * (to_double M).val := le_of_lt hval
        _ ≤ (1 - 1 / (a : ℚ)) * (to_double M).val :=
          mul_le_mul_of_nonneg_right h5 (le_of_lt hMpos)
        _ = _ := h6
    rw [← e] at hlow
    have h7 := to_double_le _ x1 x2 (a - 1) u v (by omega) hlow
    have h8 : ((a - 1 : Nat) : ℚ) * 2 ^ u / 2 ^ v < (to_double M).val := by
      rw [ea, div_lt_div_iff_of_pos_right (by positivity)]
      have : ((a - 1 : Nat) : ℚ) < (a : ℚ) := by
        have : a - 1 < a := by
          have := le_trans (by decide : 1 ≤ 2 ^ 52) ha1
          omega
        exact_mod_cast this
      exact mul_lt_mul_of_pos_right this (by positivity)
    linarith

/-- The new table size computed by `reserve` is the floor of the exact quotient
`2n / max`, or that floor plus one, when the floor is below `2 ^ 53`. -/
theorem reserve_size_near (n : Nat) (M : Frac) (hM : 0 < M.num) (hMd : 0 < M.den)
    (hn : 0 < n) (hn2 : n ≤ 2 ^ 53)
    (hF : 2 * n * (to_double M).den / (to_double M).num < 2 ^ 53) :
    2 * n * (to_double M).den / (to_double M).num
      ≤ Frac.trunc (to_double (Frac.div (to_double ⟨2 * n % 2 ^ 64, 1⟩) (to_double M))) ∧
    Frac.trunc (to_double (Frac.div (to_double ⟨2 * n % 2 ^ 64, 1⟩) (to_double M)))
      ≤ 2 * n * (to_double M).den / (to_double M).num + 1 := by
  obtain ⟨m1, m2⟩ := to_double_pos M hM hMd
  have hmod : 2 * n % 2 ^ 64 = 2 * n := Nat.mod_eq_of_lt (by omega)
  rw [hmod]
  obtain ⟨a1, a2⟩ := to_double_pos ⟨2 * n, 1⟩ (by simpa using hn) Nat.one_pos
  have y1 : 0 < (Frac.div (to_double ⟨2 * n, 1⟩) (to_double M)).num := Nat.mul_pos a1 m2
  have y2 : 0 < (Frac.div (to_double ⟨2 * n, 1⟩) (to_double M)).den := Nat.mul_pos a2 m1
  have hNq : (0 : ℚ) < (to_double M).num := by exact_mod_cast m1
  have hDq : (0 : ℚ) < (to_double M).den := by exact_mod_cast m2
  have ey : (Frac.div (to_double ⟨2 * n, 1⟩) (to_double M)).val
      = ((2 * n * (to_double M).den : Nat) : ℚ) / ((to_double M).num : Nat) := by
    rw [val_div, to_double_two_mul n hn hn2]
    unfold Frac.val
    push_cast
    field_simp
  have hfl : ⌊(Frac.div (to_double ⟨2 * n, 1⟩) (to_double M)).val⌋₊
      = 2 * n * (to_double M).den / (to_double M).num := by
    rw [ey]; exact Nat.floor_div_eq_div _ _
  generalize hFdef : 2 * n * (to_double M).den / (to_double M).num = F at *
  rw [trunc_eq_floor]
  constructor
  · apply Nat.le_floor
    apply to_double_ge_nat _ y1 y2 F (by omega)
    rw [← hfl]
    exact Nat.floor_le (le_of_lt (val_pos _ y1 y2))
  · have hlt : (Frac.div (to_double ⟨2 * n, 1⟩) (to_double M)).val ≤ ((F + 1 : Nat) : ℚ) := by
      have := Nat.lt_floor_add_one (Frac.div (to_double ⟨2 * n, 1⟩) (to_double M)).val
      rw [hfl] at this
      push_cast
      exact le_of_lt this
    have := to_double_le_nat _ y1 y2 (F + 1) (by omega) hlt
    exact Nat.floor_le_of_le this

end ReserveArith

/-! ## Bounds of the bucket array -/

section BoundFacts

variable {K V : Type}

/-- A call of `erase` that returns keeps the bucket count, the length of the
bucket array, both load factor members and the environment. -/
theorem erase_fields {m m1 : UnorderedMap K V} {it : BaseNodePtr}
    (h : erase m it = some m1) :
    m1.table_size_ = m.table_size_ ∧ m1.table_.length = m.table_.length ∧
    m1.max_load_factor_ = m.max_load_factor_ ∧ m1.load_factor_ = m.load_factor_ ∧
    m1.vec_limit = m.vec_limit := by
  unfold erase at h
  simp only [Option.bind_eq_bind, Option.bind_eq_some] at h
  obtain ⟨nd, _, next, _, hs, _, prev, _, anchor, _, first, _, l, _, h8⟩ := h
  have hT : (if it = first then m.table_.set hs none else m.table_).length = m.table_.length := by
    split <;> simp
  cases next with
  | fake =>
    simp only [Option.some.injEq] at h8
    rw [← h8]
    exact ⟨rfl, hT, rfl, rfl, rfl⟩
  | tempFake =>
    simp only [Option.some.injEq] at h8
    rw [← h8]
    exact ⟨rfl, hT, rfl, rfl, rfl⟩
  | node j =>
    simp only [Option.bind_eq_some] at h8
    obtain ⟨nn, _, hs2, _, h9⟩ := h8
    by_cases hlt : hs2 < (if it = first then m.table_.set hs none else m.table_).length
    · rw [if_pos hlt] at h9
      simp only [Option.some.injEq] at h9
      rw [← h9]
      refine ⟨rfl, ?_, rfl, rfl, rfl⟩
      show (List.set _ hs2 prev).length = _
      rw [List.length_set]
      exact hT
    · rw [if_neg hlt] at h9
      exact absurd h9 (by simp)

/-- A call of `rehash` whose bucket array cannot be built does not return. -/
theorem rehash_eq_none {m : UnorderedMap K V} {sz : Nat}
    (h : vector_fits m (sz * 2 % 2 ^ 64) = false) : rehash m sz = none := by
  unfold rehash
  rw [h]
  simp

/-- A call of `rehash` that returns got its bucket array and keeps the
environment. -/
theorem rehash_some {m m1 : UnorderedMap K V} {sz : Nat} (h : rehash m sz = some m1) :
    vector_fits m (sz * 2 % 2 ^ 64) = true ∧ m1.vec_limit = m.vec_limit := by
  cases hfit : vector_fits m (sz * 2 % 2 ^ 64) with
  | false => rw [rehash_eq_none hfit] at h; exact absurd h (by simp)
  | true =>
    refine ⟨rfl, ?_⟩
    unfold rehash at h
    rw [if_pos hfit] at h
    simp only [Option.bind_eq_bind, Option.bind_eq_some] at h
    obtain ⟨r, _, h2⟩ := h
    cases hr : r.1 with
    | nil =>
      simp only [hr, Option.some.injEq] at h2
      rw [← h2]
    | cons n rest =>
      simp only [hr, Option.bind_eq_some] at h2
      obtain ⟨hs, _, h3⟩ := h2
      split at h3
      · simp only [Option.some.injEq] at h3
        rw [← h3]
      · exact absurd h3 (by simp)

/-- A call `rehash(n)` that returns, with `0 < n < 2 ^ 63`: the bucket count is
`n`, the bucket array has `2 * n` slots, at most `vector_max_size`. -/
theorem rehash_fields {m m1 : UnorderedMap K V} {n : Nat} (hn : 0 < n) (hn2 : n < 2 ^ 63)
    (h : rehash m n = some m1) :
    m1.table_size_ = n ∧ m1.table_.length = n * 2 ∧ n * 2 ≤ vector_max_size ∧
    m1.max_load_factor_ = m.max_load_factor_ ∧ m1.vec_limit = m.vec_limit := by
  obtain ⟨hfit, hv⟩ := rehash_some h
  rw [Nat.mod_eq_of_lt (by omega)] at hfit
  obtain ⟨m2, hr2, hts2, _, _, hmlf2, hlen2, _, _⟩ := rehash_wf m n hn hfit
  rw [hr2] at h
  cases h
  have := (vector_fits_iff m _).mp hfit
  exact ⟨hts2, hlen2, by unfold vector_max_size; omega, hmlf2, hv⟩

/-- A call of the placement part of `emplace` that returns, on a table with a
positive bucket count covered by a bucket array that is a `std::vector`,
leaves such a table. -/
theorem emplace_place_fields {m1 m4 : UnorderedMap K V} {found flag : Bool} {obj_hash : Nat}
    {key : K} {value : V} {it : BaseNodePtr} (hts : 0 < m1.table_size_)
    (hlen : m1.table_size_ ≤ m1.table_.length) (hmax : m1.table_.length ≤ vector_max_size)
    (h : emplace_place m1 found obj_hash key value = some (it, flag, m4)) :
    0 < m4.table_size_ ∧ m4.table_size_ ≤ m4.table_.length ∧
    m4.table_.length ≤ vector_max_size := by
  have h2 : ∀ m2, (if m1.load_factor_.ge m1.max_load_factor_
        then rehash m1 (m1.table_size_ * 2 % 2 ^ 64) else some m1) = some m2 →
      0 < m2.table_size_ ∧ m2.table_size_ ≤ m2.table_.length ∧
      m2.table_.length ≤ vector_max_size := by
    intro m2 hm2
    by_cases hc : m1.load_factor_.ge m1.max_load_factor_ = true
    · have hsm : m1.table_size_ < 2 ^ 60 := by unfold vector_max_size at hmax; omega
      rw [if_pos hc, Nat.mod_eq_of_lt (by omega)] at hm2
      obtain ⟨e1, e2, e3, _, _⟩ := rehash_fields (by omega) (by omega) hm2
      exact ⟨by omega, by omega, by omega⟩
    · rw [if_neg hc] at hm2
      cases hm2
      exact ⟨hts, hlen, hmax⟩
  unfold emplace_place at h
  simp only [Option.bind_eq_bind, Option.bind_eq_some] at h
  obtain ⟨m2, hm2, slot, hs, h3⟩ := h
  obtain ⟨hts2, hlen2, hmax2⟩ := h2 m2 hm2
  cases slot with
  | none =>
    simp only [Option.bind_eq_some, Option.some.injEq, Prod.mk.injEq] at h3
    obtain ⟨l, _, h4⟩ := h3
    rw [← h4.2.2]
    exact ⟨hts2, by simpa using hlen2, by simpa using hmax2⟩
  | some prev =>
    simp only [Option.bind_eq_some, Option.some.injEq, Prod.mk.injEq] at h3
    obtain ⟨l, _, r, _, h4⟩ := h3
    rw [← h4.2.2]
    exact ⟨hts2, hlen2, hmax2⟩

end BoundFacts

section BoundFacts2

variable {K V : Type} [DecidableEq K]

/-- A call of `emplace` that returns, on a table with a positive bucket count
covered by a bucket array that is a `std::vector`, leaves such a table. -/
theorem emplace_fields {m m4 : UnorderedMap K V} {key : K} {value : V} {it : BaseNodePtr}
    {flag : Bool} (hts : 0 < m.table_size_) (hlen : m.table_size_ ≤ m.table_.length)
    (hmax : m.table_.length ≤ vector_max_size)
    (h : emplace m key value = some (it, flag, m4)) :
    0 < m4.table_size_ ∧ m4.table_size_ ≤ m4.table_.length ∧
    m4.table_.length ≤ vector_max_size := by
  rw [emplace_eq] at h
  simp only [Option.bind_eq_some] at h
  obtain ⟨oh, _, it0, _, p, hp, h4⟩ := h
  by_cases hc : it0 ≠ end_ m
  · rw [if_pos hc] at hp
    simp only [Option.map_eq_some'] at hp
    obtain ⟨s, he, hps⟩ := hp
    obtain ⟨e1, e2, _, _, _⟩ := erase_fields he
    rw [← hps] at h4
    exact emplace_place_fields (by rw [e1]; exact hts) (by rw [e1, e2]; exact hlen)
      (by rw [e2]; exact hmax) h4
  · rw [if_neg hc] at hp
    simp only [Option.some.injEq] at hp
    rw [← hp] at h4
    exact emplace_place_fields hts hlen hmax h4

end BoundFacts2

section BoundFacts3

variable {K V : Type} [DecidableEq K] [Inhabited V]

/-- Every table reached by returning calls whose rehashes get a bucket count
that is positive and below `2 ^ 63` has a positive bucket count covered by the
bucket array, a `std::vector`. -/
theorem reachable_fields {hash : K → Nat} {m : UnorderedMap K V}
    (h : ReachableNoWrap hash m) :
    0 < m.table_size_ ∧ m.table_size_ ≤ m.table_.length ∧
    m.table_.length ≤ vector_max_size := by
  induction h with
  | default_ctor c =>
    exact ⟨by simp [default_ctor], by simp [default_ctor],
      by simp [default_ctor, vector_max_size]⟩
  | @insert m0 kv r _ hins ih =>
    obtain ⟨hts, hlen, hmax⟩ := ih
    obtain ⟨it, flag, m4⟩ := r
    exact emplace_fields hts hlen hmax hins
  | @erase m0 m1 it _ he ih =>
    obtain ⟨hts, hlen, hmax⟩ := ih
    obtain ⟨e1, e2, _, _, _⟩ := erase_fields he
    exact ⟨by rw [e1]; exact hts, by rw [e1, e2]; exact hlen, by rw [e2]; exact hmax⟩
  | @rehash m0 m1 n _ hn hn2 hr ih =>
    obtain ⟨e1, e2, e3, _, _⟩ := rehash_fields hn hn2 hr
    exact ⟨by omega, by omega, by omega⟩
  | @reserve m0 m1 n _ hg hres ih =>
    obtain ⟨hts, hlen, hmax⟩ := ih
    unfold reserve at hres
    by_cases hc : reserve_test m0 n = true
    · obtain ⟨hq1, hq2⟩ := hg hc
      rw [if_pos hc] at hres
      by_cases h0 : Frac.underflows m0.max_load_factor_ = true
      · rw [if_pos h0] at hres
        exact absurd hres (by simp)
      · rw [if_neg h0, if_pos (by omega)] at hres
        obtain ⟨e1, e2, e3, _, _⟩ := rehash_fields hq1 hq2 hres
        exact ⟨by omega, by omega, by omega⟩
    · rw [if_neg hc] at hres
      cases hres
      exact ⟨hts, hlen, hmax⟩
  | @operator_index m0 key r _ hop ih =>
    obtain ⟨hts, hlen, hmax⟩ := ih
    unfold operator_index at hop
    simp only [Option.bind_eq_bind, Option.bind_eq_some] at hop
    obtain ⟨it, _, h2⟩ := hop
    by_cases hc : it ≠ end_ m0
    · rw [if_pos hc] at h2
      simp only [Option.bind_eq_some, Option.some.injEq] at h2
      obtain ⟨nd, _, h3⟩ := h2
      rw [← h3]
      exact ⟨hts, hlen, hmax⟩
    · rw [if_neg hc] at h2
      simp only [Option.bind_eq_some, Option.some.injEq] at h2
      obtain ⟨pair, hins, nd, _, h3⟩ := h2
      rw [← h3]
      obtain ⟨it1, flag, m4⟩ := pair
      exact emplace_fields hts hlen hmax hins

/-- One `insert` that returns, on a table reached without a wrap-around, reaches
its final state without a wrap-around. -/
theorem reachable_of_insert {hash : K → Nat} (m : UnorderedMap K V) (kv : K × V)
    (d : UnorderedMap K V) (hm : ReachableNoWrap hash m)
    (hs : (insert m kv).isSome = true) :
    ReachableNoWrap hash ((insert m kv).elim d (fun r => r.2.2)) := by
  cases h : insert m kv with
  | none => rw [h] at hs; simp at hs
  | some r => exact ReachableNoWrap.insert kv r hm h

end BoundFacts3

section OptionFacts

/-- An optional value that is present is its own default-filled value. -/
theorem eq_some_getD {α : Type} {o : Option α} (d : α) (h : o.isSome = true) :
    o = some (o.getD d) := by
  cases o with
  | none => simp at h
  | some x => rfl

end OptionFacts

/-! ## Evaluations on the sample tables -/

section SampleFacts

/-- `sample105` is the state reached by `rehash(256)` and the 105 inserts:
bucket count and nodes. -/
theorem sample105_reached_nodes :
    ((rehash (default_ctor id) 256).bind (fun m =>
      insert_range m ((List.range 104).map (fun i => (i, i)) ++ [(200, 7)]))).map
        (fun m => (m.table_size_, m.inner_list_))
      = some (sample105.table_size_, sample105.inner_list_) := by
  decide!

/-- `sample105` is the state reached by `rehash(256)` and the 105 inserts:
slots. -/
theorem sample105_reached_slots :
    ((rehash (default_ctor id) 256).bind (fun m =>
      insert_range m ((List.range 104).map (fun i => (i, i)) ++ [(200, 7)]))).map
        (fun m => m.table_) = some sample105.table_ := by
  decide!

/-- `sample105` is the state reached by `rehash(256)` and the 105 inserts:
load factors and allocation counter. -/
theorem sample105_reached_fields :
    ((rehash (default_ctor id) 256).bind (fun m =>
      insert_range m ((List.range 104).map (fun i => (i, i)) ++ [(200, 7)]))).map
        (fun m => (m.load_factor_, m.max_load_factor_, m.next_id))
      = some (sample105.load_factor_, sample105.max_load_factor_, sample105.next_id) := by
  decide!

theorem sample105_shape : Shape sample105 := by decide!

theorem sample105_I1 : I1 sample105 := by decide!

theorem sample105_I2_I3 : I2_I3 sample105 := by decide!

theorem sample105_I4 : I4 sample105 := by decide!

theorem sample105_found :
    sample105.size = 105 ∧ find sample105 200 = some (.node 105) ∧
    (getNode sample105.inner_list_ (.node 105)).map (fun n => (n.key, n.value))
      = some (200, 7) := by
  decide!

theorem sample105_copy :
    (copy_ctor sample105).map (fun c => (c.size, c.table_size_, find c 200))
      = some (105, 256, some .fake) := by
  decide!

theorem sample104_shape : Shape sample104 := by decide!

theorem sample104_I1 : I1 sample104 := by decide!

theorem sample104_I2_I3 : I2_I3 sample104 := by decide!

theorem sample104_I4 : I4 sample104 := by decide!

theorem sample104_rehash :
    (rehash sample104 256).map (fun m => (m.table_size_, m.table_[200]?, m.keys.getLast?))
      = some (256, some none, some 103) := by
  decide!

theorem sample104_insert_keys :
    (insert sample104 (200, 7)).map
      (fun r => (r.2.2.table_size_, r.2.2.keys.getLast?, r.2.2.keys.indexOf 200))
      = some (256, some 103, 72) := by
  decide!

theorem sample104_insert_slots :
    (insert sample104 (200, 7)).map (fun r => (r.2.2.table_[200]?, r.2.2.table_[72]?))
      = some (some none, some (some (.node 176))) := by
  decide!

/-- The table `sample8` is reached by `rehash(8)` on the default-constructed
table. -/
theorem sample8_reachable : ReachableNoWrap id sample8 :=
  ReachableNoWrap.rehash 8 (ReachableNoWrap.default_ctor vector_max_size) (by decide)
    (by decide) (eq_some_getD _ (by decide!))

/-- The table `sample9` is reached by one `insert` on `sample8`. -/
theorem sample9_reachable : ReachableNoWrap id sample9 :=
  reachable_of_insert sample8 (1, 10) sample8 sample8_reachable (by decide!)

end SampleFacts

/-! ## The claims -/

section Claims

variable {K V : Type} [DecidableEq K]

/-- C1 (fails on the code): after 104 inserts into the default-constructed
table the 105th insert rehashes to 256 buckets but places the element with the
bucket index computed for 128 buckets; `insert({200, 7})` returns and the
following `find(200)` yields `end()`. -/
theorem insert_then_find_end_after_rehash :
    sample104.size = 104 ∧ sample104.table_size_ = 128 ∧
    (insert sample104 (200, 7)).map (fun r => (r.2.1, r.2.2.table_size_, r.2.2.size))
      = some (true, 256, 105) ∧
    (insert sample104 (200, 7)).bind (fun r => find r.2.2 200) = some .fake := by
  decide!

/-- C2 (fails on the code): the inserts of the keys 128, 0, 1, 128, 1 into the
default-constructed table (identity hash) leave two elements with key 1 in the
iteration sequence. -/
theorem duplicate_key_after_inserts :
    (insert_range (default_ctor id) [(128, 1280), (0, 0), (1, 10), (128, 1281), (1, 11)]).map
      (fun m : UnorderedMap Nat Nat => m.keys) = some [1, 128, 0, 1] ∧
    ¬ ([1, 128, 0, 1] : List Nat).Nodup := by
  decide!

/-- C3: take a table on which `find(k)` returns and whose nodes were allocated
before `next_id`; when `find(k)` returns an element, let the slot vector cover
the bucket count and the nodes sit in distinct heap cells; and let the bucket
array of a rehash be built when the load factor test fires.  Then
`insert((k, v))` returns; its flag is `true` exactly when `find(k)` returned
`end()`; `size()` grows by one when the flag is `true` and is unchanged when
it is `false`; the iterator returned designates a node with key `k` and value
`v`. -/
theorem insert_flag_size (m : UnorderedMap K V) (k : K) (v : V) (it0 : BaseNodePtr)
    (hf : find m k = some it0)
    (hfresh : ∀ n ∈ m.inner_list_, n.id < m.next_id)
    (hhit : it0 ≠ end_ m →
      m.table_size_ ≤ m.table_.length ∧ (m.inner_list_.map Node.id).Nodup)
    (hfit : m.load_factor_.ge m.max_load_factor_ = true →
      vector_fits m (m.table_size_ * 4) = true) :
    ∃ it flag m1, insert m (k, v) = some (it, flag, m1) ∧
      (flag = true ↔ find m k = some (end_ m)) ∧
      m1.size = (if flag = true then m.size + 1 else m.size) ∧
      ∃ nd, getNode m1.inner_list_ it = some nd ∧ nd.key = k ∧ nd.value = v := by
  obtain ⟨hts, hslot⟩ := find_eq_some hf
  have hins : insert m (k, v) = emplace m k v := rfl
  rw [hins, emplace_eq, modIdx_pos _ hts, hf]
  simp only [Option.some_bind]
  rcases find_result hf with h0 | ⟨n0, _, hit, _⟩
  · subst h0
    have hohl : m.bucket k < m.table_.length := by
      rcases hslot with ⟨h1, _⟩ | ⟨a, start, h1, _, _⟩
      · exact (List.getElem?_eq_some_iff.mp h1).1
      · exact (List.getElem?_eq_some_iff.mp h1).1
    obtain ⟨it, m4, hp, hsz, hnode⟩ := emplace_place_ok m true (m.bucket k) k v hts hfit
      (bucket_lt m k hts) hohl hfresh (by
        intro s hs
        rcases hslot with ⟨h1, _⟩ | ⟨a, start, h1, h2, _⟩
        · rw [h1] at hs
          rw [← Option.some.inj hs]
          trivial
        · rw [h1] at hs
          rw [← Option.some.inj hs]
          show Live _ _
          unfold Live
          rw [h2]; rfl)
    refine ⟨it, true, m4, ?_, by simp [end_], by simpa using hsz, hnode⟩
    simpa [end_] using hp
  · subst hit
    obtain ⟨hlen, hnd⟩ := hhit (by simp [end_])
    obtain ⟨A, B, n, T, hl, _, _, he, hTlen, hT⟩ := erase_found hts hlen hnd hf
    have hfresh1 : ∀ x ∈ A ++ B, x.id < m.next_id := by
      intro x hx
      apply hfresh x
      rw [hl]
      rcases List.mem_append.mp hx with h1 | h1
      · exact List.mem_append.mpr (Or.inl h1)
      · exact List.mem_append.mpr (Or.inr (List.mem_cons_of_mem _ h1))
    obtain ⟨it, m4, hp, hsz, hnode⟩ := emplace_place_ok
      ({ m with inner_list_ := A ++ B, table_ := T } : UnorderedMap K V) false (m.bucket k) k v
      hts hfit (bucket_lt m k hts)
      (by rw [hTlen]; exact lt_of_lt_of_le (bucket_lt m k hts) hlen) hfresh1 (by
        intro s hs
        rcases hT with h1 | ⟨a, start1, h1, h2⟩
        · have : s = none := by
            have h3 : T[m.bucket k]? = some s := hs
            rw [h1] at h3
            exact (Option.some.inj h3).symm
          subst this
          trivial
        · have : s = some a := by
            have h3 : T[m.bucket k]? = some s := hs
            rw [h1] at h3
            exact (Option.some.inj h3).symm
          subst this
          show Live _ _
          unfold Live
          rw [h2]; rfl)
    refine ⟨it, false, m4, ?_, by simp [hf, end_], ?_, hnode⟩
    · simp only [end_, ne_eq, reduceCtorEq, not_false_eq_true, if_true, he, Option.map_some',
        Option.some_bind]
      exact hp
    · simp only [Bool.false_eq_true, if_false]
      rw [hsz]
      show (A ++ B).length + 1 = m.inner_list_.length
      rw [hl]
      simp only [List.length_append, List.length_cons]
      omega

/-- Witness for C3, the scenario of the claim: on the table holding ("x", 1)
alone `find("x")` returns its node, `insert(("x", 2))` returns the flag `false`
and leaves `size() == 1`. -/
theorem insert_flag_size_witness :
    find sampleX "x" = some (.node 1) ∧ sampleX.size = 1 ∧
    (∀ n ∈ sampleX.inner_list_, n.id < sampleX.next_id) ∧
    (sampleX.table_size_ ≤ sampleX.table_.length ∧
      (sampleX.inner_list_.map Node.id).Nodup) ∧
    sampleX.load_factor_.ge sampleX.max_load_factor_ = false ∧
    (insert sampleX ("x", 2)).map (fun r => (r.2.1, r.2.2.size)) = some (false, 1) ∧
    ∃ it flag m1, insert sampleX ("x", 2) = some (it, flag, m1) ∧
      (flag = true ↔ find sampleX "x" = some (end_ sampleX)) ∧
      m1.size = (if flag = true then sampleX.size + 1 else sampleX.size) ∧
      ∃ nd, getNode m1.inner_list_ it = some nd ∧ nd.key = "x" ∧ nd.value = 2 :=
  ⟨by decide!, by decide!, by decide!, by decide!, by decide!, by decide!,
    insert_flag_size sampleX "x" 2 (.node 1) (by decide!) (by decide!)
      (fun _ => by decide!) (fun _ => by decide!)⟩

/-- C4 (fails on the code): with 8 buckets and `max_load_factor = 0.8` the
inserts of the keys 1..7 leave 7 elements in 8 buckets, above the maximum,
and the seventh call did not rehash; `table_size` is still 8 after the keys
1..10.  From the default-constructed table, 103 inserts leave 103 elements in
128 buckets. -/
theorem load_factor_above_max_without_rehash :
    sample8.table_size_ = 8 ∧ sample8.max_load_factor_ = ⟨4, 5⟩ ∧
    (insert_range sample8 [(1, 1), (2, 2), (3, 3), (4, 4), (5, 5), (6, 6)]).map
      (fun m => (m.size, m.table_size_)) = some (6, 8) ∧
    (insert_range sample8 [(1, 1), (2, 2), (3, 3), (4, 4), (5, 5), (6, 6), (7, 7)]).map
      (fun m => (m.size, m.table_size_, Frac.le ⟨m.size, m.table_size_⟩ m.max_load_factor_))
      = some (7, 8, false) ∧
    (insert_range sample8 [(1, 1), (2, 2), (3, 3), (4, 4), (5, 5), (6, 6), (7, 7),
        (8, 8), (9, 9), (10, 10)]).map (fun m => (m.size, m.table_size_)) = some (10, 8) ∧
    (insert_range (default_ctor id) ((List.range 103).map (fun i => (i, i)))).map
      (fun m : UnorderedMap Nat Nat =>
        (m.size, m.table_size_, Frac.le ⟨m.size, m.table_size_⟩ m.max_load_factor_))
      = some (103, 128, false) := by
  decide!

/-- C5 (fails on the code): from the default-constructed table (identity
hash), insert 128, 0, 1, erase the element with key 128, insert 1: the buckets
in iteration order are 1, 0, 1, so bucket 1 is not one run. -/
theorem bucket_run_broken_after_erase :
    find sample3 128 = some (.node 1) ∧
    ((erase sample3 (.node 1)).bind (fun m => insert m (1, 11))).map
      (fun r => (r.2.2.buckets, runsContiguous r.2.2.buckets)) = some ([1, 0, 1], false) := by
  decide!

/-- C6 (fails on the code): `sample3` satisfies I1-I4 and holds the keys 0, 128
(bucket 0) and 1 (bucket 1); `find(1)` succeeds before the element with key
128 is erased and yields `end()` afterwards. -/
theorem erase_hides_neighbour_key :
    Inv1234 sample3 ∧ sample3.keys = [0, 128, 1] ∧
    find sample3 128 = some (.node 1) ∧ find sample3 1 = some (.node 3) ∧
    (erase sample3 (.node 1)).map (fun m => m.keys) = some [0, 1] ∧
    (erase sample3 (.node 1)).bind (fun m => find m 1) = some .fake := by
  decide!

/-- C7: on a table satisfying I1-I4, erasing the element `find(k)` returned is
defined, `find(k)` afterwards returns `end()`, and `size()` has dropped by
exactly one. -/
theorem erase_found_key_gone (m : UnorderedMap K V) (k : K) (it : BaseNodePtr)
    (h : Inv1234 m) (hf : find m k = some it) (hne : it ≠ end_ m) :
    ∃ m1, erase m it = some m1 ∧ find m1 k = some (end_ m1) ∧ m1.size + 1 = m.size := by
  obtain ⟨⟨hts, hlen, hnd, _⟩, _, _, h4⟩ := h
  rcases find_result hf with h0 | ⟨n0, _, hit, _⟩
  · exact absurd h0 hne
  · subst hit
    obtain ⟨A, B, n, T, hl, _, hk, he, _, hT⟩ := erase_found hts hlen hnd hf
    refine ⟨_, he, ?_, ?_⟩
    · rcases hT with h1 | ⟨a, start1, h1, h2⟩
      · exact find_of_null_slot (m := { m with inner_list_ := A ++ B, table_ := T }) hts h1
      · rw [find_of_anchor (m := { m with inner_list_ := A ++ B, table_ := T }) hts h1 h2]
        have habs : ∀ x ∈ start1, x.key ≠ k := by
          intro x hx
          have hk4 : ((A ++ n :: B).map Node.key).Nodup := by
            have := h4
            unfold I4 keys at this
            rwa [hl] at this
          rw [← hk]
          exact key_absent_after_unlink hk4 x (after_subset h2 x hx)
        rw [findLoop_fake_of_absent _ _ _ _ habs]
        rfl
    · show (A ++ B).length + 1 = m.inner_list_.length
      rw [hl]
      simp only [List.length_append, List.length_cons]
      omega

/-- Witness for C7 on `sample3`: the element with key 128 (node 1) is erased. -/
theorem erase_found_key_gone_witness :
    Inv1234 sample3 ∧ find sample3 128 = some (.node 1) ∧ BaseNodePtr.node 1 ≠ end_ sample3 ∧
    ∃ m1, erase sample3 (.node 1) = some m1 ∧ find m1 128 = some (end_ m1) ∧
      m1.size + 1 = sample3.size :=
  ⟨by decide!, by decide!, by decide!,
    erase_found_key_gone sample3 128 (.node 1) (by decide!) (by decide!) (by decide!)⟩

/-- C9: when `find(k)` returns, `at(k)` throws `std::range_error` exactly when
the result is `end()`, otherwise it returns the value of the node `find(k)`
designates; the table after the call is the table before it, and the overload
taking `Key&&` behaves the same. -/
theorem at_fails_iff_absent (m : UnorderedMap K V) (k : K) (it : BaseNodePtr)
    (hf : find m k = some it) :
    (it = end_ m ↔ at_ m k = some (.range_error, m)) ∧
    (it ≠ end_ m → ∃ nd, getNode m.inner_list_ it = some nd ∧
      at_ m k = some (.value nd.value, m)) ∧
    at_rv m k = at_ m k := by
  have hat : at_ m k = if it = end_ m then some (.range_error, m)
      else (getNode m.inner_list_ it).bind (fun nd => some (.value nd.value, m)) := by
    simp [at_, hf]
  refine ⟨⟨fun h => by rw [hat, if_pos h], fun h => ?_⟩, fun hne => ?_, rfl⟩
  · by_contra hne
    rw [hat, if_neg hne] at h
    cases hg : getNode m.inner_list_ it with
    | none => simp [hg] at h
    | some nd => simp [hg] at h
  · rcases find_result hf with h | ⟨n, hn, hit, _⟩
    · exact absurd h hne
    · obtain ⟨nd, hnd⟩ := getNode_isSome_of_mem hn
      rw [← hit] at hnd
      exact ⟨nd, hnd, by rw [hat, if_neg hne, hnd]; rfl⟩

/-- Witness for C9 on `sample3`: key 1 is found in node 3, and `at(1)` returns
that node's value. -/
theorem at_fails_iff_absent_witness :
    find sample3 1 = some (.node 3) ∧
    ((BaseNodePtr.node 3 = end_ sample3 ↔ at_ sample3 1 = some (.range_error, sample3)) ∧
     (BaseNodePtr.node 3 ≠ end_ sample3 → ∃ nd, getNode sample3.inner_list_ (.node 3) = some nd ∧
        at_ sample3 1 = some (.value nd.value, sample3)) ∧
     at_rv sample3 1 = at_ sample3 1) :=
  ⟨by decide!, at_fails_iff_absent sample3 1 (.node 3) (by decide!)⟩

/-- C11: whenever `find(k)` returns: when it returns an element, `operator[](k)`
yields that element's value and the table is unchanged; when it returns
`end()` - the nodes having been allocated before `next_id`, and the bucket
array of a rehash being built when the load factor test fires -
`operator[](k)` adds exactly the pair `(k, Value())`, `size()` grows by one and
the reference returned is to the value of the new node, the default value. -/
theorem operator_index_spec [Inhabited V] (m : UnorderedMap K V) (k : K) (it0 : BaseNodePtr)
    (hf : find m k = some it0) :
    (it0 ≠ end_ m → ∃ nd, getNode m.inner_list_ it0 = some nd ∧
      operator_index m k = some (it0, nd.value, m)) ∧
    (it0 = end_ m → (∀ n ∈ m.inner_list_, n.id < m.next_id) →
      (m.load_factor_.ge m.max_load_factor_ = true →
        vector_fits m (m.table_size_ * 4) = true) →
      ∃ it m1, operator_index m k = some (it, default, m1) ∧
        m1.size = m.size + 1 ∧
        (m1.inner_list_.map Node.kv).Perm ((k, default) :: m.inner_list_.map Node.kv) ∧
        ∃ nd, getNode m1.inner_list_ it = some nd ∧ nd.key = k ∧ nd.value = default) := by
  obtain ⟨hts, hslot⟩ := find_eq_some hf
  refine ⟨?_, ?_⟩
  · intro hne
    rcases find_result hf with h0 | ⟨n, hn, hit, _⟩
    · exact absurd h0 hne
    · obtain ⟨nd, hg⟩ := getNode_isSome_of_mem hn
      rw [← hit] at hg
      refine ⟨nd, hg, ?_⟩
      unfold operator_index
      simp only [hf, Option.bind_eq_bind, Option.some_bind, hne, ne_eq, not_false_eq_true,
        if_true, hg]
  · intro he hfresh hfit
    subst he
    have hohl : m.bucket k < m.table_.length := by
      rcases hslot with ⟨h1, _⟩ | ⟨a, start, h1, _, _⟩
      · exact (List.getElem?_eq_some_iff.mp h1).1
      · exact (List.getElem?_eq_some_iff.mp h1).1
    obtain ⟨it, m4, hp, hsz, nd, hg, hk, hv⟩ := emplace_place_ok m true (m.bucket k) k
      (default : V) hts hfit (bucket_lt m k hts) hohl hfresh (by
        intro s hs
        rcases hslot with ⟨h1, _⟩ | ⟨a, start, h1, h2, _⟩
        · rw [h1] at hs
          rw [← Option.some.inj hs]
          trivial
        · rw [h1] at hs
          rw [← Option.some.inj hs]
          show Live _ _
          unfold Live
          rw [h2]; rfl)
    have hins : insert m (k, (default : V)) = some (it, true, m4) := by
      show emplace m k default = _
      rw [emplace_eq, modIdx_pos _ hts, hf]
      simp only [Option.some_bind, end_, ne_eq, not_true_eq_false, if_false]
      exact hp
    refine ⟨it, m4, ?_, hsz, emplace_place_perm hts hfit hp, nd, hg, hk, hv⟩
    unfold operator_index
    simp only [hf, Option.bind_eq_bind, Option.some_bind, end_, ne_eq, not_true_eq_false,
      if_false, hins, hg, hv]

/-- Witness for C11: `operator[]` on `sample3` with the key 5, which is not
stored, and with the key 128, which is. -/
theorem operator_index_spec_witness :
    find sample3 5 = some (end_ sample3) ∧
    (∀ n ∈ sample3.inner_list_, n.id < sample3.next_id) ∧
    sample3.load_factor_.ge sample3.max_load_factor_ = false ∧
    (operator_index sample3 128).map (fun r => (r.1, r.2.1)) = some (.node 1, 1280) ∧
    ∃ it m1, operator_index sample3 5 = some (it, default, m1) ∧
      m1.size = sample3.size + 1 ∧
      (m1.inner_list_.map Node.kv).Perm ((5, default) :: sample3.inner_list_.map Node.kv) ∧
      ∃ nd, getNode m1.inner_list_ it = some nd ∧ nd.key = 5 ∧ nd.value = default :=
  ⟨by decide!, by decide!, by decide!, by decide!,
    (operator_index_spec sample3 5 (end_ sample3) (by decide!)).2 rfl (by decide!)
      (fun _ => by decide!)⟩

/-- C12 (fails on the code): `sample105` satisfies I1-I4 and holds 105
elements, key 200 with value 7 the last in iteration order.  Its copy is
built by 105 inserts into a table of 128 buckets; the last one rehashes and
places key 200 with the bucket index computed before the rehash, so the copy
has 105 elements but `find(200)` on it yields `end()`. -/
theorem copy_loses_key_after_rehash :
    Inv1234 sample105 ∧ sample105.size = 105 ∧
    find sample105 200 = some (.node 105) ∧
    (getNode sample105.inner_list_ (.node 105)).map (fun n => (n.key, n.value))
      = some (200, 7) ∧
    (copy_ctor sample105).map (fun c => (c.size, c.table_size_, find c 200))
      = some (105, 256, some .fake) :=
  ⟨⟨sample105_shape, sample105_I1, sample105_I2_I3, sample105_I4⟩, sample105_found.1,
    sample105_found.2.1, sample105_found.2.2, sample105_copy⟩

/-- C13 (fails on the code): after the first insert into the
default-constructed table `load_factor()` is 0/128 while `size()` is 1 and
`table_size` is 128; `sample3`, with three elements, reports 2/128, and after
two erases it still reports 2/128 with one element left. -/
theorem load_factor_lags_behind :
    (insert (default_ctor id) ((1 : Nat), (1 : Nat))).map
      (fun r => (r.2.2.load_factor, r.2.2.size, r.2.2.table_size_,
        decide (r.2.2.load_factor.num * r.2.2.table_size_
          = r.2.2.size * r.2.2.load_factor.den)))
      = some (⟨0, 128⟩, 1, 128, false) ∧
    sample3.load_factor = ⟨2, 128⟩ ∧ sample3.size = 3 ∧
    ((erase sample3 (.node 1)).bind (fun m => erase m (.node 2))).map
      (fun m => (m.load_factor, m.size, m.table_size_)) = some (⟨2, 128⟩, 1, 128) := by
  decide!

/-- C14 (fails on the code): `sample256` satisfies I1-I4 with 256 buckets and
finds key 200; the table move-constructed from it has `table_size_ = 128`,
looks for key 200 in bucket 72 and yields `end()`. -/
theorem move_resets_table_size :
    Inv1234 sample256 ∧ sample256.table_size_ = 256 ∧ sample256.keys = [71, 72, 73, 200] ∧
    find sample256 200 = some (.node 4) ∧
    (move_ctor sample256).table_size_ = 128 ∧
    (move_ctor sample256).bucket 200 = 72 ∧
    find (move_ctor sample256) 200 = some .fake := by
  decide!

/-- C15: on a table satisfying I1-I3 `find(k)` is defined; it returns an
iterator to an element with key `k` when the sequence holds one and `end()`
otherwise; when the slot of `hash(k) mod table_size` is null the answer is
`end()` whatever the nodes of the sequence are. -/
theorem find_correct (m : UnorderedMap K V) (h : Inv123 m) (k : K) :
    ∃ it, find m k = some it ∧
      ((∃ n ∈ m.inner_list_, n.key = k) →
        ∃ n ∈ m.inner_list_, n.key = k ∧ it = .node n.id ∧
          getNode m.inner_list_ it = some n) ∧
      ((∀ n ∈ m.inner_list_, n.key ≠ k) → it = end_ m) ∧
      (m.table_[m.bucket k]? = some none →
        it = end_ m ∧ ∀ l : List (Node K V),
          find ({ m with inner_list_ := l } : UnorderedMap K V) k = some (end_ m)) := by
  obtain ⟨habs, hpres⟩ := find_spec h k
  have hts : 0 < m.table_size_ := h.1.1
  have hnd : (m.inner_list_.map Node.id).Nodup := h.1.2.2.1
  have hnull : m.table_[m.bucket k]? = some none →
      ∀ l : List (Node K V),
        find ({ m with inner_list_ := l } : UnorderedMap K V) k = some (end_ m) := by
    intro hs l
    exact find_of_null_slot (m := { m with inner_list_ := l }) hts hs
  by_cases hex : ∃ n ∈ m.inner_list_, n.key = k
  · obtain ⟨n, hn, hk, hf⟩ := hpres hex
    refine ⟨_, hf, fun _ => ⟨n, hn, hk, rfl, getNode_of_nodup hn hnd⟩, ?_, ?_⟩
    · intro hno; exact absurd hk (hno n hn)
    · intro hs
      have := hnull hs m.inner_list_
      have hf' : find m k = some (end_ m) := this
      rw [hf] at hf'
      exact ⟨Option.some.inj hf', hnull hs⟩
  · have hno : ∀ n ∈ m.inner_list_, n.key ≠ k := fun n hn hk => hex ⟨n, hn, hk⟩
    exact ⟨_, habs hno, fun he => absurd he hex, fun _ => rfl, fun hs => ⟨rfl, hnull hs⟩⟩

/-- Witness for C15 on `sample3` and key 128. -/
theorem find_correct_witness :
    Inv123 sample3 ∧
    ∃ it, find sample3 128 = some it ∧
      ((∃ n ∈ sample3.inner_list_, n.key = 128) →
        ∃ n ∈ sample3.inner_list_, n.key = 128 ∧ it = .node n.id ∧
          getNode sample3.inner_list_ it = some n) ∧
      ((∀ n ∈ sample3.inner_list_, n.key ≠ 128) → it = end_ sample3) ∧
      (sample3.table_[sample3.bucket 128]? = some none →
        it = end_ sample3 ∧ ∀ l : List (Node Nat Nat),
          find ({ sample3 with inner_list_ := l } : UnorderedMap Nat Nat) 128
            = some (end_ sample3)) :=
  ⟨by decide!, find_correct sample3 (by decide!) 128⟩

/-- C16 (fails as stated): `rehash(2 ^ 63)` builds a bucket array of
`2 ^ 64 mod 2 ^ 64 = 0` slots.  On `sample3` the loop indexes it, which is
undefined; on the empty default-constructed table the call returns with
`table_size_ = 2 ^ 63` and no slot at all: bucket 0 has no slot, so that I3
fails.  `rehash(2 ^ 59)` asks for a vector of `2 ^ 60` pointers, more than
`max_size()`: the constructor throws after line 571 has stored the new
`table_size_`, and the call leaves `sample3` with `table_size_ = 2 ^ 59` over
its 128 slots. -/
theorem rehash_without_bucket_array :
    (0 < 2 ^ 63 ∧ (rehash sample3 (2 ^ 63)).isSome = false ∧
      (rehash (default_ctor id : UnorderedMap Nat Nat) (2 ^ 63)).map
        (fun m => (m.table_size_, m.table_, m.table_[0]?)) = some (2 ^ 63, [], none) ∧
      ∀ m : UnorderedMap Nat Nat, 0 < m.table_size_ → m.table_[0]? = none → ¬ I2_I3 m) ∧
    (0 < 2 ^ 59 ∧ (rehash sample3 (2 ^ 59)).isSome = false ∧
      (rehash_throws sample3 (2 ^ 59)).map
        (fun m => (m.table_size_, m.table_.length, m.size)) = some (2 ^ 59, 128, 3)) :=
  ⟨⟨by decide, by decide!, by decide!, fun m hts h0 h => by
      have := h 0 hts
      rw [h0] at this
      exact absurd this (by simp)⟩,
    by decide, by decide!, by decide!⟩

/-- C16 (amended): for every table and every `n > 0` for which the vector of
`2 * n` null pointers of line 572 is built (`2 * n` is at most `max_size()` and
the allocation succeeds), `rehash(n)` returns; afterwards `table_size` is `n`,
the key/value pairs are the same multiset and `size()` is the same, I1-I3 hold
for `n` buckets, and every element that is the only one with its key is found
by `find` with its value. -/
theorem rehash_rebuilds (m : UnorderedMap K V) (n : Nat) (hn : 0 < n)
    (hfit : vector_fits m (n * 2) = true) :
    ∃ m1, rehash m n = some m1 ∧ m1.table_size_ = n ∧
      (m1.inner_list_.map Node.kv).Perm (m.inner_list_.map Node.kv) ∧ m1.size = m.size ∧
      Inv123 m1 ∧
      ∀ e ∈ m.inner_list_, (∀ e1 ∈ m.inner_list_, e1.key = e.key → e1 = e) →
        ∃ z, find m1 e.key = some (.node z.id) ∧
          getNode m1.inner_list_ (.node z.id) = some z ∧ z.key = e.key ∧ z.value = e.value := by
  obtain ⟨m1, hr, hts, _, _, _, _, hperm, hinv⟩ := rehash_wf m n hn hfit
  refine ⟨m1, hr, hts, hperm, ?_, hinv, ?_⟩
  · have := hperm.length_eq
    simpa [size] using this
  · intro e he huniq
    have hin : e.kv ∈ m1.inner_list_.map Node.kv :=
      hperm.symm.subset (List.mem_map_of_mem Node.kv he)
    obtain ⟨y, hy, hykv⟩ := List.mem_map.mp hin
    have hyk : y.key = e.key := congrArg Prod.fst hykv
    obtain ⟨z, hz, hzk, hf⟩ := (find_spec hinv e.key).2 ⟨y, hy, hyk⟩
    refine ⟨z, hf, getNode_of_nodup hz hinv.1.2.2.1, hzk, ?_⟩
    have hzin : z.kv ∈ m.inner_list_.map Node.kv :=
      hperm.subset (List.mem_map_of_mem Node.kv hz)
    obtain ⟨e1, he1, he1kv⟩ := List.mem_map.mp hzin
    have he1k : e1.key = e.key := by
      have : e1.key = z.key := congrArg Prod.fst he1kv
      rw [this, hzk]
    have := huniq e1 he1 he1k
    subst this
    exact (congrArg Prod.snd he1kv).symm

/-- Witness for C16: `rehash(8)` on `sample3`. -/
theorem rehash_rebuilds_witness :
    0 < 8 ∧ vector_fits sample3 (8 * 2) = true ∧
    ∃ m1, rehash sample3 8 = some m1 ∧ m1.table_size_ = 8 ∧
      (m1.inner_list_.map Node.kv).Perm (sample3.inner_list_.map Node.kv) ∧
      m1.size = sample3.size ∧ Inv123 m1 ∧
      ∀ e ∈ sample3.inner_list_, (∀ e1 ∈ sample3.inner_list_, e1.key = e.key → e1 = e) →
        ∃ z, find m1 e.key = some (.node z.id) ∧
          getNode m1.inner_list_ (.node z.id) = some z ∧ z.key = e.key ∧ z.value = e.value :=
  ⟨by decide, by decide!, rehash_rebuilds sample3 8 (by decide) (by decide!)⟩

/-- C17: on a table satisfying I1-I4, the insert of a key that is not stored,
when the load factor test does not fire (no rehash), is defined and returns
the flag `true`; the table satisfies I1-I4 again and every element stored
before is found by `find` under its key, before and after, in the same node
with the same value. -/
theorem insert_keeps_invariants (m : UnorderedMap K V) (k : K) (v : V) (h : Inv1234 m)
    (habs : ∀ n ∈ m.inner_list_, n.key ≠ k)
    (hnr : m.load_factor_.ge m.max_load_factor_ = false) :
    ∃ it m1, insert m (k, v) = some (it, true, m1) ∧ Inv1234 m1 ∧
      m1.table_size_ = m.table_size_ ∧
      ∀ n ∈ m.inner_list_, find m n.key = some (.node n.id) ∧
        find m1 n.key = some (.node n.id) ∧
        getNode m1.inner_list_ (.node n.id) = some n := by
  obtain ⟨hshape, h1, h23, h4⟩ := h
  have h123 : Inv123 m := ⟨hshape, h1, h23⟩
  have hts : 0 < m.table_size_ := hshape.1
  have hf : find m k = some .fake := (find_spec h123 k).1 habs
  obtain ⟨m1, hp, hinv1, hts1, _, _, hperm⟩ := emplace_place_no_rehash m true k v h123 hnr
  have hins : insert m (k, v) = some (.node m.next_id, true, m1) := by
    show emplace m k v = _
    rw [emplace_eq, modIdx_pos _ hts, hf]
    simp only [Option.some_bind, end_, ne_eq, not_true_eq_false, if_false]
    exact hp
  have hkeys : (m1.inner_list_.map Node.key).Perm (k :: m.inner_list_.map Node.key) := by
    simpa using hperm.map Node.key
  have h4' : I4 m1 := by
    show (m1.inner_list_.map Node.key).Nodup
    rw [hkeys.nodup_iff, List.nodup_cons]
    refine ⟨?_, h4⟩
    intro hmem
    obtain ⟨y, hy, hyk⟩ := List.mem_map.mp hmem
    exact habs y hy hyk
  have hlookup : ∀ (mm : UnorderedMap K V), Inv123 mm → (mm.inner_list_.map Node.key).Nodup →
      ∀ n ∈ mm.inner_list_, find mm n.key = some (.node n.id) := by
    intro mm hmm hk n hn
    obtain ⟨z, hz, hzk, hfz⟩ := (find_spec hmm n.key).2 ⟨n, hn, rfl⟩
    have : z = n := List.inj_on_of_nodup_map hk hz hn hzk
    rw [hfz, this]
  refine ⟨_, m1, hins, ⟨hinv1.1, hinv1.2.1, hinv1.2.2, h4'⟩, hts1, ?_⟩
  intro n hn
  have hn1 : n ∈ m1.inner_list_ := hperm.symm.subset (List.mem_cons_of_mem _ hn)
  exact ⟨hlookup m h123 h4 n hn, hlookup m1 hinv1 h4' n hn1,
    getNode_of_nodup hn1 hinv1.1.2.2.1⟩

/-- Witness for C17: the insert of the new key 5 into `sample3`. -/
theorem insert_keeps_invariants_witness :
    Inv1234 sample3 ∧ (∀ n ∈ sample3.inner_list_, n.key ≠ 5) ∧
    sample3.load_factor_.ge sample3.max_load_factor_ = false ∧
    ∃ it m1, insert sample3 (5, 50) = some (it, true, m1) ∧ Inv1234 m1 ∧
      m1.table_size_ = sample3.table_size_ ∧
      ∀ n ∈ sample3.inner_list_, find sample3 n.key = some (.node n.id) ∧
        find m1 n.key = some (.node n.id) ∧
        getNode m1.inner_list_ (.node n.id) = some n :=
  ⟨by decide!, by decide!, by decide!,
    insert_keeps_invariants sample3 5 50 (by decide!) (by decide!) (by decide!)⟩

/-- C18 (fails on the code): `sample3` satisfies I1-I3; the element with key
128 is the second of bucket 0's run and is followed by the first element of
bucket 1.  After its erase the slot of bucket 1 holds the sentinel, while the
node preceding bucket 1's first element is node 2 (key 0, the predecessor of
the erased node), so I2 is broken. -/
theorem erase_misplaces_next_anchor :
    Inv123 sample3 ∧ sample3.keys = [0, 128, 1] ∧
    sample3.inner_list_.map Node.id = [2, 1, 3] ∧
    (erase sample3 (.node 1)).map
      (fun m => (m.keys, m.table_[1]?, anchorOf m 1 .fake m.inner_list_, decide (I2_I3 m)))
      = some ([0, 1], some (some .fake), some (.node 2), false) := by
  decide!

/-- C19: on a table satisfying I1-I3, erasing the element that is alone in its
bucket is defined; afterwards the slot of that bucket is null and `find`
returns `end()` for every key of that bucket. -/
theorem erase_sole_occupant (m : UnorderedMap K V) (h : Inv123 m) (e : Node K V)
    (he : e ∈ m.inner_list_)
    (hsole : ∀ y ∈ m.inner_list_, m.bucket y.key = m.bucket e.key → y = e) :
    ∃ m1, erase m (.node e.id) = some m1 ∧ m1.table_[m.bucket e.key]? = some none ∧
      ∀ k, m1.bucket k = m.bucket e.key → find m1 k = some (end_ m1) := by
  obtain ⟨⟨hts, hlen, hnd, _⟩, _, h23⟩ := h
  obtain ⟨A, B, hl, hA, hB⟩ := split_of_mem he hnd
  have hb := bucket_lt m e.key hts
  have hlt : m.bucket e.key < m.table_.length := lt_of_lt_of_le hb hlen
  have hAb : ∀ y ∈ A, m.bucket y.key ≠ m.bucket e.key := by
    intro y hy hyb
    have := hsole y (by rw [hl]; exact List.mem_append.mpr (Or.inl hy)) hyb
    exact hA y hy (by rw [this])
  have hBb : ∀ y ∈ B, m.bucket y.key ≠ m.bucket e.key := by
    intro y hy hyb
    have := hsole y (by rw [hl]; simp [hy]) hyb
    exact hB y hy (by rw [this])
  have hslot : m.table_[m.bucket e.key]? = some (some (back .fake A)) := by
    rw [h23 _ hb, hl, anchorOf_skip m _ .fake A _ hAb]
    simp [anchorOf]
  have haft : after .fake m.inner_list_ (back .fake A) = some (e :: B) := by
    rw [hl]
    exact after_back .fake (by simp) A (e :: B) (by rw [← hl]; exact hnd)
  have hers := erase_split m A B e (back .fake A) (e :: B) hts hlen hl hnd hslot haft
  have hT : (slotsAfterErase m e (back .fake A) (headPtr .fake (e :: B)) B)[m.bucket e.key]?
      = some none := by
    cases B with
    | nil => simp [slotsAfterErase, headPtr, hlt]
    | cons b2 r =>
      have hne : m.bucket b2.key ≠ m.bucket e.key := hBb b2 (by simp)
      simp only [slotsAfterErase, headPtr, if_true]
      rw [List.getElem?_set_ne hne, List.getElem?_set_self hlt]
  refine ⟨_, hers, hT, ?_⟩
  intro k hk
  refine find_of_null_slot hts ?_
  have hk' : m.bucket k = m.bucket e.key := hk
  show (slotsAfterErase m e (back .fake A) (headPtr .fake (e :: B)) B)[m.bucket k]? = some none
  rw [hk']
  exact hT

/-- Witness for C19: in `sample3` the element with key 1 (node 3) is alone in
bucket 1. -/
theorem erase_sole_occupant_witness :
    Inv123 sample3 ∧ (⟨3, 1, 10⟩ : Node Nat Nat) ∈ sample3.inner_list_ ∧
    (∀ y ∈ sample3.inner_list_,
      sample3.bucket y.key = sample3.bucket (⟨3, 1, 10⟩ : Node Nat Nat).key → y = ⟨3, 1, 10⟩) ∧
    ∃ m1, erase sample3 (.node (⟨3, 1, 10⟩ : Node Nat Nat).id) = some m1 ∧
      m1.table_[sample3.bucket (⟨3, 1, 10⟩ : Node Nat Nat).key]? = some none ∧
      ∀ k, m1.bucket k = sample3.bucket (⟨3, 1, 10⟩ : Node Nat Nat).key →
        find m1 k = some (end_ m1) :=
  ⟨by decide!, by decide!, by decide!,
    erase_sole_occupant sample3 (by decide!) ⟨3, 1, 10⟩ (by decide!) (by decide!)⟩

/-- C20 (fails on the code): `sample104` satisfies I1-I4; `insert({200, 7})`
rehashes to 256 buckets, after which slot 200 = 200 mod 256 is null.  The
element is not appended: it is linked after the anchor of slot 72 = 200 mod
128, the last key stays 103 and slot 200 stays null. -/
theorem placement_uses_stale_bucket :
    Inv1234 sample104 ∧
    (rehash sample104 256).map (fun m => (m.table_size_, m.table_[200]?, m.keys.getLast?))
      = some (256, some none, some 103) ∧
    (insert sample104 (200, 7)).map
      (fun r => (r.2.2.table_size_, r.2.2.keys.getLast?, r.2.2.keys.indexOf 200))
      = some (256, some 103, 72) ∧
    (insert sample104 (200, 7)).map (fun r => (r.2.2.table_[200]?, r.2.2.table_[72]?))
      = some (some none, some (some (.node 176))) :=
  ⟨⟨sample104_shape, sample104_I1, sample104_I2_I3, sample104_I4⟩, sample104_rehash,
    sample104_insert_keys, sample104_insert_slots⟩

/-- C21: on a valid table, `erase` of a stored element whose bucket slot is
not null is defined and changes no slot but the one of the element's bucket
and the one of the bucket of the element that followed it; an insert whose
load factor test does not fire (no rehash) is defined and changes no slot but
the one of the key's bucket and, when an element with the key is replaced,
the one of the bucket of the element that followed the replaced one.  Both
keep `table_size_` and `max_load_factor_`. -/
theorem slot_frame (m : UnorderedMap K V) (h : Valid m) :
    (∀ (A B : List (Node K V)) (e : Node K V) (a : BaseNodePtr),
      m.inner_list_ = A ++ e :: B → m.table_[m.bucket e.key]? = some (some a) →
      ∃ m1, erase m (.node e.id) = some m1 ∧ m1.table_size_ = m.table_size_ ∧
        m1.max_load_factor_ = m.max_load_factor_ ∧
        ∀ b, b ≠ m.bucket e.key → (∀ x r, B = x :: r → b ≠ m.bucket x.key) →
          m1.table_[b]? = m.table_[b]?) ∧
    (∀ (k : K) (v : V), m.load_factor_.ge m.max_load_factor_ = false →
      ∃ it flag m1, insert m (k, v) = some (it, flag, m1) ∧
        m1.table_size_ = m.table_size_ ∧ m1.max_load_factor_ = m.max_load_factor_ ∧
        ∀ b, b ≠ m.bucket k →
          (∀ (A : List (Node K V)) (e x : Node K V) (r : List (Node K V)),
            m.inner_list_ = A ++ e :: x :: r → find m k = some (.node e.id) →
            b ≠ m.bucket x.key) →
          m1.table_[b]? = m.table_[b]?) := by
  have hv := h
  obtain ⟨⟨hts, hlen, hnd, hfresh⟩, hlive⟩ := h
  refine ⟨?_, ?_⟩
  · intro A B e a hl hslot
    have hla : SlotLive m.inner_list_ (some a) := hlive _ (List.getElem?_mem hslot)
    obtain ⟨start, hst⟩ := Option.isSome_iff_exists.mp hla
    have he := erase_split m A B e a start hts hlen hl hnd hslot hst
    exact ⟨_, he, rfl, rfl, fun b hb hnext =>
      slotsAfterErase_frame m e a (headPtr .fake start) B b hb hnext⟩
  · intro k v hnr
    obtain ⟨it0, hf⟩ := find_defined hv k
    have hins : insert m (k, v) = emplace m k v := rfl
    rw [hins, emplace_eq, modIdx_pos _ hts, hf]
    simp only [Option.some_bind]
    rcases find_result hf with h0 | ⟨n0, _, hit, _⟩
    · subst h0
      obtain ⟨it, m4, hp, _, _⟩ := emplace_place_ok m true (m.bucket k) k v hts
        (fun hc => by rw [hnr] at hc; exact absurd hc (by decide)) (bucket_lt m k hts)
        (lt_of_lt_of_le (bucket_lt m k hts) hlen) hfresh
        (fun s hs => hlive s (List.getElem?_mem hs))
      obtain ⟨h1, h2, _, h4⟩ := emplace_place_frame hnr hp
      refine ⟨it, true, m4, ?_, h1, h2, fun b hb _ => h4 b hb⟩
      simpa [end_] using hp
    · subst hit
      obtain ⟨A, B, n, a, first, hl, hid, hk, he, hT⟩ := erase_found_slots hts hlen hnd hf
      have hfresh1 : ∀ x ∈ A ++ B, x.id < m.next_id := by
        intro x hx
        apply hfresh x
        rw [hl]
        rcases List.mem_append.mp hx with h1 | h1
        · exact List.mem_append.mpr (Or.inl h1)
        · exact List.mem_append.mpr (Or.inr (List.mem_cons_of_mem _ h1))
      obtain ⟨it, m4, hp, _, _⟩ := emplace_place_ok
        ({ m with inner_list_ := A ++ B, table_ := slotsAfterErase m n a first B } :
          UnorderedMap K V) false (m.bucket k) k v
        hts (fun hc => by
          have hc1 : m.load_factor_.ge m.max_load_factor_ = true := hc
          rw [hnr] at hc1; exact absurd hc1 (by decide))
        (bucket_lt m k hts)
        (by rw [slotsAfterErase_length]; exact lt_of_lt_of_le (bucket_lt m k hts) hlen)
        hfresh1 (by
          intro s hs
          rcases hT with h1 | ⟨a1, start1, h1, h2⟩
          · have h3 : (slotsAfterErase m n a first B)[m.bucket k]? = some s := hs
            rw [h1] at h3
            rw [← Option.some.inj h3]
            trivial
          · have h3 : (slotsAfterErase m n a first B)[m.bucket k]? = some s := hs
            rw [h1] at h3
            rw [← Option.some.inj h3]
            show Live _ _
            unfold Live
            rw [h2]; rfl)
      obtain ⟨h1, h2, _, h4⟩ := emplace_place_frame (by exact hnr) hp
      refine ⟨it, false, m4, ?_, h1, h2, ?_⟩
      · simp only [end_, ne_eq, reduceCtorEq, not_false_eq_true, if_true, he, Option.map_some',
          Option.some_bind]
        exact hp
      · intro b hb hnext
        rw [h4 b hb]
        show (slotsAfterErase m n a first B)[b]? = _
        apply slotsAfterErase_frame m n a first B b (by rw [hk]; exact hb)
        intro x r hB
        refine hnext A n x r (by rw [hl, hB]) ?_
        rw [hid]

/-- Witness for C21 on `sample3`, a valid table. -/
theorem slot_frame_witness :
    Valid sample3 ∧
    (∀ (A B : List (Node Nat Nat)) (e : Node Nat Nat) (a : BaseNodePtr),
      sample3.inner_list_ = A ++ e :: B → sample3.table_[sample3.bucket e.key]? = some (some a) →
      ∃ m1, erase sample3 (.node e.id) = some m1 ∧ m1.table_size_ = sample3.table_size_ ∧
        m1.max_load_factor_ = sample3.max_load_factor_ ∧
        ∀ b, b ≠ sample3.bucket e.key → (∀ x r, B = x :: r → b ≠ sample3.bucket x.key) →
          m1.table_[b]? = sample3.table_[b]?) ∧
    (∀ (k v : Nat), sample3.load_factor_.ge sample3.max_load_factor_ = false →
      ∃ it flag m1, insert sample3 (k, v) = some (it, flag, m1) ∧
        m1.table_size_ = sample3.table_size_ ∧
        m1.max_load_factor_ = sample3.max_load_factor_ ∧
        ∀ b, b ≠ sample3.bucket k →
          (∀ (A : List (Node Nat Nat)) (e x : Node Nat Nat) (r : List (Node Nat Nat)),
            sample3.inner_list_ = A ++ e :: x :: r → find sample3 k = some (.node e.id) →
            b ≠ sample3.bucket x.key) →
          m1.table_[b]? = sample3.table_[b]?) :=
  ⟨by decide!, slot_frame sample3 (by decide!)⟩

/-- C23 (fails as stated): four tables reachable from the default-constructed
table (identity hash).  `rehash(2 ^ 63)` sets `table_size_ = 2 ^ 63` and builds
a bucket array of `2 ^ 64 mod 2 ^ 64 = 0` slots, so that `find` indexes an
empty vector.  `reserve(2 ^ 63)` passes the test of line 595 and calls
`rehash` with `(2 * 2 ^ 63 mod 2 ^ 64) / 0.8 = 0`: `table_size_` is 0.
`reserve(3689348814741910323)` computes `2 * count / 0.8` in `double`, which
is `2 ^ 63`, and calls `rehash(2 ^ 63)`.  `rehash(2 ^ 59)` is left by the
exception of line 572 after line 571 has stored `table_size_ = 2 ^ 59`, above
the 128 slots of the bucket array. -/
theorem reachable_table_out_of_bounds :
    (∃ m : UnorderedMap Nat Nat, Reachable id m ∧ m.table_size_ = 2 ^ 63 ∧
      m.table_.length = 0 ∧ (find m 0).isSome = false) ∧
    (∃ m : UnorderedMap Nat Nat, Reachable id m ∧ m.table_size_ = 0) ∧
    (reserve_size (default_ctor id : UnorderedMap Nat Nat) 3689348814741910323 = 2 ^ 63 ∧
      ∃ m : UnorderedMap Nat Nat, Reachable id m ∧
        reserve (default_ctor id) 3689348814741910323 = some m ∧
        m.table_size_ = 2 ^ 63 ∧ m.table_.length = 0) ∧
    (∃ m : UnorderedMap Nat Nat, Reachable id m ∧ m.table_size_ = 2 ^ 59 ∧
      m.table_.length = 128 ∧ ¬ m.table_size_ ≤ m.table_.length ∧
      (find m 128).isSome = false) :=
  ⟨⟨(rehash (default_ctor id) (2 ^ 63)).getD (default_ctor id),
      Reachable.rehash (2 ^ 63) Reachable.default_ctor (by decide)
        (eq_some_getD _ (by decide!)), by decide!, by decide!, by decide!⟩,
    ⟨(reserve (default_ctor id) (2 ^ 63)).getD (default_ctor id),
      Reachable.reserve (2 ^ 63) Reachable.default_ctor (eq_some_getD _ (by decide!)),
      by decide!⟩,
    ⟨by decide!, (reserve (default_ctor id) 3689348814741910323).getD (default_ctor id),
      Reachable.reserve 3689348814741910323 Reachable.default_ctor
        (eq_some_getD _ (by decide!)),
      eq_some_getD _ (by decide!), by decide!, by decide!⟩,
    ⟨(rehash_throws (default_ctor id) (2 ^ 59)).getD (default_ctor id),
      Reachable.rehash_throws (2 ^ 59) Reachable.default_ctor (by decide)
        (eq_some_getD _ (by decide!)), by decide!, by decide!, by decide!, by decide!⟩⟩

/-- C23 (amended): for every table reached from a default-constructed table by
calls of `insert` / `emplace`, `erase`, `rehash(n)`, `reserve` and `operator[]`
that return, `rehash` being called - by the caller or by `reserve` - with a
positive bucket count below `2 ^ 63`, `table_size_` is positive and no larger
than the length of the bucket array; so every index `hash(key) mod table_size_`
is a position of the bucket array, and of the bucket array the rehash of
`emplace` builds whenever it returns, as it does when the vector of
`4 * table_size_` slots can be built. -/
theorem bucket_index_in_bounds [Inhabited V] (hash : K → Nat) (m : UnorderedMap K V)
    (h : ReachableNoWrap hash m) :
    0 < m.table_size_ ∧ m.table_size_ ≤ m.table_.length ∧
    (∀ k, m.bucket k < m.table_.length) ∧
    (∀ m2, rehash m (m.table_size_ * 2 % 2 ^ 64) = some m2 →
      ∀ k, m.bucket k < m2.table_.length) ∧
    (vector_fits m (m.table_size_ * 4) = true →
      ∃ m2, rehash m (m.table_size_ * 2 % 2 ^ 64) = some m2) := by
  obtain ⟨hts, hlen, hmax⟩ := reachable_fields h
  have hvm : vector_max_size = 2 ^ 60 - 1 := rfl
  have hsm : m.table_size_ * 2 < 2 ^ 63 := by omega
  refine ⟨hts, hlen, fun k => lt_of_lt_of_le (bucket_lt m k hts) hlen, ?_, ?_⟩
  · intro m2 hr k
    rw [Nat.mod_eq_of_lt (by omega)] at hr
    obtain ⟨_, hlen2, _⟩ := rehash_fields (by omega) hsm hr
    have := bucket_lt m k hts
    omega
  · intro hfit
    obtain ⟨hmod, hfit2⟩ := vector_fits_doubled hfit
    rw [hmod]
    obtain ⟨m2, hr2, _⟩ := rehash_wf m (m.table_size_ * 2) (by omega) hfit2
    exact ⟨m2, hr2⟩

/-- Witness for C23: the table `sample9`, reached by `rehash(8)` and one
`insert`. -/
theorem bucket_index_in_bounds_witness :
    ReachableNoWrap id sample9 ∧
    (0 < sample9.table_size_ ∧ sample9.table_size_ ≤ sample9.table_.length ∧
      (∀ k, sample9.bucket k < sample9.table_.length) ∧
      (∀ m2, rehash sample9 (sample9.table_size_ * 2 % 2 ^ 64) = some m2 →
        ∀ k, sample9.bucket k < m2.table_.length) ∧
      (vector_fits sample9 (sample9.table_size_ * 4) = true →
        ∃ m2, rehash sample9 (sample9.table_size_ * 2 % 2 ^ 64) = some m2)) :=
  ⟨sample9_reachable, bucket_index_in_bounds id sample9 sample9_reachable⟩

end Claims

section ClaimsPlain

variable {K V : Type}

/-- C8: on a table satisfying I1-I3 the range erase `erase(begin(), end())`,
given more loop iterations than there are elements, follows no null slot
(it returns a state) and leaves `size() == 0` and `begin() == end()`. -/
theorem erase_range_all_empties (m : UnorderedMap K V) (h : Inv123 m) (fuel : Nat)
    (hfuel : m.size < fuel) :
    ∃ m1, erase_range fuel m (begin_ m) (end_ m) = some m1 ∧ m1.size = 0 ∧
      begin_ m1 = end_ m1 := by
  obtain ⟨m1, hr, hl⟩ := erase_range_front fuel m (frontAnchored_of_inv h) hfuel
  exact ⟨m1, hr, by simp [size, hl], by simp [begin_, end_, hl, headPtr]⟩

/-- Witness for C8 on `sample3` (three elements, four iterations allowed). -/
theorem erase_range_all_empties_witness :
    Inv123 sample3 ∧ sample3.size < 4 ∧
    ∃ m1, erase_range 4 sample3 (begin_ sample3) (end_ sample3) = some m1 ∧ m1.size = 0 ∧
      begin_ m1 = end_ m1 :=
  ⟨by decide!, by decide!, erase_range_all_empties sample3 (by decide!) 4 (by decide!)⟩

/-- C10 (fails on the code): the `const` overloads of `at` and `find` call
themselves; whatever the recursion depth allowed, none of them produces a
result. -/
theorem const_overloads_never_return (fuel : Nat) (m : UnorderedMap K V) (k : K) :
    at_const fuel m k = none ∧ at_const_rv fuel m k = none ∧
    find_const fuel m k = none ∧ find_const_rv fuel m k = none := by
  induction fuel with
  | zero => simp [at_const, at_const_rv, find_const, find_const_rv]
  | succ n ih => simpa [at_const, at_const_rv, find_const, find_const_rv] using ih

/-- C22 (fails as stated): on a table with 500 buckets and
`max_load_factor(0.67)`, `reserve(335)` rehashes to 999 buckets: fewer than
twice 500, and not `floor (670 / 0.67) = 1000`; and the exact quotient
`335 / 500` lies below the `double` the member holds, where the claim has the
table unchanged.  On the default-constructed table `reserve(104)` rehashes to
260 buckets, one more than the floor 259 of the exact quotient of 208 and the
`double` the member holds; `reserve(2 ^ 63)` wraps the product `2 * count` to 0
and leaves `table_size_ = 0`; and `reserve(2 ^ 53 + 1)` calls `rehash` with a
number below the floor of the exact quotient. -/
theorem reserve_rounds_in_double :
    (sample500.table_size_ = 500 ∧ sample500.max_load_factor_ = ⟨67, 100⟩ ∧
      (reserve sample500 335).map (fun m => m.table_size_) = some 999 ∧
      ¬ 2 * 500 ≤ 999 ∧ 2 * 335 * 100 / 67 = 1000 ∧
      335 * (to_double ⟨67, 100⟩).den < (to_double ⟨67, 100⟩).num * 500) ∧
    ((reserve (default_ctor id : UnorderedMap Nat Nat) 104).map
        (fun m => m.table_size_) = some 260 ∧
      2 * 104 * (to_double ⟨4, 5⟩).den / (to_double ⟨4, 5⟩).num = 259) ∧
    ((reserve (default_ctor id : UnorderedMap Nat Nat) (2 ^ 63)).map
        (fun m => m.table_size_) = some 0) ∧
    (reserve_test (default_ctor id : UnorderedMap Nat Nat) (2 ^ 53 + 1) = true ∧
      reserve_size (default_ctor id : UnorderedMap Nat Nat) (2 ^ 53 + 1)
        = 22517998136852480 ∧
      2 * (2 ^ 53 + 1) * (to_double ⟨4, 5⟩).den / (to_double ⟨4, 5⟩).num
        = 22517998136852481 ∧
      2 * (2 ^ 53 + 1) * 5 / 4 = 22517998136852482) := by
  decide!

/-- C22 (amended): take a table with `0 < table_size_ ≤ 2 ^ 51` and
`max_load_factor_` a positive normal `double` `M`, and `n ≤ 2 ^ 53` with
`floor (2 * n / M) < 2 ^ 53`; quotients are compared exactly, by
cross-multiplication.  When the test of line 595 fails, `reserve(n)` leaves
the table as it is and `n / table_size_ < M`; the test succeeds whenever
`n / table_size_ >= M`.  When it succeeds, the argument `q` of `rehash` is
`floor (2 * n / M)` or one more, `q + 1` is at least twice the old
`table_size_`, and `n / q < M`; if the array of `2 * q` slots can be built,
`reserve(n)` is the call `rehash(q)`, which returns, keeps the elements and
sets `table_size_` to `q`; if not, `reserve(n)` does not return. -/
theorem reserve_spec (m : UnorderedMap K V) (n : Nat) (hts : 0 < m.table_size_)
    (hts2 : m.table_size_ ≤ 2 ^ 51) (hM : Frac.normal m.max_load_factor_ = true)
    (hn : n ≤ 2 ^ 53)
    (hq : 2 * n * (to_double m.max_load_factor_).den / (to_double m.max_load_factor_).num
      < 2 ^ 53) :
    (reserve_test m n = false → reserve m n = some m ∧
      n * (to_double m.max_load_factor_).den
        < (to_double m.max_load_factor_).num * m.table_size_) ∧
    ((to_double m.max_load_factor_).num * m.table_size_
        ≤ n * (to_double m.max_load_factor_).den → reserve_test m n = true) ∧
    (reserve_test m n = true →
      2 * n * (to_double m.max_load_factor_).den / (to_double m.max_load_factor_).num
        ≤ reserve_size m n ∧
      reserve_size m n
        ≤ 2 * n * (to_double m.max_load_factor_).den / (to_double m.max_load_factor_).num + 1 ∧
      2 * m.table_size_ ≤ reserve_size m n + 1 ∧
      n * (to_double m.max_load_factor_).den
        < (to_double m.max_load_factor_).num * reserve_size m n ∧
      (vector_fits m (reserve_size m n * 2) = true →
        ∃ m1, reserve m n = some m1 ∧ rehash m (reserve_size m n) = some m1 ∧
          m1.table_size_ = reserve_size m n ∧
          m1.max_load_factor_ = m.max_load_factor_ ∧
          (m1.inner_list_.map Node.kv).Perm (m.inner_list_.map Node.kv)) ∧
      (vector_fits m (reserve_size m n * 2) = false → reserve m n = none)) := by
  have ht0 : ¬ m.table_size_ = 0 := by omega
  obtain ⟨hmlf, hmlfd, hunf⟩ := normal_pos _ hM
  have hunf1 : ¬ Frac.underflows m.max_load_factor_ = true := by rw [hunf]; decide
  have hfalse : reserve_test m n = false → reserve m n = some m ∧
      n * (to_double m.max_load_factor_).den
        < (to_double m.max_load_factor_).num * m.table_size_ := by
    intro hc
    refine ⟨by unfold reserve; rw [hc]; rfl, ?_⟩
    unfold reserve_test at hc
    rw [if_neg ht0, if_neg hunf1] at hc
    exact reserve_test_false n m.table_size_ m.max_load_factor_ hmlf hmlfd hn hts
      (le_trans hts2 (by decide)) hc
  refine ⟨hfalse, ?_, ?_⟩
  · intro hge
    cases hc : reserve_test m n with
    | true => rfl
    | false =>
      have := (hfalse hc).2
      omega
  · intro hc
    have hc1 := hc
    unfold reserve_test at hc1
    rw [if_neg ht0, if_neg hunf1] at hc1
    obtain ⟨hn0, hMn, h2t⟩ := reserve_test_true n m.table_size_ m.max_load_factor_ hmlf hmlfd
      hn hts hts2 hc1
    obtain ⟨hq1, hq2⟩ := reserve_size_near n m.max_load_factor_ hmlf hmlfd hn0 hn hq
    obtain ⟨hN, hD⟩ := to_double_pos m.max_load_factor_ hmlf hmlfd
    have hsize : reserve_size m n = Frac.trunc (to_double (Frac.div
        (to_double ⟨2 * n % 2 ^ 64, 1⟩) (to_double m.max_load_factor_))) := rfl
    rw [← hsize] at hq1 hq2
    generalize hNdef : (to_double m.max_load_factor_).num = N at *
    generalize hDdef : (to_double m.max_load_factor_).den = D at *
    generalize hqdef : reserve_size m n = q at *
    generalize hFdef : 2 * n * D / N = F at *
    have hdm := Nat.div_add_mod (2 * n * D) N
    have hml := Nat.mod_lt (2 * n * D) hN
    rw [hFdef] at hdm
    have hNF : n * D < N * F := by
      have e : 2 * n * D = 2 * (n * D) := by ring
      omega
    have hNq : n * D < N * q := lt_of_lt_of_le hNF (Nat.mul_le_mul_left N hq1)
    have hq0 : 0 < q := by
      rcases Nat.eq_zero_or_pos q with h | h
      · rw [h] at hNq; simp at hNq
      · exact h
    have hFt : 2 * m.table_size_ - 1 ≤ F := by
      rw [← hFdef]
      exact (Nat.le_div_iff_mul_le hN).mpr h2t
    have hqlt : q < 2 ^ 64 := by omega
    have hres : reserve m n = rehash m q := by
      unfold reserve
      rw [hc, if_pos rfl, if_neg hunf1, hqdef, if_pos hqlt]
    refine ⟨hq1, hq2, by omega, hNq, ?_, ?_⟩
    · intro hfit
      obtain ⟨m1, hr, hts1, _, _, hmlf1, _, hperm, _⟩ := rehash_wf m q hq0 hfit
      exact ⟨m1, by rw [hres]; exact hr, hr, hts1, hmlf1, hperm⟩
    · intro hfit
      rw [hres]
      exact rehash_eq_none (by rw [Nat.mod_eq_of_lt (by omega)]; exact hfit)

/-- Witness for C22: `reserve(103)` on the default-constructed table, whose
test succeeds (103 / 128 >= 0.8): the call is `rehash(257)`. -/
theorem reserve_spec_witness :
    (0 < (default_ctor id : UnorderedMap Nat Nat).table_size_ ∧
      (default_ctor id : UnorderedMap Nat Nat).table_size_ ≤ 2 ^ 51 ∧
      (default_ctor id : UnorderedMap Nat Nat).max_load_factor_ = ⟨4, 5⟩ ∧
      Frac.normal ⟨4, 5⟩ = true ∧
      2 * 103 * (to_double ⟨4, 5⟩).den / (to_double ⟨4, 5⟩).num = 257 ∧
      reserve_test (default_ctor id : UnorderedMap Nat Nat) 103 = true ∧
      reserve_size (default_ctor id : UnorderedMap Nat Nat) 103 = 257 ∧
      (reserve (default_ctor id : UnorderedMap Nat Nat) 103).map (fun m => m.table_size_)
        = some 257) ∧
    ∃ m1, reserve (default_ctor id : UnorderedMap Nat Nat) 103 = some m1 ∧
      rehash (default_ctor id : UnorderedMap Nat Nat)
        (reserve_size (default_ctor id : UnorderedMap Nat Nat) 103) = some m1 ∧
      m1.table_size_ = reserve_size (default_ctor id : UnorderedMap Nat Nat) 103 ∧
      m1.max_load_factor_ = (default_ctor id : UnorderedMap Nat Nat).max_load_factor_ ∧
      (m1.inner_list_.map Node.kv).Perm
        ((default_ctor id : UnorderedMap Nat Nat).inner_list_.map Node.kv) :=
  ⟨by decide!,
    ((reserve_spec (default_ctor id) 103 (by decide) (by decide) (by decide!) (by decide)
      (by decide!)).2.2 (by decide!)).2.2.2.2.1 (by decide!)⟩

end ClaimsPlain

end UnorderedMap

end UMap
